import Mathlib

/-!
# SEthernet/30 A/UX driver (`if_se.c`)

A shallow embedding of the driver's receive ring reader (`se_getbytes`, `se_get`),
its receive-buffer recovery routine (`se_rxbuf_reset`, `se_reset_counter_clear`),
the multicast filter (`se_multicast_hash`, `se_update_multicast`, the `SIOCSMAR` and
`SIOCUMAR` cases of `se_ioctl`), the bring-up path (`se_attach`, `se_init`,
`se_update_linkstate`), the transmit path (`se_output`, `se_start`, `se_put`) and the
interrupt service routine (`seint`, `se_rpkt`).

Conventions.
* C integers are natural numbers; every store into an `unsigned short` is reduced
  modulo `65536`, every store into an `unsigned char` modulo `256`, and the
  `unsigned int` reset counter modulo `2 ^ 32`.
* The driver context, the chip's register window and memory, and the parts of the
  kernel the driver talks to (mbuf allocator, callout list, console) are fields of
  one state record that every operation threads through.
* Status registers the chip changes on its own (`ESTAT`, `EIR`) are read from an
  input stream `hw`: the `n`-th such read returns `hw n`.  Busy-wait loops take a
  fuel argument and return `none` when the fuel runs out before the loop ends.
* The outcomes of `MGET` and `MCLGET` are inputs as well (`mget`, `mclget`), and so
  is what the host network stack contributes to a call of `se_output`
  (`output_env`), including the value an automatic variable without initialiser
  holds on entry.
-/

namespace SEthernet

/-! ## Constants -/

/-- Start of the receive ring, relative to the chip base address (`if_se.h`). -/
def SE_RXSTART : Nat := 0x600

/-- End of the receive ring, relative to the chip base address (`if_se.h`). -/
def SE_RXEND : Nat := 0x6000

/-- CRC32 polynomial for the multicast hash (`if_se.c`). -/
def CRCPOLY : Nat := 0x04c11db7

/-- Maximum number of receive-buffer recoveries before giving up (`if_se.c`). -/
def MAX_RESETS : Nat := 5

/-- Host constant of `netinet/if_ether.h`: `ETHERMTU`. -/
def ETHERMTU : Nat := 1500

/-- Host constant of `netinet/if_ether.h`: `ETHERMIN`, that is `60 - 14`. -/
def ETHERMIN : Nat := 60 - 14

/-- The size of `struct ether_header`: two 6-byte addresses and a 16-bit type. -/
def sizeof_ether_header : Nat := 14

/-- Modelled from the spec: `sizeof(struct se_rxheader)`.  The header is the 16-bit
`next` offset followed by `struct enc624j600_rsv`, which is declared in
`enc624j600_registers.h` (not part of the source tree): the chip's 6-byte receive
status vector, whose first 16-bit word `pkt_len_le` is the received length. -/
def sizeof_se_rxheader : Nat := 8

/-- The size of a pointer (`sizeof(struct ifnet *)`) on the 68030. -/
def sizeof_ifnet_ptr : Nat := 4

/-- Modelled from the spec: constants of headers that are not part of the source tree.
The register bit masks and field shifts come from `enc624j600_registers.h`, the
mbuf sizes from `sys/mbuf.h`, `HZ` from `sys/param.h`, the interface flags from
`net/if.h`, `ETHERTYPE_IP` from `netinet/if_ether.h` and the error numbers from
`sys/errno.h`.  The operations below take them as a parameter. -/
structure hostdefs where
  ECON1_RXEN : Nat
  ECON1_TXRTS : Nat
  ECON1_PKTDEC : Nat
  ECON1_FCOP0 : Nat
  ECON1_FCOP1 : Nat
  ECON2_AUTOFC : Nat
  ECON2_COCON_MASK : Nat
  ECON2_COCON_SHIFT : Nat
  ESTAT_FCIDLE : Nat
  ESTAT_PHYDPX : Nat
  ESTAT_PHYLNK : Nat
  ESTAT_RXBUSY : Nat
  EIR_LINKIF : Nat
  EIR_TXIF : Nat
  EIR_TXABTIF : Nat
  EIR_RXABTIF : Nat
  EIR_PKTIF : Nat
  EIE_INTIE : Nat
  EIE_LINKIE : Nat
  EIE_PKTIE : Nat
  EIE_RXABTIE : Nat
  EIE_PCFULIE : Nat
  EIE_TXIE : Nat
  EIE_TXABTIE : Nat
  ERXWM_RXFWM_SHIFT : Nat
  ERXWM_RXEWM_SHIFT : Nat
  EIDLED_LACFG_MASK : Nat
  EIDLED_LBCFG_MASK : Nat
  EIDLED_LACFG_SHIFT : Nat
  EIDLED_LBCFG_SHIFT : Nat
  ERXFCON_CRCEN : Nat
  ERXFCON_RUNTEN : Nat
  ERXFCON_UCEN : Nat
  ERXFCON_BCEN : Nat
  ERXFCON_HTEN : Nat
  MACON2_FULDPX : Nat
  MABBIPG_BBIPG_SHIFT : Nat
  MLEN : Nat
  MCLBYTES : Nat
  MMINOFF : Nat
  HZ : Nat
  IFF_UP : Nat
  IFF_BROADCAST : Nat
  IFF_NOTRAILERS : Nat
  IFF_RUNNING : Nat
  MMAXOFF : Nat
  ETHERTYPE_IP : Nat
  ENETDOWN : Nat
  EAFNOSUPPORT : Nat
  ENOBUFS : Nat
  EINVAL : Nat

/-- Size threshold for allocating a cluster mbuf (`if_se.c`). -/
def MCLTHRESHOLD (k : hostdefs) : Nat := k.MCLBYTES / 2

/-- Length of the quiet window, in clock ticks (`if_se.c`). -/
def RESET_COUNT_TIME (k : hostdefs) : Nat := k.HZ * 30

/-- A sample valuation of the constants, used to evaluate the model on concrete
inputs: register bits numbered as in the ENC624J600 data sheet, 4.3BSD mbuf sizes
and interface flags and error numbers, a 60 Hz clock. -/
def sample_defs : hostdefs where
  ECON1_RXEN := 0x0001
  ECON1_TXRTS := 0x0002
  ECON1_PKTDEC := 0x0100
  ECON1_FCOP0 := 0x0040
  ECON1_FCOP1 := 0x0080
  ECON2_AUTOFC := 0x0080
  ECON2_COCON_MASK := 0x0f00
  ECON2_COCON_SHIFT := 8
  ESTAT_FCIDLE := 0x4000
  ESTAT_PHYDPX := 0x0400
  ESTAT_PHYLNK := 0x0100
  ESTAT_RXBUSY := 0x2000
  EIR_LINKIF := 0x0800
  EIR_TXIF := 0x0008
  EIR_TXABTIF := 0x0004
  EIR_RXABTIF := 0x0002
  EIR_PKTIF := 0x0040
  EIE_INTIE := 0x8000
  EIE_LINKIE := 0x0800
  EIE_PKTIE := 0x0040
  EIE_RXABTIE := 0x0002
  EIE_PCFULIE := 0x0001
  EIE_TXIE := 0x0008
  EIE_TXABTIE := 0x0004
  ERXWM_RXFWM_SHIFT := 8
  ERXWM_RXEWM_SHIFT := 0
  EIDLED_LACFG_MASK := 0xf000
  EIDLED_LBCFG_MASK := 0x0f00
  EIDLED_LACFG_SHIFT := 12
  EIDLED_LBCFG_SHIFT := 8
  ERXFCON_CRCEN := 0x0040
  ERXFCON_RUNTEN := 0x0010
  ERXFCON_UCEN := 0x0008
  ERXFCON_BCEN := 0x0001
  ERXFCON_HTEN := 0x8000
  MACON2_FULDPX := 0x0001
  MABBIPG_BBIPG_SHIFT := 0
  MLEN := 112
  MCLBYTES := 1024
  MMINOFF := 12
  HZ := 60
  IFF_UP := 0x1
  IFF_BROADCAST := 0x2
  IFF_NOTRAILERS := 0x20
  IFF_RUNNING := 0x40
  MMAXOFF := 124
  ETHERTYPE_IP := 0x0800
  ENETDOWN := 50
  EAFNOSUPPORT := 47
  ENOBUFS := 55
  EINVAL := 22

/-! ## Data model -/

/-- The chip registers the driver touches. -/
inductive reg where
  | ECON1 | ECON2 | ESTAT | EIR | EIE
  | ERXST | ERXTAIL | ERXWM | ERXFCON | EIDLED
  | MAADR1 | MAADR2 | MAADR3
  | EHT1 | EHT2 | EHT3 | EHT4
  | MACON2 | MABBIPG | ETXST | ETXLEN
  deriving DecidableEq

/-- One mbuf: data offset, data length and the bytes at `mtod(m)`.  A chain linked
through `m_next` is a list of mbufs. -/
structure mbuf where
  m_off : Nat
  m_len : Nat
  m_dat : List Nat
  deriving DecidableEq

/-- The interface send queue `if_snd`: the queued chains in order, the capacity and
the drop counter. -/
structure ifqueue where
  ifq : List (List mbuf)
  ifq_maxlen : Nat
  ifq_drops : Nat

/-- The console messages the modelled functions print. -/
inductive msg where
  | bogus_rxptr (rxptr : Nat)
  | bogus_next (next : Nat)
  | bogus_length (len : Nat)
  | in_jail
  | dazed (rxptr : Nat)
  | dropped (dropcnt : Nat)
  | counter_cleared
  | init_complete
  | link (up : Bool)
  | transmit_abort
  | receive_overflow
  | read_failed
  | cant_handle_af
  deriving DecidableEq

/-- The driver context `struct se_context` of one card together with the chip behind
`base_address` and the kernel services the driver uses.

* `if_flags`, `if_mtu`, `if_addrlist` (is the address list non-null), `if_snd`,
  `ac_enaddr`: the fields of `ac` the modelled functions use;
* `rxptr`, `reset_counter`, `mcast_refcount`: as in `if_se.h`;
* `mem`: the bytes of chip memory, by offset from `base_address`;
* `regs`: the value last stored in each register, as the host sees it;
* `hw`, `polls`: the stream of values that reads of `ESTAT` and `EIR` return and
  the number of reads made so far;
* `mget`, `mgets`, `mclget`, `mclgets`: the outcomes of successive `MGET` and
  `MCLGET` calls and the number of calls made so far;
* `callout`: the delays of the pending `se_reset_counter_clear` callouts of this
  context;
* `console`: the messages printed so far, oldest first;
* `if_ipackets`, `if_opackets`, `if_ierrors`, `if_oerrors`: the statistics of the
  interface;
* `input`: the received chains `se_rpkt` has handed to the host network stack, each
  with its ethernet type, oldest first. -/
structure se_context where
  if_flags : Nat
  if_mtu : Nat
  if_addrlist : Bool
  if_snd : ifqueue
  ac_enaddr : List Nat
  rxptr : Nat
  reset_counter : Nat
  mcast_refcount : Nat → Nat
  mem : Nat → Nat
  regs : reg → Nat
  hw : Nat → Nat
  polls : Nat
  mget : Nat → Bool
  mgets : Nat
  mclget : Nat → Bool
  mclgets : Nat
  callout : List Nat
  console : List msg
  if_ipackets : Nat
  if_opackets : Nat
  if_ierrors : Nat
  if_oerrors : Nat
  input : List (Nat × List mbuf)

/-! ## Register access -/

/-- Modelled from the spec: the byte-order transform `SWAPBYTES` of
`enc624j600_registers.h` (not part of the source tree), which exchanges the two
bytes of a 16-bit value. -/
def SWAPBYTES (x : Nat) : Nat := (x % 256) * 256 + (x / 256) % 256

/-- Modelled from the spec: `BIT(n)` of `enc624j600_registers.h`, the mask with only
bit `n` set. -/
def BIT (n : Nat) : Nat := 2 ^ n

/-- Clear in `v` every bit that is set in `m`. -/
def bic (v m : Nat) : Nat := v ^^^ (v &&& m)

/-- Modelled from the spec: `ENC624J600_READ_REG`.  `ESTAT` and `EIR` are status
registers and return the next value of the input stream; every other register
returns the value last stored in it. -/
def ENC624J600_READ_REG (r : reg) (s : se_context) : Nat × se_context :=
  match r with
  | reg.ESTAT => (s.hw s.polls % 65536, { s with polls := s.polls + 1 })
  | reg.EIR => (s.hw s.polls % 65536, { s with polls := s.polls + 1 })
  | _ => (s.regs r, s)

/-- Modelled from the spec: `ENC624J600_WRITE_REG`, a 16-bit store. -/
def ENC624J600_WRITE_REG (r : reg) (v : Nat) (s : se_context) : se_context :=
  { s with regs := fun x => if x = r then v % 65536 else s.regs x }

/-- Modelled from the spec: `ENC624J600_SET_BITS`, which sets the bits of the 16-bit
mask. -/
def ENC624J600_SET_BITS (r : reg) (m : Nat) (s : se_context) : se_context :=
  { s with regs := fun x => if x = r then s.regs r ||| (m % 65536) else s.regs x }

/-- Modelled from the spec: `ENC624J600_CLEAR_BITS`, which clears the bits of the
mask. -/
def ENC624J600_CLEAR_BITS (r : reg) (m : Nat) (s : se_context) : se_context :=
  { s with regs := fun x => if x = r then bic (s.regs r) m else s.regs x }

/-- The kernel's `printf`: append a message to the console. -/
def printf (m : msg) (s : se_context) : se_context :=
  { s with console := s.console ++ [m] }

/-! ## The ring reader -/

/-- The kernel's `bcopy` out of chip memory: the `len` bytes at offset `src`. -/
def bcopy (mem : Nat → Nat) (src len : Nat) : List Nat :=
  (List.range len).map (fun i => mem (src + i) % 256)

/-- Read `len` bytes from the receive ring at `rxptr`, wrapping around if necessary
(`se_getbytes`).  Returns the bytes stored at `dest` and the new context.  The
comparison is made in `int`; the stores into `rxptr` and `remainder` are 16-bit.
The count `SE_RXEND - rxptr` of the first copy is not negative whenever
`rxptr <= SE_RXEND`, which `se_get` checks before it reads. -/
def se_getbytes (s : se_context) (len : Nat) : List Nat × se_context :=
  let len := len % 65536
  let rxptr := s.rxptr
  if rxptr + len < SE_RXEND then
    (bcopy s.mem rxptr len, { s with rxptr := (rxptr + len) % 65536 })
  else
    let remainder := (rxptr + len - SE_RXEND) % 65536
    (bcopy s.mem rxptr (SE_RXEND - rxptr) ++ bcopy s.mem SE_RXSTART remainder,
     { s with rxptr := (SE_RXSTART + remainder) % 65536 })

/-- Reference for the ring reader, following the specification: the ring as a
non-wrapping buffer of `SE_RXEND - SE_RXSTART` bytes. -/
def ring_buffer (mem : Nat → Nat) : List Nat :=
  (List.range (SE_RXEND - SE_RXSTART)).map (fun i => mem (SE_RXSTART + i) % 256)

/-- Reference for the ring reader, following the specification: `n` bytes of the
reference buffer starting at offset `off`, addressed modulo the buffer size. -/
def ring_read (mem : Nat → Nat) (off n : Nat) : List Nat :=
  (List.range n).map
    (fun i => (ring_buffer mem).getD ((off + i) % (SE_RXEND - SE_RXSTART)) 0)

/-! ## Kernel services: callouts and mbufs -/

/-- Modelled from the spec: the kernel's `untimeout(se_reset_counter_clear, ctx)`,
which cancels any previously scheduled counter-clear of this context. -/
def untimeout (s : se_context) : se_context :=
  { s with callout := [] }

/-- Modelled from the spec: the kernel's `timeout(se_reset_counter_clear, ctx, t)`,
which schedules a counter-clear `t` ticks from now. -/
def timeout (t : Nat) (s : se_context) : se_context :=
  { s with callout := s.callout ++ [t] }

/-- Modelled from the spec: `MGET(m, M_DONTWAIT, MT_DATA)` of `sys/mbuf.h`.  The
allocation may fail; a fresh mbuf is empty and its data starts at `MMINOFF`. -/
def MGET (k : hostdefs) (s : se_context) : Option mbuf × se_context :=
  (if s.mget s.mgets then some { m_off := k.MMINOFF, m_len := 0, m_dat := [] } else none,
   { s with mgets := s.mgets + 1 })

/-- Modelled from the spec: `MCLGET(m)` of `sys/mbuf.h`.  On success the mbuf gets a
cluster and `m_len` becomes the cluster size; on failure the mbuf is unchanged.
Where the cluster lies, and so the new `m_off`, is not modelled. -/
def MCLGET (k : hostdefs) (m : mbuf) (s : se_context) : mbuf × se_context :=
  (if s.mclget s.mclgets then { m with m_len := k.MCLBYTES } else m,
   { s with mclgets := s.mclgets + 1 })

/-! ## Error recovery -/

/-- Called by `timeout()` at the end of `se_rxbuf_reset`: clears the reset counter
(`se_reset_counter_clear`). -/
def se_reset_counter_clear (s : se_context) : se_context :=
  printf msg.counter_cleared { s with reset_counter := 0 }

/-- The kernel clock running the oldest pending callout of this context: the entry
leaves the callout list and `se_reset_counter_clear` is called.  `none` when no
callout is pending. -/
def callout_fire (s : se_context) : Option se_context :=
  match s.callout with
  | [] => none
  | _ :: rest => some (se_reset_counter_clear { s with callout := rest })

/-- The loop `while (READ_REG(ESTAT) & ESTAT_RXBUSY) {}` of `se_rxbuf_reset`. -/
def wait_rxbusy (k : hostdefs) : Nat → se_context → Option se_context
  | 0, _ => none
  | fuel + 1, s =>
    if (ENC624J600_READ_REG reg.ESTAT s).1 &&& k.ESTAT_RXBUSY ≠ 0 then
      wait_rxbusy k fuel (ENC624J600_READ_REG reg.ESTAT s).2
    else some (ENC624J600_READ_REG reg.ESTAT s).2

/-- The loop of `se_rxbuf_reset` that clears all pending packets; returns the final
`dropcnt` (an `int` in the source, kept unbounded here: it only feeds a message). -/
def clear_pending (k : hostdefs) : Nat → Nat → se_context → Option (Nat × se_context)
  | 0, _, _ => none
  | fuel + 1, dropcnt, s =>
    if (ENC624J600_READ_REG reg.EIR s).1 &&& k.EIR_PKTIF ≠ 0 then
      clear_pending k fuel (dropcnt + 1)
        (ENC624J600_SET_BITS reg.ECON1 k.ECON1_PKTDEC (ENC624J600_READ_REG reg.EIR s).2)
    else some (dropcnt, (ENC624J600_READ_REG reg.EIR s).2)

/-- The tail of `se_rxbuf_reset` after the two loops: report the drops, restore the
buffer pointers, post the counter-clear callback and re-enable reception. -/
def rxbuf_restore (k : hostdefs) (dropcnt : Nat) (s : se_context) : se_context :=
  let s := if dropcnt ≠ 0 then printf (msg.dropped dropcnt) s else s
  let s := ENC624J600_WRITE_REG reg.ERXST (SWAPBYTES SE_RXSTART) s
  let s := ENC624J600_WRITE_REG reg.ERXTAIL (SWAPBYTES (SE_RXEND - 2)) s
  let s := { s with rxptr := SE_RXSTART }
  let s := timeout (RESET_COUNT_TIME k) s
  ENC624J600_SET_BITS reg.ECON1 k.ECON1_RXEN s

/-- Attempt to recover from loss-of-state errors by re-initialising the receive
buffer pointers (`se_rxbuf_reset`).  The test `ctx->reset_counter++ > MAX_RESETS`
compares the value before the increment and stores the incremented value in the
32-bit counter.  `none`: a loop ran out of fuel. -/
def se_rxbuf_reset (k : hostdefs) (fuel : Nat) (s : se_context) : Option se_context :=
  let s0 := untimeout (ENC624J600_CLEAR_BITS reg.ECON1 k.ECON1_RXEN s)
  let old := s0.reset_counter
  let s1 := { s0 with reset_counter := (old + 1) % 2 ^ 32 }
  if old > MAX_RESETS then
    some (printf msg.in_jail s1)
  else
    match wait_rxbusy k fuel (printf (msg.dazed s1.rxptr) s1) with
    | none => none
    | some s2 =>
      match clear_pending k fuel 0 s2 with
      | none => none
      | some r => some (rxbuf_restore k r.1 r.2)

/-! ## Packet reception -/

/-- A 16-bit field of a structure filled by `se_getbytes`, as the big-endian 68030
reads it: the byte at offset `i` is the high byte. -/
def load16 (b : List Nat) (i : Nat) : Nat :=
  b.getD i 0 * 256 + b.getD (i + 1) 0

/-- The `done:` exit of `se_get`: move the tail of the receive ring to two bytes
behind `next` (16-bit arithmetic), set `rxptr` and return `top`. -/
def se_get_done (next : Nat) (top : Option (List mbuf)) (s : se_context) :
    Option (List mbuf) × se_context :=
  let tail := (next + 65536 - 2) % 65536
  let tail := if tail < SE_RXSTART then SE_RXEND - 2 else tail
  let s := ENC624J600_WRITE_REG reg.ERXTAIL (SWAPBYTES tail) s
  (top, { s with rxptr := next })

/-- One pass through the body of the loop `while (len > 0)` of `se_get` once `MGET`
has returned the mbuf `m0`: set `m_len = MLEN`, try for a cluster when more than
`MCLTHRESHOLD` bytes remain, cut `m_len` to `MIN(m->m_len, len)` and read that many
bytes from the ring into the mbuf. -/
def se_get_mbuf (k : hostdefs) (len : Nat) (m0 : mbuf) (s : se_context) :
    mbuf × se_context :=
  let m1 : mbuf := { m0 with m_len := k.MLEN }
  let c := if len > MCLTHRESHOLD k then MCLGET k m1 s else (m1, s)
  let mlen := min c.1.m_len len
  let g := se_getbytes c.2 mlen
  ({ c.1 with m_len := mlen, m_dat := g.1 }, g.2)

/-- The loop `while (len > 0)` of `se_get`, which reads the remaining data into
additional mbufs; `len -= m->m_len` is a 16-bit subtraction.  Returns the mbufs
chained after `top`, or `none` inside when an `MGET` failed (the chain is freed);
`none` outside when the fuel ran out. -/
def se_get_chain (k : hostdefs) : Nat → Nat → se_context →
    Option (Option (List mbuf) × se_context)
  | 0, len, s => if len > 0 then none else some (some [], s)
  | fuel + 1, len, s =>
    if len > 0 then
      match (MGET k s).1 with
      | none => some (none, (MGET k s).2)
      | some m0 =>
        let c := se_get_mbuf k len m0 (MGET k s).2
        (se_get_chain k fuel ((len + 65536 - c.1.m_len % 65536) % 65536) c.2).map
          (fun r => (r.1.map (fun ms => c.1 :: ms), r.2))
    else some (some [], s)

/-- The part of `se_get` after the three validations: allocate the header mbuf,
leave room for the interface pointer, read the ethernet header into it, read the
rest (`len -= sizeof(struct ether_header)` in 16 bits) and leave through `done:`. -/
def se_get_body (k : hostdefs) (fuel : Nat) (len next : Nat) (s : se_context) :
    Option (Option (List mbuf) × se_context) :=
  match (MGET k s).1 with
  | none => some (se_get_done next none (MGET k s).2)
  | some t0 =>
    let g := se_getbytes (MGET k s).2 sizeof_ether_header
    let top : mbuf :=
      { m_off := t0.m_off + sizeof_ifnet_ptr, m_len := sizeof_ether_header, m_dat := g.1 }
    (se_get_chain k fuel ((len + 65536 - sizeof_ether_header) % 65536) g.2).map
      (fun r => se_get_done next (r.1.map (fun ms => top :: ms)) r.2)

/-- Pull a packet off the receive ring, updating ring-buffer pointers accordingly
(`se_get`).  The result is the mbuf chain (`none` for a null pointer) and the new
context; `none` outside: a loop ran out of fuel. -/
def se_get (k : hostdefs) (fuel : Nat) (s : se_context) :
    Option (Option (List mbuf) × se_context) :=
  if s.rxptr % 2 ≠ 0 ∨ s.rxptr < SE_RXSTART ∨ s.rxptr > SE_RXEND then
    (se_rxbuf_reset k fuel (printf (msg.bogus_rxptr s.rxptr) s)).map (fun s1 => (none, s1))
  else
    let h := se_getbytes s sizeof_se_rxheader
    let len := (SWAPBYTES (load16 h.1 2) + 65536 - 4) % 65536
    let next := SWAPBYTES (load16 h.1 0)
    if next % 2 ≠ 0 ∨ next < SE_RXSTART ∨ next ≥ SE_RXEND then
      (se_rxbuf_reset k fuel (printf (msg.bogus_next next) h.2)).map (fun s1 => (none, s1))
    else if len + sizeof_ether_header < ETHERMIN ∨ len + sizeof_ether_header > ETHERMTU then
      (se_rxbuf_reset k fuel (printf (msg.bogus_length len) h.2)).map (fun s1 => (none, s1))
    else se_get_body k fuel len next h.2

/-! ## Multicast filter -/

/-- The inner loop of `se_multicast_hash` for one bit of `byte`, on the pair
`(crc, byte)`; `crc` is a 32-bit `unsigned int`. -/
def crc_step (st : Nat × Nat) : Nat × Nat :=
  (if ((st.2 &&& 1) ^^^ (st.1 >>> 31)) ≠ 0 then ((st.1 <<< 1) % 2 ^ 32) ^^^ CRCPOLY
   else (st.1 <<< 1) % 2 ^ 32,
   st.2 >>> 1)

/-- The body of the outer loop of `se_multicast_hash`: feed the byte `addr[i]`. -/
def crc_byte (crc byte : Nat) : Nat :=
  ((List.range 8).foldl (fun st _ => crc_step st) (crc, byte % 256)).1

/-- The CRC register of `se_multicast_hash` after its loops over the 6 bytes at
`addr`. -/
def multicast_crc (addr : Nat → Nat) : Nat :=
  (List.range 6).foldl (fun crc i => crc_byte crc (addr i)) 0xffffffff

/-- Calculate a bit position in the multicast hash table: bits 28:23 of the CRC32 of
the destination address (`se_multicast_hash`).  `addr` gives the bytes at the
pointer by index. -/
def se_multicast_hash (addr : Nat → Nat) : Nat :=
  (multicast_crc addr >>> 23) &&& 0x3f

/-- The word `table[r]` that `se_update_multicast` builds from the reference
counts. -/
def mcast_table (refcount : Nat → Nat) (r : Nat) : Nat :=
  (List.range 16).foldl
    (fun t bit => if refcount (r * 16 + bit) ≠ 0 then (t ||| BIT bit) % 65536 else t) 0

/-- Update the ENC624J600 multicast hash table from the reference-count array
(`se_update_multicast`). -/
def se_update_multicast (s : se_context) : se_context :=
  let s := ENC624J600_WRITE_REG reg.EHT1 (SWAPBYTES (mcast_table s.mcast_refcount 0)) s
  let s := ENC624J600_WRITE_REG reg.EHT2 (SWAPBYTES (mcast_table s.mcast_refcount 1)) s
  let s := ENC624J600_WRITE_REG reg.EHT3 (SWAPBYTES (mcast_table s.mcast_refcount 2)) s
  ENC624J600_WRITE_REG reg.EHT4 (SWAPBYTES (mcast_table s.mcast_refcount 3)) s

/-- The multicast commands of `se_ioctl`. -/
inductive ioctl_cmd where
  | SIOCSMAR
  | SIOCUMAR
  deriving DecidableEq

/-- The cases `SIOCSMAR` and `SIOCUMAR` of `se_ioctl`; `sa_data` gives the bytes of
`sa->sa_data`.  The reference counts are `unsigned char`.  Both cases leave
`error` at 0; the other cases of the switch are not modelled. -/
def se_ioctl (cmd : ioctl_cmd) (sa_data : Nat → Nat) (s : se_context) : Nat × se_context :=
  let bit := se_multicast_hash sa_data
  match cmd with
  | ioctl_cmd.SIOCSMAR =>
    (0, se_update_multicast
      { s with mcast_refcount :=
          fun j => if j = bit then (s.mcast_refcount bit + 1) % 256 else s.mcast_refcount j })
  | ioctl_cmd.SIOCUMAR =>
    if s.mcast_refcount bit > 0 then
      (0, se_update_multicast
        { s with mcast_refcount :=
            fun j => if j = bit then (s.mcast_refcount bit + 256 - 1) % 256
                     else s.mcast_refcount j })
    else (0, s)

/-! ## Link state, transmit start and bring-up -/

/-- The loop `while (!(READ_REG(ESTAT) & ESTAT_FCIDLE)) {}` of
`se_update_linkstate`. -/
def wait_fcidle (k : hostdefs) : Nat → se_context → Option se_context
  | 0, _ => none
  | fuel + 1, s =>
    if (ENC624J600_READ_REG reg.ESTAT s).1 &&& k.ESTAT_FCIDLE = 0 then
      wait_fcidle k fuel (ENC624J600_READ_REG reg.ESTAT s).2
    else some (ENC624J600_READ_REG reg.ESTAT s).2

/-- Read the autonegotiated duplex status from the PHY and set MAC duplex,
back-to-back interpacket gap and flow control (`se_update_linkstate`). -/
def se_update_linkstate (k : hostdefs) (fuel : Nat) (s : se_context) : Option se_context :=
  match wait_fcidle k fuel s with
  | none => none
  | some s1 =>
    let r := ENC624J600_READ_REG reg.ESTAT s1
    if r.1 &&& k.ESTAT_PHYDPX ≠ 0 then
      let s2 := ENC624J600_SET_BITS reg.MACON2 k.MACON2_FULDPX r.2
      let s3 := ENC624J600_WRITE_REG reg.MABBIPG (0x15 <<< k.MABBIPG_BBIPG_SHIFT) s2
      some (ENC624J600_SET_BITS reg.ECON2 k.ECON2_AUTOFC s3)
    else
      let s2 := ENC624J600_CLEAR_BITS reg.MACON2 k.MACON2_FULDPX r.2
      let s3 := ENC624J600_WRITE_REG reg.MABBIPG (0x12 <<< k.MABBIPG_BBIPG_SHIFT) s2
      let s4 := ENC624J600_CLEAR_BITS reg.ECON2 k.ECON2_AUTOFC s3
      some (ENC624J600_CLEAR_BITS reg.ECON1 (k.ECON1_FCOP1 ||| k.ECON1_FCOP1) s4)

/-- The bytes `bcopy` reads out of an mbuf: the `m_len` bytes at `mtod(m)`. -/
def mbuf_bytes (m : mbuf) : List Nat :=
  (List.range m.m_len).map (fun i => m.m_dat.getD i 0 % 256)

/-- The kernel's `bcopy` into chip memory: store `bytes` at offset `dst`. -/
def bcopy_to (mem : Nat → Nat) (dst : Nat) (bytes : List Nat) : Nat → Nat :=
  fun a => if dst ≤ a ∧ a < dst + bytes.length then bytes.getD (a - dst) 0 else mem a

/-- Write an mbuf chain to the transmit buffer, which starts at the chip base
address (`se_put`).  The loop state is `(totlen, bp - base_address, memory)`. -/
def se_put (m : List mbuf) (s : se_context) : Nat × se_context :=
  let r := m.foldl
    (fun (acc : Nat × Nat × (Nat → Nat)) (mp : mbuf) =>
      if mp.m_len = 0 then (acc.1 + mp.m_len, acc.2.1, acc.2.2)
      else (acc.1 + mp.m_len, acc.2.1 + mp.m_len, bcopy_to acc.2.2 acc.2.1 (mbuf_bytes mp)))
    (0, 0, s.mem)
  (r.1, { s with mem := r.2.2 })

/-- Start a transmit operation (`se_start`). -/
def se_start (k : hostdefs) (s : se_context) : se_context :=
  if (ENC624J600_READ_REG reg.ECON1 s).1 &&& k.ECON1_TXRTS ≠ 0 then s
  else
    match s.if_snd.ifq with
    | [] => s
    | m :: rest =>
      let r := se_put m { s with if_snd := { s.if_snd with ifq := rest } }
      let s1 := ENC624J600_WRITE_REG reg.ETXST 0 r.2
      let s2 := ENC624J600_WRITE_REG reg.ETXLEN (SWAPBYTES r.1) s1
      ENC624J600_SET_BITS reg.ECON1 k.ECON1_TXRTS s2

/-- Attach the interface (`se_attach`): fill in the `ifnet` fields the model keeps and
zero the multicast reference counts. -/
def se_attach (k : hostdefs) (s : se_context) : se_context :=
  { s with if_mtu := ETHERMTU,
           if_flags := k.IFF_BROADCAST ||| k.IFF_NOTRAILERS,
           mcast_refcount := fun _ => 0 }

/-- First block of `se_init`: set up the receive buffer from `SE_RXSTART` to the end
of RAM and start the read pointer at the beginning of the buffer. -/
def se_init_rxbuf (s : se_context) : se_context :=
  { ENC624J600_WRITE_REG reg.ERXTAIL (SWAPBYTES (SE_RXEND - 2))
      (ENC624J600_WRITE_REG reg.ERXST (SWAPBYTES SE_RXSTART) s) with
    rxptr := SE_RXSTART }

/-- Second block of `se_init`: the flow control water marks, computed in
`unsigned short` variables. -/
def se_init_flow (k : hostdefs) (s : se_context) : se_context :=
  let rxbuf_size := (SE_RXEND - SE_RXSTART) % 65536
  let flow_hwm := ((rxbuf_size - rxbuf_size / 4) / 96) % 65536
  let flow_lwm := ((rxbuf_size / 2) / 96) % 65536
  ENC624J600_WRITE_REG reg.ERXWM
    ((flow_hwm <<< k.ERXWM_RXFWM_SHIFT) ||| (flow_lwm <<< k.ERXWM_RXEWM_SHIFT)) s

/-- Third block of `se_init`: the 25MHz clock output. -/
def se_init_clkout (k : hostdefs) (s : se_context) : se_context :=
  ENC624J600_WRITE_REG reg.ECON2
    (bic (ENC624J600_READ_REG reg.ECON2 s).1 k.ECON2_COCON_MASK
      ||| (0x2 <<< k.ECON2_COCON_SHIFT)) s

/-- Fourth block of `se_init`: the link and activity LEDs. -/
def se_init_leds (k : hostdefs) (s : se_context) : se_context :=
  ENC624J600_WRITE_REG reg.EIDLED
    (bic (ENC624J600_READ_REG reg.EIDLED s).1 (k.EIDLED_LACFG_MASK ||| k.EIDLED_LBCFG_MASK)
      ||| ((0x2 <<< k.EIDLED_LACFG_SHIFT) ||| (0x6 <<< k.EIDLED_LBCFG_SHIFT))) s

/-- Fifth block of `se_init`: copy the ethernet address out of `MAADR1..3`; the host
stores each 16-bit word high byte first. -/
def se_init_enaddr (s : se_context) : se_context :=
  { s with ac_enaddr :=
      [(ENC624J600_READ_REG reg.MAADR1 s).1 / 256 % 256,
       (ENC624J600_READ_REG reg.MAADR1 s).1 % 256,
       (ENC624J600_READ_REG reg.MAADR2 s).1 / 256 % 256,
       (ENC624J600_READ_REG reg.MAADR2 s).1 % 256,
       (ENC624J600_READ_REG reg.MAADR3 s).1 / 256 % 256,
       (ENC624J600_READ_REG reg.MAADR3 s).1 % 256] }

/-- The register set-up of `se_init` before the multicast table is copied. -/
def se_init_regs (k : hostdefs) (s : se_context) : se_context :=
  se_init_enaddr (se_init_leds k (se_init_clkout k (se_init_flow k (se_init_rxbuf s))))

/-- The block of `se_init` after the link state is synchronised: set the receive
configuration, enable packet reception and mark the interface as running. -/
def se_init_rxcfg (k : hostdefs) (s : se_context) : se_context :=
  let s2 := ENC624J600_WRITE_REG reg.ERXFCON
    (k.ERXFCON_CRCEN ||| k.ERXFCON_RUNTEN ||| k.ERXFCON_UCEN ||| k.ERXFCON_BCEN
      ||| k.ERXFCON_HTEN) s
  let s3 := ENC624J600_SET_BITS reg.ECON1 k.ECON1_RXEN s2
  { s3 with if_flags := s3.if_flags ||| k.IFF_RUNNING }

/-- The last block of `se_init`: start transmission if packets are waiting, enable
interrupts and report. -/
def se_init_finish (k : hostdefs) (s : se_context) : se_context :=
  let s5 := if s.if_snd.ifq ≠ [] then se_start k s else s
  let s6 := ENC624J600_SET_BITS reg.EIE
    (k.EIE_INTIE ||| k.EIE_LINKIE ||| k.EIE_PKTIE ||| k.EIE_RXABTIE ||| k.EIE_PCFULIE
      ||| k.EIE_TXIE ||| k.EIE_TXABTIE) s5
  printf msg.init_complete s6

/-- Initialise the chip and bring the interface up (`se_init`).  Returns the C return
value and the new context; `none`: the wait in `se_update_linkstate` ran out of
fuel. -/
def se_init (k : hostdefs) (fuel : Nat) (s : se_context) : Option (Int × se_context) :=
  if s.if_addrlist = false then some (-1, s)
  else
    match se_update_linkstate k fuel (se_update_multicast (se_init_regs k s)) with
    | none => none
    | some s1 => some (0, se_init_finish k (se_init_rxcfg k s1))

/-! ## Vocabulary of the statements -/

/-- A ring offset is valid when it is even and lies in `[SE_RXSTART, SE_RXEND)`. -/
def ring_valid (p : Nat) : Prop :=
  p % 2 = 0 ∧ SE_RXSTART ≤ p ∧ p < SE_RXEND

instance (p : Nat) : Decidable (ring_valid p) := by
  unfold ring_valid; infer_instance

/-- The ring-buffer header `se_get` reads at `rxptr`. -/
def rx_header (s : se_context) : List Nat :=
  (se_getbytes s sizeof_se_rxheader).1

/-- The length the chip reports in the receive status vector,
`SWAPBYTES(h.rsv.pkt_len_le)`. -/
def rx_status_length (s : se_context) : Nat :=
  SWAPBYTES (load16 (rx_header s) 2)

/-- The frame length `len` of `se_get`: the status length less the checksum, in
16-bit arithmetic. -/
def rx_frame_length (s : se_context) : Nat :=
  (rx_status_length s + 65536 - 4) % 65536

/-- The next-packet offset `next` of `se_get`, `SWAPBYTES(h.next)`. -/
def rx_next (s : se_context) : Nat :=
  SWAPBYTES (load16 (rx_header s) 0)

/-- The chip's receive-busy and packet-pending flags eventually read clear: after any
number of status reads there is a later read with `ESTAT_RXBUSY` clear and a later
read with `EIR_PKTIF` clear. -/
def chip_settles (k : hostdefs) (s : se_context) : Prop :=
  (∀ t, ∃ n, s.hw (t + n) % 65536 &&& k.ESTAT_RXBUSY = 0)
  ∧ (∀ t, ∃ n, s.hw (t + n) % 65536 &&& k.EIR_PKTIF = 0)

/-- Reception is enabled: the 16-bit mask `ECON1_RXEN` is set in `ECON1`. -/
def rx_enabled (k : hostdefs) (s : se_context) : Prop :=
  s.regs reg.ECON1 &&& (k.ECON1_RXEN % 65536) = k.ECON1_RXEN % 65536

/-- Reception is disabled: no bit of `ECON1_RXEN` is set in `ECON1`. -/
def rx_disabled (k : hostdefs) (s : se_context) : Prop :=
  s.regs reg.ECON1 &&& k.ECON1_RXEN = 0

/-- Only the read pointer and the allocation counters differ between two contexts. -/
def rx_frame (s s' : se_context) : Prop :=
  s' = { s with rxptr := s'.rxptr, mgets := s'.mgets, mclgets := s'.mclgets }

/-- The context in which the give-up branch of `se_rxbuf_reset` returns. -/
def rxbuf_jail (k : hostdefs) (s : se_context) : se_context :=
  printf msg.in_jail
    { untimeout (ENC624J600_CLEAR_BITS reg.ECON1 k.ECON1_RXEN s) with
      reset_counter := (s.reset_counter + 1) % 2 ^ 32 }

/-- What a pass through `se_get` without recovery may change: the read pointer, the
allocation counters and the register `ERXTAIL`. -/
def get_frame (s s' : se_context) : Prop :=
  s' = { s with rxptr := s'.rxptr, mgets := s'.mgets, mclgets := s'.mclgets,
                regs := s'.regs }
  ∧ ∀ x, x ≠ reg.ERXTAIL → s'.regs x = s.regs x

/-- The read pointer passes the first test of `se_get`. -/
def rxptr_accepted (s : se_context) : Prop :=
  ¬ (s.rxptr % 2 ≠ 0 ∨ s.rxptr < SE_RXSTART ∨ s.rxptr > SE_RXEND)

instance (s : se_context) : Decidable (rxptr_accepted s) := by
  unfold rxptr_accepted; infer_instance

/-- A context for evaluating the model: an idle chip with zeroed memory and
registers, allocations that always succeed, an empty send queue, nothing pending. -/
def sample_ctx : se_context where
  if_flags := 0
  if_mtu := 0
  if_addrlist := true
  if_snd := { ifq := [], ifq_maxlen := 50, ifq_drops := 0 }
  ac_enaddr := [0, 0, 0, 0, 0, 0]
  rxptr := SE_RXSTART
  reset_counter := 0
  mcast_refcount := fun _ => 0
  mem := fun _ => 0
  regs := fun _ => 0
  hw := fun _ => 0
  polls := 0
  mget := fun _ => true
  mgets := 0
  mclget := fun _ => true
  mclgets := 0
  callout := []
  console := []
  if_ipackets := 0
  if_opackets := 0
  if_ierrors := 0
  if_oerrors := 0
  input := []

/-- Chip memory holding one ring-buffer header at `SE_RXSTART`, both fields
little-endian as the chip writes them: next-packet offset `next`, status length
`pkt_len`; every other byte is zero. -/
def header_mem (next pkt_len : Nat) : Nat → Nat :=
  fun a =>
    if a = SE_RXSTART then next % 256
    else if a = SE_RXSTART + 1 then next / 256 % 256
    else if a = SE_RXSTART + 2 then pkt_len % 256
    else if a = SE_RXSTART + 3 then pkt_len / 256 % 256
    else 0

/-- The context of the sample in which the read pointer is `SE_RXEND` and the chip has
written, at the start of the ring, a header announcing a frame of status length 64
with the next packet at offset `0x640`. -/
def rxend_ctx : se_context :=
  { sample_ctx with rxptr := SE_RXEND, mem := header_mem 0x640 64 }

/-- The sample context with one ring-buffer header at the read pointer. -/
def header_ctx (next pkt_len : Nat) : se_context :=
  { sample_ctx with mem := header_mem next pkt_len }

/-- The result of `n` consecutive calls of `se_rxbuf_reset`, with no callout firing
in between. -/
def recover_times (k : hostdefs) (fuel : Nat) : Nat → se_context → Option se_context
  | 0, s => some s
  | n + 1, s => (se_rxbuf_reset k fuel s).bind (recover_times k fuel n)

/-- One step of the recovery state machine: a call of `se_rxbuf_reset` that returns,
or the firing of a pending `se_reset_counter_clear` callout. -/
inductive recovery_step (k : hostdefs) : se_context → se_context → Prop where
  | reset (fuel : Nat) (s s' : se_context) :
      se_rxbuf_reset k fuel s = some s' → recovery_step k s s'
  | clear (s s' : se_context) :
      callout_fire s = some s' → recovery_step k s s'

/-- A run of exactly `n` steps of the recovery state machine. -/
inductive recovery_steps (k : hostdefs) : Nat → se_context → se_context → Prop where
  | done (s : se_context) : recovery_steps k 0 s s
  | next (n : Nat) (s s' s'' : se_context) :
      recovery_step k s s' → recovery_steps k n s' s'' → recovery_steps k (n + 1) s s''

/-- The `Disabled` state of the recovery state machine: no counter-clear callout is
pending, the reset counter is above `MAX_RESETS` and reception is disabled. -/
def disabled (k : hostdefs) (s : se_context) : Prop :=
  s.callout = [] ∧ MAX_RESETS < s.reset_counter ∧ rx_disabled k s

/-- The registers that hold the ring pointers and the multicast hash table. -/
def ring_or_filter_reg : reg → Bool
  | reg.ERXST => true
  | reg.ERXTAIL => true
  | reg.EHT1 => true
  | reg.EHT2 => true
  | reg.EHT3 => true
  | reg.EHT4 => true
  | _ => false

/-- The read pointer, the multicast reference counts, and the ring-pointer and hash
table registers are the same in both contexts. -/
def keeps (s s' : se_context) : Prop :=
  s'.rxptr = s.rxptr ∧ s'.mcast_refcount = s.mcast_refcount
  ∧ ∀ x, ring_or_filter_reg x = true → s'.regs x = s.regs x

/-- A context whose 32-bit reset counter holds its largest value. -/
def wrap_ctx : se_context :=
  { sample_ctx with reset_counter := 2 ^ 32 - 1 }


/-- Reference for the multicast hash, following the specification: one step of the
reflected CRC-32, which shifts the register right and applies the polynomial
`0xEDB88320` when the bit shifted out differs from the data bit. -/
def crc32_reflected_bit (crc bit : Nat) : Nat :=
  if (crc ^^^ bit) % 2 = 1 then (crc / 2) ^^^ 0xEDB88320 else crc / 2

/-- Reference for the multicast hash, following the specification: one byte, consumed
least-significant bit first. -/
def crc32_reflected_byte (crc byte : Nat) : Nat :=
  (List.range 8).foldl (fun c i => crc32_reflected_bit c (byte / 2 ^ i % 2)) crc

/-- Reference for the multicast hash, following the specification: the reflected
CRC-32 register after the bytes, initialised to `0xFFFFFFFF`, with no final
inversion. -/
def crc32_reflected (bytes : List Nat) : Nat :=
  bytes.foldl crc32_reflected_byte 0xFFFFFFFF

/-- Reverse the low `n` bits of `x`: bit `i` of `x` becomes bit `n - 1 - i`. -/
def bitrev : Nat → Nat → Nat
  | 0, _ => 0
  | n + 1, x => (x % 2) * 2 ^ n + bitrev n (x / 2)

/-- Reference for the multicast hash, following the specification: the CRC-32 in
normal form, the bit reversal of the reflected register. -/
def crc32_normal (bytes : List Nat) : Nat :=
  bitrev 32 (crc32_reflected bytes)

/-- Reference for the multicast hash, following the specification: bits 28 down to 23
of the CRC-32 in normal form. -/
def crc32_bucket (bytes : List Nat) : Nat :=
  crc32_normal bytes / 2 ^ 23 % 2 ^ 6

/-- The 6 bytes of the address at `addr`. -/
def addr_bytes (addr : Nat → Nat) : List Nat :=
  [addr 0 % 256, addr 1 % 256, addr 2 % 256, addr 3 % 256, addr 4 % 256, addr 5 % 256]


/-- The hash-table register that holds group `n` of 16 buckets (`EHT1` for group 0). -/
def EHT : Nat → reg
  | 0 => reg.EHT1
  | 1 => reg.EHT2
  | 2 => reg.EHT3
  | _ => reg.EHT4

/-- The pushed hash table agrees with the reference counts: for every bucket `i` below
64, bit `i mod 16` of hash-table register `i div 16`, as the chip sees it, is set iff
the count of bucket `i` is positive. -/
def filter_agrees (s : se_context) : Prop :=
  ∀ i, i < 64 →
    ((SWAPBYTES (s.regs (EHT (i / 16)))).testBit (i % 16) = true ↔ 0 < s.mcast_refcount i)

/-- A finite sequence of `SIOCSMAR` and `SIOCUMAR` calls of `se_ioctl`, each with its
address, run in order. -/
def se_ioctl_seq (calls : List (ioctl_cmd × (Nat → Nat))) (s : se_context) : se_context :=
  calls.foldl (fun s c => (se_ioctl c.1 c.2 s).2) s

/-! ## Transmit: queueing and the interrupt service routine -/

/-- The address families `se_output` distinguishes; `AF_OTHER` stands for every family
that falls to the `default` case. -/
inductive sa_family_t where
  | AF_INET
  | AF_UNSPEC
  | AF_APPLETALK
  | AF_ETHERLINK
  | AF_OTHER
  deriving DecidableEq

/-- The destination `struct sockaddr` handed to `se_output`. -/
structure sockaddr where
  sa_family : sa_family_t
  sa_data : List Nat

/-- What the host network stack and the C run time contribute to one call of
`se_output`: the outcome of `arpresolve` (`none`: not resolved, ARP keeps the chain;
otherwise the hardware address), whether the destination is a broadcast address,
whether `m_copy` returned a copy, the return value of `looutput`, and the value the
automatic variable `error`, which has no initialiser, happens to hold on entry. -/
structure output_env where
  arpresolve : Option (List Nat)
  broadcast : Bool
  m_copy : Bool
  looutput : Int
  error : Int

/-- The 6 bytes `bcopy` takes from an ethernet address. -/
def bytes6 (l : List Nat) : List Nat :=
  (List.range 6).map (fun i => l.getD i 0 % 256)

/-- The label `gotheader:` of `se_output` for a chain that already carries its
ethernet header: fill in the source address, bytes 6 to 11 of the data. -/
def set_shost (enaddr : List Nat) (m : mbuf) : mbuf :=
  let dat := (List.range (max m.m_dat.length 12)).map
    (fun i => if 6 ≤ i ∧ i < 12 then enaddr.getD (i - 6) 0 % 256 else m.m_dat.getD i 0)
  { m with m_dat := dat }

/-- The end of `se_output`: queue the chain on the interface and start output, or
drop it when the queue is full.  The full-queue path goes to `bad:` and returns
`error`, which no statement on this path has assigned. -/
def se_output_queue (k : hostdefs) (env : output_env) (m : List mbuf) (mcopy : Bool)
    (s : se_context) : Int × se_context :=
  if s.if_snd.ifq.length ≥ s.if_snd.ifq_maxlen then
    (env.error,
     { s with if_snd := { s.if_snd with ifq_drops := s.if_snd.ifq_drops + 1 } })
  else
    (if mcopy then env.looutput else 0,
     se_start k { s with if_snd := { s.if_snd with ifq := s.if_snd.ifq ++ [m] } })

/-- The part of `se_output` that adds the local net header: in the first mbuf when
there is room before its data, otherwise in a fresh mbuf from `m_get`; then the
source address is filled in and the chain is queued. -/
def se_output_header (k : hostdefs) (env : output_env) (type : Nat) (edst : List Nat)
    (mcopy : Bool) (m : mbuf) (rest : List mbuf) (s : se_context) : Int × se_context :=
  let hdr := bytes6 edst ++ bytes6 s.ac_enaddr ++ [type / 256 % 256, type % 256]
  if m.m_off > k.MMAXOFF ∨ k.MMINOFF + sizeof_ether_header > m.m_off then
    match (MGET k s).1 with
    | none => ((k.ENOBUFS : Int), (MGET k s).2)
    | some mh =>
      se_output_queue k env
        ({ mh with m_off := k.MMINOFF, m_len := sizeof_ether_header, m_dat := hdr }
          :: m :: rest) mcopy (MGET k s).2
  else
    se_output_queue k env
      ({ m with m_off := m.m_off - sizeof_ether_header,
                m_len := m.m_len + sizeof_ether_header, m_dat := hdr ++ m.m_dat } :: rest)
      mcopy s

/-- Prepare an mbuf chain for transmission and queue it on the interface
(`se_output`).  The chain `m0` is its first mbuf `m` and the mbufs `rest` linked
after it.  Returns the C return value and the new context. -/
def se_output (k : hostdefs) (env : output_env) (m : mbuf) (rest : List mbuf)
    (dst : sockaddr) (s : se_context) : Int × se_context :=
  if s.if_flags &&& (k.IFF_UP ||| k.IFF_RUNNING) ≠ (k.IFF_UP ||| k.IFF_RUNNING) then
    ((k.ENETDOWN : Int), s)
  else
    match dst.sa_family with
    | sa_family_t.AF_INET =>
      match env.arpresolve with
      | none => (0, s)
      | some edst =>
        se_output_header k env k.ETHERTYPE_IP edst (env.broadcast && env.m_copy) m rest s
    | sa_family_t.AF_UNSPEC =>
      se_output_header k env (load16 dst.sa_data 12) dst.sa_data false m rest s
    | sa_family_t.AF_APPLETALK =>
      if load16 m.m_dat 12 ≤ ETHERMTU then
        se_output_queue k env (set_shost s.ac_enaddr m :: rest) false s
      else ((k.EINVAL : Int), s)
    | sa_family_t.AF_ETHERLINK =>
      se_output_queue k env (set_shost s.ac_enaddr m :: rest) false s
    | sa_family_t.AF_OTHER => ((k.EAFNOSUPPORT : Int), printf msg.cant_handle_af s)

/-- The ethernet type of a received chain, read by the big-endian host from bytes 12
and 13 of the header mbuf. -/
def ether_type (m : List mbuf) : Nat :=
  match m with
  | [] => 0
  | top :: _ => load16 top.m_dat 12

/-- Packet-reception handler (`se_rpkt`): count the packet and pull it off the ring
with `se_get`.  What follows in the source (dropping the header, prepending the
interface pointer and the hand-over to `arpinput`, `revarpinput`, the IP and
AppleTalk input queues or `raw_input`) is the boundary with the host network stack;
it is recorded as one entry of `input`. -/
def se_rpkt (k : hostdefs) (fuel : Nat) (s : se_context) : Option se_context :=
  match se_get k fuel { s with if_ipackets := s.if_ipackets + 1 } with
  | none => none
  | some (none, s1) => some (printf msg.read_failed s1)
  | some (some m, s1) => some { s1 with input := s1.input ++ [(ether_type m, m)] }

/-- First block of `seint`: the link state has changed. -/
def seint_link (k : hostdefs) (fuel : Nat) (s : se_context) : Option se_context :=
  if (ENC624J600_READ_REG reg.EIR s).1 &&& k.EIR_LINKIF ≠ 0 then
    let e := ENC624J600_READ_REG reg.ESTAT (ENC624J600_READ_REG reg.EIR s).2
    match se_update_linkstate k fuel
        (printf (msg.link (decide (e.1 &&& k.ESTAT_PHYLNK ≠ 0))) e.2) with
    | none => none
    | some s1 => some (ENC624J600_CLEAR_BITS reg.EIR k.EIR_LINKIF s1)
  else some (ENC624J600_READ_REG reg.EIR s).2

/-- Second block of `seint`: transmit complete or abort.  Count the outcome, clear
the flags and start transmitting the next queued packet. -/
def seint_tx (k : hostdefs) (s : se_context) : se_context :=
  if (ENC624J600_READ_REG reg.EIR s).1 &&& (k.EIR_TXIF ||| k.EIR_TXABTIF) ≠ 0 then
    let a := ENC624J600_READ_REG reg.EIR (ENC624J600_READ_REG reg.EIR s).2
    let s1 :=
      if a.1 &&& k.EIR_TXABTIF ≠ 0 then
        printf msg.transmit_abort { a.2 with if_oerrors := a.2.if_oerrors + 1 }
      else { a.2 with if_opackets := a.2.if_opackets + 1 }
    let s2 := ENC624J600_CLEAR_BITS reg.EIR (k.EIR_TXIF ||| k.EIR_TXABTIF) s1
    if s2.if_snd.ifq ≠ [] then se_start k s2 else s2
  else (ENC624J600_READ_REG reg.EIR s).2

/-- Third block of `seint`: receive abort. -/
def seint_rxabt (k : hostdefs) (s : se_context) : se_context :=
  if (ENC624J600_READ_REG reg.EIR s).1 &&& k.EIR_RXABTIF ≠ 0 then
    let s1 := ENC624J600_CLEAR_BITS reg.EIR k.EIR_RXABTIF (ENC624J600_READ_REG reg.EIR s).2
    let s2 := printf msg.receive_overflow s1
    { s2 with if_ierrors := s2.if_ierrors + 1 }
  else (ENC624J600_READ_REG reg.EIR s).2

/-- Last block of `seint`: the loop `while (*ir & EIR_PKTIF)` that handles the
received packets.  `f` is the fuel of each `se_rpkt`, the first number the fuel of the
loop. -/
def seint_rx (k : hostdefs) (f : Nat) : Nat → se_context → Option se_context
  | 0, _ => none
  | fuel + 1, s =>
    if (ENC624J600_READ_REG reg.EIR s).1 &&& k.EIR_PKTIF ≠ 0 then
      match se_rpkt k f
          (ENC624J600_SET_BITS reg.ECON1 k.ECON1_PKTDEC (ENC624J600_READ_REG reg.EIR s).2) with
      | none => none
      | some s1 => seint_rx k f fuel s1
    else some (ENC624J600_READ_REG reg.EIR s).2

/-- Interrupt service routine (`seint`) for the attached unit; every `*ir` is one
read of `EIR`.  The two `panic` exits for an unknown or uninitialised unit are not
modelled.  `none`: a loop ran out of fuel. -/
def seint (k : hostdefs) (fuel : Nat) (s : se_context) : Option se_context :=
  match seint_link k fuel s with
  | none => none
  | some s1 => seint_rx k fuel fuel (seint_rxabt k (seint_tx k s1))

/-! ## Sample contexts for the subscribe, link-state and send-queue evaluations -/

/-- The sample context with 255 subscribers counted in bucket 62, the bucket of the
broadcast address, and the hash table pushed accordingly. -/
def full_bucket_ctx : se_context :=
  se_update_multicast { sample_ctx with mcast_refcount := fun i => if i = 62 then 255 else 0 }

/-- The broadcast address `ff:ff:ff:ff:ff:ff`. -/
def etherbroadcast : Nat → Nat := fun _ => 0xff

/-- The sample context with a chip whose status reads show the flow-control engine
idle and the PHY in half duplex, and with both flow-control operation bits set in
`ECON1`. -/
def half_duplex_ctx : se_context :=
  { sample_ctx with
    hw := fun _ => sample_defs.ESTAT_FCIDLE,
    regs := fun x =>
      if x = reg.ECON1 then sample_defs.ECON1_FCOP0 ||| sample_defs.ECON1_FCOP1 else 0 }

/-- A 60-byte chain that already carries its ethernet header. -/
def sample_pkt (b : Nat) : mbuf :=
  { m_off := 12, m_len := 60, m_dat := List.replicate 60 b }

/-- The sample context with the interface up and running and a send queue of
capacity 1 that holds one chain. -/
def full_queue_ctx : se_context :=
  { sample_ctx with
    if_flags := sample_defs.IFF_UP ||| sample_defs.IFF_RUNNING,
    if_snd := { ifq := [[sample_pkt 1]], ifq_maxlen := 1, ifq_drops := 0 } }

/-- The contributions of the host to a call of `se_output` for a raw ethernet chain,
with `e` in the variable `error` on entry. -/
def raw_env (e : Int) : output_env :=
  { arpresolve := none, broadcast := false, m_copy := false, looutput := 0, error := e }

/-- A destination of family `AF_ETHERLINK`. -/
def raw_dst : sockaddr :=
  { sa_family := sa_family_t.AF_ETHERLINK, sa_data := [] }

/-! ## Vocabulary of the transmit statements -/

/-- One call of `se_output`: what the host contributes, the chain (its first mbuf and
the mbufs linked after it) and the destination. -/
structure output_call where
  env : output_env
  m : mbuf
  rest : List mbuf
  dst : sockaddr

/-- A sequence of calls of `se_output`, in order. -/
def se_output_seq (k : hostdefs) : List output_call → se_context → se_context
  | [], s => s
  | c :: cs, s => se_output_seq k cs (se_output k c.env c.m c.rest c.dst s).2

/-- The interface is up and running: the test at the head of `se_output` passes. -/
def up_running (k : hostdefs) (s : se_context) : Prop :=
  s.if_flags &&& (k.IFF_UP ||| k.IFF_RUNNING) = k.IFF_UP ||| k.IFF_RUNNING

instance (k : hostdefs) (s : se_context) : Decidable (up_running k s) := by
  unfold up_running; infer_instance

/-- The chip reports a transmit in flight: the test at the head of `se_start`,
`READ_REG(ECON1) & ECON1_TXRTS`, is non-zero. -/
def tx_in_flight (k : hostdefs) (s : se_context) : Prop :=
  (ENC624J600_READ_REG reg.ECON1 s).1 &&& k.ECON1_TXRTS ≠ 0

instance (k : hostdefs) (s : se_context) : Decidable (tx_in_flight k s) := by
  unfold tx_in_flight; infer_instance

/-- The chip's side of a completed transmission, which the source relies on but does
not contain: the chip clears `ECON1.TXRTS` when the frame has been sent or
aborted. -/
def chip_tx_done (k : hostdefs) (s : se_context) : se_context :=
  { s with regs := fun x => if x = reg.ECON1 then bic (s.regs reg.ECON1) k.ECON1_TXRTS
                            else s.regs x }

/-- The values the reads of `EIR` return during one transmit-complete interrupt that
starts at read number `t`: the link flag reads clear, the second read has a transmit
flag (complete or abort) set, and the fifth read has the packet-pending flag clear.
The third and fourth reads (abort test, receive-abort test) may return anything. -/
def tx_irq_reads (k : hostdefs) (hw : Nat → Nat) (t : Nat) : Prop :=
  hw t % 65536 &&& k.EIR_LINKIF = 0
  ∧ hw (t + 1) % 65536 &&& (k.EIR_TXIF ||| k.EIR_TXABTIF) ≠ 0
  ∧ hw (t + 4) % 65536 &&& k.EIR_PKTIF = 0

instance (k : hostdefs) (hw : Nat → Nat) (t : Nat) : Decidable (tx_irq_reads k hw t) := by
  unfold tx_irq_reads; infer_instance

/-- The concatenation of the chunks of a chain, as `bcopy` reads them. -/
def chain_bytes (m : List mbuf) : List Nat :=
  (m.map mbuf_bytes).flatten

/-- The sum of the chunk lengths of a chain. -/
def chain_len (m : List mbuf) : Nat :=
  (m.map mbuf.m_len).sum

/-- The first `n` bytes of chip memory, where the transmit buffer starts. -/
def tx_buffer (s : se_context) (n : Nat) : List Nat :=
  (List.range n).map s.mem

/-- The chain `m` has been handed to the chip: the transmit buffer holds the
concatenation of its chunks from offset 0, `ETXST` is 0, `ETXLEN` holds the
byte-swapped sum of the chunk lengths, and the mask `ECON1_TXRTS` is set. -/
def sent (k : hostdefs) (m : List mbuf) (s : se_context) : Prop :=
  tx_buffer s (chain_len m) = chain_bytes m
  ∧ s.regs reg.ETXST = 0
  ∧ s.regs reg.ETXLEN = SWAPBYTES (chain_len m)
  ∧ s.regs reg.ECON1 &&& (k.ECON1_TXRTS % 65536) = k.ECON1_TXRTS % 65536

/-- The masks `ECON1_TXRTS` (as a 16-bit value) and `ECON1_RXEN` have no bit in
common, so that disabling reception does not withdraw a transmit request. -/
def txrts_apart (k : hostdefs) : Prop :=
  (k.ECON1_TXRTS % 65536) &&& k.ECON1_RXEN = 0

instance (k : hostdefs) : Decidable (txrts_apart k) := by
  unfold txrts_apart; infer_instance

/-- A call of `seint` entered in `s` services a transmit completion: the link block
returns and the read of `EIR` made by the test `*ir & (EIR_TXIF | EIR_TXABTIF)` that
follows it returns one of the two flags.  Nothing is asked of the other flags. -/
def tx_serviced (k : hostdefs) (fuel : Nat) (s : se_context) : Prop :=
  ∃ sA, seint_link k fuel s = some sA
    ∧ (ENC624J600_READ_REG reg.EIR sA).1 &&& (k.EIR_TXIF ||| k.EIR_TXABTIF) ≠ 0

/-- Every run of completion interrupts sends the queue `q` in order: whenever the chip
has cleared `TXRTS` and a call of `seint` that services the completion returns,
whatever else that call services, the head of the queue has been handed to the chip
and the rest is still queued in order; and so on from the context it returns. -/
def drains_along (k : hostdefs) : List (List mbuf) → se_context → Prop
  | [], s => s.if_snd.ifq = []
  | m :: q, s =>
    ∀ fuel s1, seint k fuel (chip_tx_done k s) = some s1 →
      tx_serviced k fuel (chip_tx_done k s) →
      sent k m s1 ∧ s1.if_snd.ifq = q ∧ drains_along k q s1

/-- The send queue `q` drains in order: at each completion (the chip clears `TXRTS`
and interrupts) `seint` returns with the head of the queue handed to the chip and the
rest still queued in order, until the queue is empty. -/
def drains (k : hostdefs) : List (List mbuf) → se_context → Prop
  | [], s => s.if_snd.ifq = []
  | m :: q, s =>
    ∃ fuel s1, seint k fuel (chip_tx_done k s) = some s1 ∧ sent k m s1
      ∧ s1.if_snd.ifq = q ∧ drains k q s1

/-- From read number `T` on, every status read shows the flow-control engine idle, the
receiver not busy and no packet pending. -/
def quiet_from (k : hostdefs) (T : Nat) (hw : Nat → Nat) : Prop :=
  ∀ t, T ≤ t →
    hw t % 65536 &&& k.ESTAT_FCIDLE ≠ 0
    ∧ hw t % 65536 &&& k.ESTAT_RXBUSY = 0
    ∧ hw t % 65536 &&& k.EIR_PKTIF = 0

/-- The chip quiesces: from some read on, every status read shows the flow-control
engine idle, the receiver not busy and no packet pending. -/
def chip_quiesces (k : hostdefs) (hw : Nat → Nat) : Prop :=
  ∃ T, quiet_from k T hw

/-- What the link block of `seint` leaves alone: chip memory, the send queue, the
status stream and every clear bit of `ECON1`; the number of status reads does not go
down. -/
def link_kept (s s' : se_context) : Prop :=
  s'.mem = s.mem ∧ s'.if_snd = s.if_snd ∧ s'.hw = s.hw ∧ s.polls ≤ s'.polls
  ∧ ∀ t, s.regs reg.ECON1 &&& t = 0 → s'.regs reg.ECON1 &&& t = 0

/-- What the link, receive-abort and receive blocks of `seint` leave alone: chip
memory, the send queue, the status stream, the registers `ETXST` and `ETXLEN`, and
every bit of `ECON1` that is set and lies outside `ECON1_RXEN`; the number of status
reads does not go down. -/
def irq_kept (k : hostdefs) (s s' : se_context) : Prop :=
  s'.mem = s.mem ∧ s'.if_snd = s.if_snd ∧ s'.hw = s.hw ∧ s.polls ≤ s'.polls
  ∧ s'.regs reg.ETXST = s.regs reg.ETXST ∧ s'.regs reg.ETXLEN = s.regs reg.ETXLEN
  ∧ ∀ b, b &&& k.ECON1_RXEN = 0 → s.regs reg.ECON1 &&& b = b → s'.regs reg.ECON1 &&& b = b

/-- What one pass through `seint` without link change or reception leaves alone:
chip memory, the send queue, the status stream and every register but `EIR`; `n`
status reads are made. -/
def irq_frame (n : Nat) (s s' : se_context) : Prop :=
  s'.mem = s.mem ∧ s'.if_snd = s.if_snd ∧ s'.hw = s.hw ∧ s'.polls = s.polls + n
  ∧ ∀ r, r ≠ reg.EIR → s'.regs r = s.regs r

/-- What a call of `se_output` leaves alone while a transmit is in flight: the
registers, chip memory, the status stream and its read count, the interface flags,
the ethernet address and the capacity of the send queue. -/
def tx_untouched (s s' : se_context) : Prop :=
  s'.regs = s.regs ∧ s'.mem = s.mem ∧ s'.hw = s.hw ∧ s'.polls = s.polls
  ∧ s'.if_flags = s.if_flags ∧ s'.ac_enaddr = s.ac_enaddr
  ∧ s'.if_snd.ifq_maxlen = s.if_snd.ifq_maxlen ∧ s'.mget = s.mget

/-- Reference for the transmit entry point, following the specification ("prepends
the Ethernet header if absent"): the 14-byte Ethernet header, that is destination
address, source address and type, the type high byte first. -/
def ether_header (dst src : List Nat) (type : Nat) : List Nat :=
  bytes6 dst ++ bytes6 src ++ [type / 256 % 256, type % 256]

/-- Reference for the transmit entry point: the chain `m :: rest` with the header `hdr`
in front.  The header goes into the first mbuf when there is room before its data,
otherwise into a header mbuf of its own taken from the allocator (`alloc`); there is
no chain when that allocation failed. -/
def with_header (k : hostdefs) (hdr : List Nat) (alloc : Option mbuf) (m : mbuf)
    (rest : List mbuf) : Option (List mbuf) :=
  if k.MMINOFF + sizeof_ether_header ≤ m.m_off ∧ m.m_off ≤ k.MMAXOFF then
    some ({ m_off := m.m_off - sizeof_ether_header,
            m_len := m.m_len + sizeof_ether_header, m_dat := hdr ++ m.m_dat } :: rest)
  else
    alloc.map (fun _ =>
      { m_off := k.MMINOFF, m_len := sizeof_ether_header, m_dat := hdr } :: m :: rest)

/-- Reference for the transmit entry point, following the specification ("accepts a
framed-or-unframed packet plus destination descriptor, prepends the Ethernet header if
absent, enqueues"): the chain one call hands to the send queue on an interface with
address `enaddr`.  A framed chain (`AF_ETHERLINK`, and `AF_APPLETALK` with an 802.3
length in the type field) is queued with the source address filled in.  An unframed
chain gets the Ethernet header to the resolved address (`AF_INET`) or to the address
and type given in the destination (`AF_UNSPEC`).  `none`: the call queues nothing
(address not resolved yet, no mbuf for the header, family or type not handled). -/
def queued_frame (k : hostdefs) (enaddr : List Nat) (alloc : Option mbuf)
    (c : output_call) : Option (List mbuf) :=
  match c.dst.sa_family with
  | sa_family_t.AF_INET =>
    match c.env.arpresolve with
    | none => none
    | some edst => with_header k (ether_header edst enaddr k.ETHERTYPE_IP) alloc c.m c.rest
  | sa_family_t.AF_UNSPEC =>
    with_header k (ether_header c.dst.sa_data enaddr (load16 c.dst.sa_data 12)) alloc
      c.m c.rest
  | sa_family_t.AF_APPLETALK =>
    if load16 c.m.m_dat 12 ≤ ETHERMTU then some (set_shost enaddr c.m :: c.rest) else none
  | sa_family_t.AF_ETHERLINK => some (set_shost enaddr c.m :: c.rest)
  | sa_family_t.AF_OTHER => none

/-- The chains a sequence of calls hands to the send queue, in the order of the
calls; each call finds the allocator as the calls before it left it. -/
def queued_frames (k : hostdefs) : List output_call → se_context → List (List mbuf)
  | [], _ => []
  | c :: cs, s =>
    (queued_frame k s.ac_enaddr (MGET k s).1 c).toList
      ++ queued_frames k cs (se_output k c.env c.m c.rest c.dst s).2

/-- The sample context with the interface up and running and a transmit in flight;
every fifth read of `EIR`, starting with the second, returns `EIR_TXIF`. -/
def tx_busy_ctx : se_context :=
  { sample_ctx with
    if_flags := sample_defs.IFF_UP ||| sample_defs.IFF_RUNNING,
    regs := fun r => if r = reg.ECON1 then sample_defs.ECON1_TXRTS else 0,
    hw := fun t => if t % 5 = 1 then sample_defs.EIR_TXIF else 0 }

/-- A call of `se_output` for the one-mbuf raw ethernet chain filled with `b`. -/
def raw_call (b : Nat) : output_call :=
  { env := raw_env 0, m := sample_pkt b, rest := [], dst := raw_dst }

/-- A call of `se_output` with destination family `AF_UNSPEC` for a 46-byte payload
filled with `b` whose mbuf has room for the header before its data; the destination
carries the address `02:00:00:00:00:01` and the type `0x0806`. -/
def unspec_call (b : Nat) : output_call :=
  { env := raw_env 0,
    m := { m_off := 40, m_len := 46, m_dat := List.replicate 46 b },
    rest := [],
    dst := { sa_family := sa_family_t.AF_UNSPEC,
             sa_data := [2, 0, 0, 0, 0, 1, 0, 0, 0, 0, 0, 0, 8, 6] } }

/-- A call of `se_output` with destination family `AF_INET` for a 46-byte payload
filled with `b` whose mbuf has no room before its data; `arpresolve` answers
`02:00:00:00:00:02`. -/
def inet_call (b : Nat) : output_call :=
  { env := { arpresolve := some [2, 0, 0, 0, 0, 2], broadcast := false, m_copy := false,
             looutput := 0, error := 0 },
    m := { m_off := 12, m_len := 46, m_dat := List.replicate 46 b },
    rest := [],
    dst := { sa_family := sa_family_t.AF_INET, sa_data := [] } }

/-- The sample context with two chains queued behind a transmit in flight and a chip
that raises several conditions together: the first read of `EIR` shows a link change
next to the completed transmission, the eighth a pending packet; every other read
shows the transmission complete and the flow-control engine idle. -/
def tx_storm_ctx : se_context :=
  { sample_ctx with
    if_flags := sample_defs.IFF_UP ||| sample_defs.IFF_RUNNING,
    if_snd := { ifq := [[sample_pkt 1], [sample_pkt 2]], ifq_maxlen := 50, ifq_drops := 0 },
    regs := fun r => if r = reg.ECON1 then sample_defs.ECON1_TXRTS else 0,
    hw := fun t => if t = 0 then 0x4808 else if t = 7 then 0x4048 else 0x4008 }

/-! ## The ring reader: proofs -/

theorem ring_buffer_getD (mem : Nat → Nat) (j : Nat) (hj : j < SE_RXEND - SE_RXSTART) :
    (ring_buffer mem).getD j 0 = mem (SE_RXSTART + j) % 256 := by
  simp [ring_buffer, List.getD_eq_getElem?_getD, List.getElem?_map, List.getElem?_range hj]

theorem ring_read_length (mem : Nat → Nat) (off n : Nat) :
    (ring_read mem off n).length = n := by
  simp [ring_read]

theorem bcopy_length (mem : Nat → Nat) (src n : Nat) : (bcopy mem src n).length = n := by
  simp [bcopy]

theorem ring_read_eq (mem : Nat → Nat) (off n : Nat) :
    ring_read mem off n =
      (List.range n).map
        (fun i => mem (SE_RXSTART + (off + i) % (SE_RXEND - SE_RXSTART)) % 256) := by
  unfold ring_read
  apply List.map_congr_left
  intro i _
  exact ring_buffer_getD mem _ (Nat.mod_lt _ (by decide))

theorem ring_read_append (mem : Nat → Nat) (off a b : Nat) :
    ring_read mem off a ++ ring_read mem (off + a) b = ring_read mem off (a + b) := by
  simp only [ring_read_eq, List.range_add, List.map_append, List.map_map]
  refine congrArg₂ (· ++ ·) rfl ?_
  apply List.map_congr_left
  intro i _
  simp [Nat.add_assoc]

theorem ring_read_mod (mem : Nat → Nat) (off n : Nat) :
    ring_read mem (off % (SE_RXEND - SE_RXSTART)) n = ring_read mem off n := by
  simp only [ring_read_eq]
  apply List.map_congr_left
  intro i _
  simp [Nat.add_mod]

theorem bcopy_eq_ring_read (mem : Nat → Nat) (p n : Nat) (h1 : SE_RXSTART ≤ p)
    (h2 : p + n ≤ SE_RXEND) : bcopy mem p n = ring_read mem (p - SE_RXSTART) n := by
  rw [ring_read_eq]
  unfold bcopy
  apply List.map_congr_left
  intro i hi
  have hi' : i < n := List.mem_range.mp hi
  have : (p - SE_RXSTART + i) % (SE_RXEND - SE_RXSTART) = p - SE_RXSTART + i := by
    apply Nat.mod_eq_of_lt
    simp only [SE_RXSTART, SE_RXEND] at *
    omega
  rw [this]
  congr 2
  omega

theorem se_getbytes_fst (s : se_context) (n : Nat) (h1 : SE_RXSTART ≤ s.rxptr)
    (h2 : s.rxptr ≤ SE_RXEND) (hn : n ≤ SE_RXEND - SE_RXSTART) :
    (se_getbytes s n).1 = ring_read s.mem (s.rxptr - SE_RXSTART) n := by
  have hn' : n % 65536 = n :=
    Nat.mod_eq_of_lt (by simp only [SE_RXSTART, SE_RXEND] at *; omega)
  unfold se_getbytes
  simp only [hn']
  split
  · next h => exact bcopy_eq_ring_read _ _ _ h1 (by omega)
  · next h =>
    have hr : (s.rxptr + n - SE_RXEND) % 65536 = s.rxptr + n - SE_RXEND :=
      Nat.mod_eq_of_lt (by simp only [SE_RXSTART, SE_RXEND] at *; omega)
    simp only [hr]
    have e : n = (SE_RXEND - s.rxptr) + (s.rxptr + n - SE_RXEND) := by omega
    conv_rhs => rw [e]
    rw [← ring_read_append]
    refine congrArg₂ (· ++ ·) ?_ ?_
    · exact bcopy_eq_ring_read _ _ _ h1 (by omega)
    · rw [← ring_read_mod s.mem (s.rxptr - SE_RXSTART + (SE_RXEND - s.rxptr))]
      have h0 : (s.rxptr - SE_RXSTART + (SE_RXEND - s.rxptr)) % (SE_RXEND - SE_RXSTART)
          = 0 := by
        have : s.rxptr - SE_RXSTART + (SE_RXEND - s.rxptr) = SE_RXEND - SE_RXSTART := by
          omega
        rw [this]; exact Nat.mod_self _
      rw [h0]
      have := bcopy_eq_ring_read s.mem SE_RXSTART (s.rxptr + n - SE_RXEND) (le_refl _)
        (by simp only [SE_RXSTART, SE_RXEND] at *; omega)
      simpa using this

theorem se_getbytes_rxptr (s : se_context) (n : Nat) (h1 : SE_RXSTART ≤ s.rxptr)
    (h2 : s.rxptr < SE_RXEND) (hn : n ≤ SE_RXEND - SE_RXSTART) :
    (se_getbytes s n).2.rxptr
      = SE_RXSTART + (s.rxptr - SE_RXSTART + n) % (SE_RXEND - SE_RXSTART) := by
  simp only [se_getbytes]
  simp only [SE_RXSTART, SE_RXEND] at *
  split <;> simp only [] <;> omega

theorem se_getbytes_frame (s : se_context) (n : Nat) :
    (se_getbytes s n).2 = { s with rxptr := (se_getbytes s n).2.rxptr } := by
  simp only [se_getbytes]
  split <;> rfl

/-- C1: from a ring-valid read pointer and for a length of at most the ring size,
`se_getbytes` returns exactly the `n` bytes that the non-wrapping reference buffer,
addressed modulo its size, holds from offset `rxptr - SE_RXSTART` on; it leaves
`rxptr` at `SE_RXSTART + ((rxptr - SE_RXSTART + n) mod (SE_RXEND - SE_RXSTART))`,
which is `SE_RXSTART + ((rxptr + n) - SE_RXEND)` whenever `rxptr + n` exceeds
`SE_RXEND`; and it changes nothing but `rxptr`. -/
theorem se_getbytes_wraparound (s : se_context) (n : Nat)
    (heven : s.rxptr % 2 = 0) (h1 : SE_RXSTART ≤ s.rxptr) (h2 : s.rxptr < SE_RXEND)
    (hn : n ≤ SE_RXEND - SE_RXSTART) :
    (se_getbytes s n).1 = ring_read s.mem (s.rxptr - SE_RXSTART) n
    ∧ (se_getbytes s n).1.length = n
    ∧ (se_getbytes s n).2.rxptr
        = SE_RXSTART + (s.rxptr - SE_RXSTART + n) % (SE_RXEND - SE_RXSTART)
    ∧ (SE_RXEND < s.rxptr + n →
        (se_getbytes s n).2.rxptr = SE_RXSTART + ((s.rxptr + n) - SE_RXEND))
    ∧ (se_getbytes s n).2 = { s with rxptr := (se_getbytes s n).2.rxptr } := by
  have hb := se_getbytes_fst s n h1 (Nat.le_of_lt h2) hn
  have hp := se_getbytes_rxptr s n h1 h2 hn
  refine ⟨hb, ?_, hp, ?_, se_getbytes_frame s n⟩
  · rw [hb, ring_read_length]
  · intro h
    rw [hp]
    simp only [SE_RXSTART, SE_RXEND] at *
    omega

/-- C1, at a concrete input: an 8-byte read at offset `0x5ffe` wraps after two bytes
and leaves the read pointer at `SE_RXSTART + 6`. -/
theorem se_getbytes_wraparound_witness :
    (se_getbytes { sample_ctx with rxptr := 0x5ffe } 8).1
        = ring_read sample_ctx.mem (0x5ffe - SE_RXSTART) 8
    ∧ (se_getbytes { sample_ctx with rxptr := 0x5ffe } 8).2.rxptr = SE_RXSTART + 6 :=
  have h := se_getbytes_wraparound { sample_ctx with rxptr := 0x5ffe } 8
    (by decide) (by decide) (by decide) (by decide)
  ⟨h.1, h.2.2.2.1 (by decide)⟩

/-! ## The chunk loop of `se_get`: proofs -/

theorem rx_frame_refl (s : se_context) : rx_frame s s := rfl

theorem rx_frame_trans {a b c : se_context} (h1 : rx_frame a b) (h2 : rx_frame b c) :
    rx_frame a c := by
  unfold rx_frame at *
  rw [h2, h1]

theorem rx_frame_getbytes (s : se_context) (n : Nat) : rx_frame s (se_getbytes s n).2 := by
  have h := se_getbytes_frame s n
  unfold rx_frame
  generalize (se_getbytes s n).2 = s' at h
  have hm : s'.mgets = s.mgets := by rw [h]
  have hc : s'.mclgets = s.mclgets := by rw [h]
  rw [hm, hc]
  exact h

theorem rx_frame_MGET (k : hostdefs) (s : se_context) : rx_frame s (MGET k s).2 := rfl

theorem rx_frame_MCLGET (k : hostdefs) (m : mbuf) (s : se_context) :
    rx_frame s (MCLGET k m s).2 := rfl

theorem se_getbytes_bounds (s : se_context) (n : Nat) (h1 : SE_RXSTART ≤ s.rxptr)
    (h2 : s.rxptr ≤ SE_RXEND) (hn : n ≤ SE_RXEND - SE_RXSTART) :
    SE_RXSTART ≤ (se_getbytes s n).2.rxptr ∧ (se_getbytes s n).2.rxptr ≤ SE_RXEND
    ∧ ((se_getbytes s n).2.rxptr - SE_RXSTART) % (SE_RXEND - SE_RXSTART)
        = (s.rxptr - SE_RXSTART + n) % (SE_RXEND - SE_RXSTART) := by
  simp only [se_getbytes]
  simp only [SE_RXSTART, SE_RXEND] at *
  split <;> simp only [] <;> omega

theorem rx_frame_se_get_mbuf (k : hostdefs) (len : Nat) (m0 : mbuf) (s : se_context) :
    rx_frame s (se_get_mbuf k len m0 s).2 := by
  unfold se_get_mbuf
  simp only []
  refine rx_frame_trans ?_ (rx_frame_getbytes _ _)
  split
  · exact rx_frame_MCLGET k _ _
  · exact rx_frame_refl s

theorem se_get_chain_frame (k : hostdefs) :
    ∀ (fuel len : Nat) (s : se_context) (r : Option (List mbuf) × se_context),
      se_get_chain k fuel len s = some r → rx_frame s r.2 := by
  intro fuel
  induction fuel with
  | zero =>
    intro len s r h
    simp only [se_get_chain] at h
    split at h
    · cases h
    · cases h; exact rx_frame_refl s
  | succ fuel ih =>
    intro len s r h
    simp only [se_get_chain] at h
    split at h
    · split at h
      · cases h; exact rx_frame_MGET k s
      · next m0 hm =>
        obtain ⟨r0, hr0, rfl⟩ := Option.map_eq_some'.mp h
        exact rx_frame_trans (rx_frame_trans (rx_frame_MGET k s) (rx_frame_se_get_mbuf _ _ _ _))
          (ih _ _ r0 hr0)
    · cases h; exact rx_frame_refl s


theorem rx_frame_mem {s s' : se_context} (h : rx_frame s s') : s'.mem = s.mem := by
  unfold rx_frame at h; rw [h]

theorem rx_frame_mget {s s' : se_context} (h : rx_frame s s') : s'.mget = s.mget := by
  unfold rx_frame at h; rw [h]

theorem se_get_mbuf_spec (k : hostdefs) (len : Nat) (m0 : mbuf) (s : se_context)
    (hM : 0 < k.MLEN) (hC : 0 < k.MCLBYTES) (hlen : 0 < len)
    (hl : len ≤ SE_RXEND - SE_RXSTART)
    (h1 : SE_RXSTART ≤ s.rxptr) (h2 : s.rxptr ≤ SE_RXEND) :
    0 < (se_get_mbuf k len m0 s).1.m_len
    ∧ (se_get_mbuf k len m0 s).1.m_len ≤ len
    ∧ (se_get_mbuf k len m0 s).1.m_dat
        = ring_read s.mem (s.rxptr - SE_RXSTART) (se_get_mbuf k len m0 s).1.m_len
    ∧ SE_RXSTART ≤ (se_get_mbuf k len m0 s).2.rxptr
    ∧ (se_get_mbuf k len m0 s).2.rxptr ≤ SE_RXEND
    ∧ ((se_get_mbuf k len m0 s).2.rxptr - SE_RXSTART) % (SE_RXEND - SE_RXSTART)
        = (s.rxptr - SE_RXSTART + (se_get_mbuf k len m0 s).1.m_len)
            % (SE_RXEND - SE_RXSTART) := by
  unfold se_get_mbuf
  simp only []
  generalize hc : (if len > MCLTHRESHOLD k then
      MCLGET k { m_off := m0.m_off, m_len := k.MLEN, m_dat := m0.m_dat } s
    else ({ m_off := m0.m_off, m_len := k.MLEN, m_dat := m0.m_dat }, s)) = c
  have hcp : 0 < c.1.m_len ∧ c.2.rxptr = s.rxptr ∧ c.2.mem = s.mem := by
    rw [← hc]
    split
    · unfold MCLGET
      refine ⟨?_, rfl, rfl⟩
      simp only []
      split
      · exact hC
      · exact hM
    · exact ⟨hM, rfl, rfl⟩
  obtain ⟨hpos, hptr, hmem⟩ := hcp
  have hmin : min c.1.m_len len ≤ SE_RXEND - SE_RXSTART := le_trans (min_le_right _ _) hl
  have hb := se_getbytes_bounds c.2 (min c.1.m_len len) (hptr ▸ h1) (hptr ▸ h2) hmin
  have hd := se_getbytes_fst c.2 (min c.1.m_len len) (hptr ▸ h1) (hptr ▸ h2) hmin
  rw [hptr, hmem] at hd
  rw [hptr] at hb
  exact ⟨lt_min hpos hlen, min_le_right _ _, hd, hb.1, hb.2.1, hb.2.2⟩

theorem ring_read_congr (mem : Nat → Nat) (a b n : Nat)
    (h : a % (SE_RXEND - SE_RXSTART) = b % (SE_RXEND - SE_RXSTART)) :
    ring_read mem a n = ring_read mem b n := by
  rw [← ring_read_mod mem a, ← ring_read_mod mem b, h]

theorem se_get_chain_data (k : hostdefs) (hM : 0 < k.MLEN) (hC : 0 < k.MCLBYTES) :
    ∀ (fuel len : Nat) (s s' : se_context) (ms : List mbuf),
      len ≤ SE_RXEND - SE_RXSTART → SE_RXSTART ≤ s.rxptr → s.rxptr ≤ SE_RXEND →
      se_get_chain k fuel len s = some (some ms, s') →
      (ms.map mbuf.m_dat).flatten = ring_read s.mem (s.rxptr - SE_RXSTART) len
      ∧ (∀ m ∈ ms, 0 < m.m_len ∧ m.m_dat.length = m.m_len) := by
  intro fuel
  induction fuel with
  | zero =>
    intro len s s' ms hl h1 h2 h
    simp only [se_get_chain] at h
    split at h
    · cases h
    · next hlen =>
      have : len = 0 := by omega
      subst this
      cases h
      simp [ring_read]
  | succ fuel ih =>
    intro len s s' ms hl h1 h2 h
    simp only [se_get_chain] at h
    split at h
    · next hlen =>
      split at h
      · cases h
      · next m0 hm =>
        obtain ⟨r0, hr0, hr⟩ := Option.map_eq_some'.mp h
        obtain ⟨o, s0⟩ := r0
        simp only [Prod.mk.injEq] at hr
        obtain ⟨ho, rfl⟩ := hr
        obtain ⟨ms0, rfl, rfl⟩ := Option.map_eq_some'.mp ho
        have hs := se_get_mbuf_spec k len m0 (MGET k s).2 hM hC hlen hl h1 h2
        obtain ⟨hpos, hle, hdat, hb1, hb2, hcong⟩ := hs
        have hmem : (se_get_mbuf k len m0 (MGET k s).2).2.mem = s.mem :=
          rx_frame_mem (rx_frame_se_get_mbuf k len m0 (MGET k s).2)
        generalize se_get_mbuf k len m0 (MGET k s).2 = c at *
        have hsub : (len + 65536 - c.1.m_len % 65536) % 65536 = len - c.1.m_len := by
          simp only [SE_RXSTART, SE_RXEND] at hl
          omega
        rw [hsub] at hr0
        have hi := ih (len - c.1.m_len) c.2 s0 ms0 (by omega) hb1 hb2 hr0
        refine ⟨?_, ?_⟩
        · simp only [List.map_cons, List.flatten_cons]
          rw [hi.1, hdat, hmem]
          have e : len = c.1.m_len + (len - c.1.m_len) := by omega
          conv_rhs => rw [e]
          rw [← ring_read_append]
          refine congrArg₂ (· ++ ·) rfl ?_
          exact ring_read_congr _ _ _ _ hcong
        · intro m hmem'
          rcases List.mem_cons.mp hmem' with rfl | h'
          · exact ⟨hpos, by rw [hdat, ring_read_length]⟩
          · exact hi.2 m h'
    · next hlen =>
      have : len = 0 := by omega
      subst this
      cases h
      simp [ring_read]


theorem se_get_chain_total (k : hostdefs) (hM : 0 < k.MLEN) (hC : 0 < k.MCLBYTES) :
    ∀ (fuel len : Nat) (s : se_context),
      len ≤ fuel → len ≤ SE_RXEND - SE_RXSTART →
      SE_RXSTART ≤ s.rxptr → s.rxptr ≤ SE_RXEND →
      (∃ r, se_get_chain k fuel len s = some r)
      ∧ ((∀ n, s.mget n = true) → ∃ ms s', se_get_chain k fuel len s = some (some ms, s')) := by
  intro fuel
  induction fuel with
  | zero =>
    intro len s hf hl h1 h2
    have : len = 0 := by omega
    subst this
    simp [se_get_chain]
  | succ fuel ih =>
    intro len s hf hl h1 h2
    simp only [se_get_chain]
    split
    · next hlen =>
      split
      · next hm =>
        refine ⟨⟨_, rfl⟩, ?_⟩
        intro hall
        simp [MGET, hall] at hm
      · next m0 hm =>
        have hs := se_get_mbuf_spec k len m0 (MGET k s).2 hM hC hlen hl h1 h2
        obtain ⟨hpos, hle, hdat, hb1, hb2, hcong⟩ := hs
        have hmg : (se_get_mbuf k len m0 (MGET k s).2).2.mget = s.mget :=
          rx_frame_mget (rx_frame_se_get_mbuf k len m0 (MGET k s).2)
        generalize se_get_mbuf k len m0 (MGET k s).2 = c at *
        have hsub : (len + 65536 - c.1.m_len % 65536) % 65536 = len - c.1.m_len := by
          simp only [SE_RXSTART, SE_RXEND] at hl
          omega
        rw [hsub]
        have hi := ih (len - c.1.m_len) c.2 (by omega) (by omega) hb1 hb2
        refine ⟨?_, ?_⟩
        · obtain ⟨r, hr⟩ := hi.1
          exact ⟨_, by rw [hr]; rfl⟩
        · intro hall
          obtain ⟨ms, s', hr⟩ := hi.2 (by rw [hmg]; exact hall)
          exact ⟨_, _, by rw [hr]; rfl⟩
    · exact ⟨⟨_, rfl⟩, fun _ => ⟨_, _, rfl⟩⟩


/-! ## Error recovery: proofs -/

theorem and_or_self (v m : Nat) : (v ||| m) &&& m = m := by
  apply Nat.eq_of_testBit_eq
  intro i
  simp only [Nat.testBit_and, Nat.testBit_or]
  cases v.testBit i <;> cases m.testBit i <;> rfl

theorem bic_and (v m : Nat) : bic v m &&& m = 0 := by
  apply Nat.eq_of_testBit_eq
  intro i
  simp only [bic, Nat.testBit_and, Nat.testBit_xor, Nat.zero_testBit]
  cases v.testBit i <;> cases m.testBit i <;> rfl

theorem wait_rxbusy_frame (k : hostdefs) :
    ∀ (fuel : Nat) (s s' : se_context), wait_rxbusy k fuel s = some s' →
      s' = { s with polls := s'.polls } := by
  intro fuel
  induction fuel with
  | zero => intro s s' h; cases h
  | succ fuel ih =>
    intro s s' h
    simp only [wait_rxbusy] at h
    split at h
    · have := ih _ _ h
      rw [this]
      rfl
    · cases h; rfl

theorem wait_rxbusy_returns (k : hostdefs) :
    ∀ (n : Nat) (s : se_context), s.hw (s.polls + n) % 65536 &&& k.ESTAT_RXBUSY = 0 →
      ∀ fuel, n < fuel → ∃ s', wait_rxbusy k fuel s = some s' := by
  intro n
  induction n with
  | zero =>
    intro s h fuel hf
    obtain ⟨f, rfl⟩ : ∃ f, fuel = f + 1 := ⟨fuel - 1, by omega⟩
    simp only [wait_rxbusy, ENC624J600_READ_REG]
    rw [Nat.add_zero] at h
    simp [h]
  | succ n ih =>
    intro s h fuel hf
    obtain ⟨f, rfl⟩ : ∃ f, fuel = f + 1 := ⟨fuel - 1, by omega⟩
    simp only [wait_rxbusy]
    split
    · apply ih
      · simp only [ENC624J600_READ_REG]
        rw [show s.polls + 1 + n = s.polls + (n + 1) by omega]
        exact h
      · omega
    · exact ⟨_, rfl⟩

theorem clear_pending_frame (k : hostdefs) :
    ∀ (fuel d : Nat) (s : se_context) (r : Nat × se_context),
      clear_pending k fuel d s = some r →
      r.2 = { s with polls := r.2.polls, regs := r.2.regs } := by
  intro fuel
  induction fuel with
  | zero => intro d s r h; cases h
  | succ fuel ih =>
    intro d s r h
    simp only [clear_pending] at h
    split at h
    · have := ih _ _ _ h
      rw [this]
      rfl
    · cases h; rfl

theorem clear_pending_returns (k : hostdefs) :
    ∀ (n : Nat) (s : se_context) (d : Nat),
      s.hw (s.polls + n) % 65536 &&& k.EIR_PKTIF = 0 →
      ∀ fuel, n < fuel → ∃ r, clear_pending k fuel d s = some r := by
  intro n
  induction n with
  | zero =>
    intro s d h fuel hf
    obtain ⟨f, rfl⟩ : ∃ f, fuel = f + 1 := ⟨fuel - 1, by omega⟩
    simp only [clear_pending, ENC624J600_READ_REG]
    rw [Nat.add_zero] at h
    simp [h]
  | succ n ih =>
    intro s d h fuel hf
    obtain ⟨f, rfl⟩ : ∃ f, fuel = f + 1 := ⟨fuel - 1, by omega⟩
    simp only [clear_pending]
    split
    · apply ih
      · simp only [ENC624J600_READ_REG, ENC624J600_SET_BITS]
        rw [show s.polls + 1 + n = s.polls + (n + 1) by omega]
        exact h
      · omega
    · exact ⟨_, rfl⟩


theorem se_rxbuf_reset_jail (k : hostdefs) (fuel : Nat) (s : se_context)
    (h : MAX_RESETS < s.reset_counter) :
    se_rxbuf_reset k fuel s = some (rxbuf_jail k s) := by
  unfold se_rxbuf_reset
  have h' : (untimeout (ENC624J600_CLEAR_BITS reg.ECON1 k.ECON1_RXEN s)).reset_counter
      > MAX_RESETS := h
  simp only [h', if_true]
  rfl

theorem rxbuf_jail_props (k : hostdefs) (s : se_context) :
    rx_disabled k (rxbuf_jail k s)
    ∧ (rxbuf_jail k s).callout = []
    ∧ (rxbuf_jail k s).reset_counter = (s.reset_counter + 1) % 2 ^ 32
    ∧ (rxbuf_jail k s).rxptr = s.rxptr
    ∧ (rxbuf_jail k s).regs reg.ERXST = s.regs reg.ERXST
    ∧ (rxbuf_jail k s).regs reg.ERXTAIL = s.regs reg.ERXTAIL
    ∧ (rxbuf_jail k s).console = s.console ++ [msg.in_jail] := by
  refine ⟨?_, rfl, rfl, rfl, rfl, rfl, rfl⟩
  simp [rx_disabled, rxbuf_jail, printf, untimeout, ENC624J600_CLEAR_BITS, bic_and]

theorem rxbuf_restore_props (k : hostdefs) (d : Nat) (s : se_context) :
    (rxbuf_restore k d s).regs reg.ERXST = SWAPBYTES SE_RXSTART
    ∧ (rxbuf_restore k d s).regs reg.ERXTAIL = SWAPBYTES (SE_RXEND - 2)
    ∧ (rxbuf_restore k d s).rxptr = SE_RXSTART
    ∧ (rxbuf_restore k d s).reset_counter = s.reset_counter
    ∧ (rxbuf_restore k d s).callout = s.callout ++ [RESET_COUNT_TIME k]
    ∧ rx_enabled k (rxbuf_restore k d s)
    ∧ (rxbuf_restore k d s).mem = s.mem
    ∧ (rxbuf_restore k d s).mcast_refcount = s.mcast_refcount := by
  have e1 : SWAPBYTES SE_RXSTART % 65536 = SWAPBYTES SE_RXSTART := by decide
  have e2 : SWAPBYTES (SE_RXEND - 2) % 65536 = SWAPBYTES (SE_RXEND - 2) := by decide
  refine ⟨?_, ?_, ?_, ?_, ?_, ?_, ?_, ?_⟩
  · simp [rxbuf_restore, ENC624J600_SET_BITS, ENC624J600_WRITE_REG, timeout, e1]
  · simp [rxbuf_restore, ENC624J600_SET_BITS, ENC624J600_WRITE_REG, timeout, e2]
  · simp [rxbuf_restore, ENC624J600_SET_BITS, ENC624J600_WRITE_REG, timeout]
  · simp only [rxbuf_restore, ENC624J600_SET_BITS, ENC624J600_WRITE_REG, timeout]
    split <;> rfl
  · simp only [rxbuf_restore, ENC624J600_SET_BITS, ENC624J600_WRITE_REG, timeout]
    split <;> rfl
  · simp [rx_enabled, rxbuf_restore, ENC624J600_SET_BITS, and_or_self]
  · simp only [rxbuf_restore, ENC624J600_SET_BITS, ENC624J600_WRITE_REG, timeout]
    split <;> rfl
  · simp only [rxbuf_restore, ENC624J600_SET_BITS, ENC624J600_WRITE_REG, timeout]
    split <;> rfl

theorem se_rxbuf_reset_recover (k : hostdefs) (fuel : Nat) (s s' : se_context)
    (h : s.reset_counter ≤ MAX_RESETS) (hr : se_rxbuf_reset k fuel s = some s') :
    s'.regs reg.ERXST = SWAPBYTES SE_RXSTART
    ∧ s'.regs reg.ERXTAIL = SWAPBYTES (SE_RXEND - 2)
    ∧ s'.rxptr = SE_RXSTART
    ∧ s'.reset_counter = s.reset_counter + 1
    ∧ s'.callout = [RESET_COUNT_TIME k]
    ∧ rx_enabled k s'
    ∧ s'.mem = s.mem
    ∧ s'.mcast_refcount = s.mcast_refcount := by
  unfold se_rxbuf_reset at hr
  have h' : ¬ (untimeout (ENC624J600_CLEAR_BITS reg.ECON1 k.ECON1_RXEN s)).reset_counter
      > MAX_RESETS := Nat.not_lt.mpr h
  simp only [h', if_false] at hr
  split at hr
  · cases hr
  · next s2 hw =>
    split at hr
    · cases hr
    · next r hc =>
      cases hr
      have f1 := wait_rxbusy_frame k _ _ _ hw
      have f2 := clear_pending_frame k _ _ _ _ hc
      obtain ⟨p1, p2, p3, p4, p5, p6, p7, p8⟩ := rxbuf_restore_props k r.1 r.2
      have hcnt : r.2.reset_counter = s.reset_counter + 1 := by
        rw [f2]; simp only []; rw [f1]
        show (s.reset_counter + 1) % 2 ^ 32 = s.reset_counter + 1
        apply Nat.mod_eq_of_lt
        simp only [MAX_RESETS] at h
        omega
      have hcall : r.2.callout = [] := by
        rw [f2]; simp only []; rw [f1]; rfl
      have hmem : r.2.mem = s.mem := by
        rw [f2]; simp only []; rw [f1]; rfl
      have hmc : r.2.mcast_refcount = s.mcast_refcount := by
        rw [f2]; simp only []; rw [f1]; rfl
      refine ⟨p1, p2, p3, by rw [p4, hcnt], by rw [p5, hcall]; rfl, p6, by rw [p7, hmem],
        by rw [p8, hmc]⟩

theorem wait_rxbusy_mono (k : hostdefs) :
    ∀ (fuel : Nat) (s s' : se_context), wait_rxbusy k fuel s = some s' →
      ∀ fuel', fuel ≤ fuel' → wait_rxbusy k fuel' s = some s' := by
  intro fuel
  induction fuel with
  | zero => intro s s' h; cases h
  | succ fuel ih =>
    intro s s' h fuel' hf
    obtain ⟨f, rfl⟩ : ∃ f, fuel' = f + 1 := ⟨fuel' - 1, by omega⟩
    simp only [wait_rxbusy] at h ⊢
    split
    · next hb =>
      rw [if_pos hb] at h
      exact ih _ _ h f (by omega)
    · next hb =>
      rw [if_neg hb] at h
      exact h

theorem se_rxbuf_reset_returns (k : hostdefs) (s : se_context) (hc : chip_settles k s) :
    ∃ fuel0, ∀ fuel, fuel0 ≤ fuel → ∃ s', se_rxbuf_reset k fuel s = some s' := by
  by_cases hj : MAX_RESETS < s.reset_counter
  · exact ⟨0, fun fuel _ => ⟨_, se_rxbuf_reset_jail k fuel s hj⟩⟩
  · obtain ⟨n1, h1⟩ := hc.1 s.polls
    obtain ⟨s2, hs2⟩ := wait_rxbusy_returns k n1
      (printf (msg.dazed s.rxptr)
        { untimeout (ENC624J600_CLEAR_BITS reg.ECON1 k.ECON1_RXEN s) with
          reset_counter := (s.reset_counter + 1) % 2 ^ 32 }) h1 (n1 + 1) (by omega)
    have f1 := wait_rxbusy_frame k _ _ _ hs2
    have hhw : s2.hw = s.hw := by rw [f1]; rfl
    obtain ⟨n2, h2⟩ := hc.2 s2.polls
    rw [← hhw] at h2
    refine ⟨max (n1 + 1) (n2 + 1), fun fuel hf => ?_⟩
    have hw := wait_rxbusy_mono k _ _ _ hs2 fuel (le_trans (le_max_left _ _) hf)
    obtain ⟨r, hr⟩ := clear_pending_returns k n2 s2 0 h2 fuel
      (lt_of_lt_of_le (Nat.lt_succ_self n2) (le_trans (le_max_right _ _) hf))
    refine ⟨rxbuf_restore k r.1 r.2, ?_⟩
    unfold se_rxbuf_reset
    have h' : ¬ (untimeout (ENC624J600_CLEAR_BITS reg.ECON1 k.ECON1_RXEN s)).reset_counter
        > MAX_RESETS := hj
    simp only [h', if_false]
    have hw' : wait_rxbusy k fuel
        (printf (msg.dazed
          ({ untimeout (ENC624J600_CLEAR_BITS reg.ECON1 k.ECON1_RXEN s) with
            reset_counter :=
              ((untimeout (ENC624J600_CLEAR_BITS reg.ECON1 k.ECON1_RXEN s)).reset_counter + 1)
                % 2 ^ 32 } : se_context).rxptr)
          { untimeout (ENC624J600_CLEAR_BITS reg.ECON1 k.ECON1_RXEN s) with
            reset_counter :=
              ((untimeout (ENC624J600_CLEAR_BITS reg.ECON1 k.ECON1_RXEN s)).reset_counter + 1)
                % 2 ^ 32 }) = some s2 := hw
    rw [hw']
    simp only [hr]


/-! ## Packet reception: proofs -/

theorem SWAPBYTES_lt (x : Nat) : SWAPBYTES x < 65536 := by
  unfold SWAPBYTES; omega

theorem SWAPBYTES_SWAPBYTES (x : Nat) (h : x < 65536) : SWAPBYTES (SWAPBYTES x) = x := by
  unfold SWAPBYTES
  have hx : x = 256 * (x / 256) + x % 256 := (Nat.div_add_mod x 256).symm
  have hq : x / 256 < 256 := by omega
  have hr : x % 256 < 256 := Nat.mod_lt _ (by decide)
  generalize x / 256 = q at *
  generalize x % 256 = r at *
  subst hx
  omega

theorem se_get_mbuf_alloc (k : hostdefs) (len : Nat) (m0 : mbuf) (s : se_context) :
    (se_get_mbuf k len m0 s).2.mgets = s.mgets ∧ (se_get_mbuf k len m0 s).2.mget = s.mget := by
  unfold se_get_mbuf
  simp only []
  have h := se_getbytes_frame
  constructor
  · rw [se_getbytes_frame]
    split <;> rfl
  · rw [se_getbytes_frame]
    split <;> rfl

theorem se_get_chain_alloc (k : hostdefs) :
    ∀ (fuel len : Nat) (s : se_context) (r : Option (List mbuf) × se_context),
      se_get_chain k fuel len s = some r →
      s.mgets ≤ r.2.mgets
      ∧ (r.1 ≠ none → ∀ i, s.mgets ≤ i → i < r.2.mgets → s.mget i = true)
      ∧ (r.1 = none → ∃ i, s.mgets ≤ i ∧ i < r.2.mgets ∧ s.mget i = false) := by
  intro fuel
  induction fuel with
  | zero =>
    intro len s r h
    simp only [se_get_chain] at h
    split at h
    · cases h
    · cases h
      exact ⟨le_refl _, fun _ i h1 h2 => absurd h2 (by simp; omega), fun h => by cases h⟩
  | succ fuel ih =>
    intro len s r h
    simp only [se_get_chain] at h
    split at h
    · split at h
      · next hm =>
        cases h
        have hf : s.mget s.mgets = false := by
          simp only [MGET] at hm
          by_contra hc
          simp [hc] at hm
        refine ⟨Nat.le_succ _, fun hne => absurd rfl hne, fun _ => ⟨s.mgets, le_refl _, ?_, hf⟩⟩
        exact Nat.lt_succ_self _
      · next m0 hm =>
        obtain ⟨r0, hr0, rfl⟩ := Option.map_eq_some'.mp h
        have ht : s.mget s.mgets = true := by
          simp only [MGET] at hm
          by_contra hc
          simp [hc] at hm
        obtain ⟨a1, a2⟩ := se_get_mbuf_alloc k len m0 (MGET k s).2
        have hi := ih _ _ r0 hr0
        rw [a1, a2] at hi
        have e1 : (MGET k s).2.mgets = s.mgets + 1 := rfl
        have e2 : (MGET k s).2.mget = s.mget := rfl
        rw [e1, e2] at hi
        obtain ⟨i1, i2, i3⟩ := hi
        refine ⟨by simp only []; omega, ?_, ?_⟩
        · intro hne i hi1 hi2
          have hne' : r0.1 ≠ none := by
            intro hc; apply hne; simp [hc]
          by_cases hi0 : i = s.mgets
          · rw [hi0]; exact ht
          · exact i2 hne' i (by omega) hi2
        · intro hn
          have hn' : r0.1 = none := by
            cases h0 : r0.1 with
            | none => rfl
            | some x => simp [h0] at hn
          obtain ⟨i, hi1, hi2, hi3⟩ := i3 hn'
          exact ⟨i, by omega, hi2, hi3⟩
    · cases h
      exact ⟨le_refl _, fun _ i h1 h2 => absurd h2 (by simp; omega), fun h => by cases h⟩


theorem get_frame_of_rx_frame {a b c : se_context} (h1 : rx_frame a b) (h2 : get_frame b c) :
    get_frame a c := by
  unfold rx_frame at h1
  unfold get_frame at *
  obtain ⟨h2a, h2b⟩ := h2
  refine ⟨?_, ?_⟩
  · rw [h2a, h1]
  · intro x hx
    rw [h2b x hx, h1]

theorem se_get_done_frame (next : Nat) (top : Option (List mbuf)) (s : se_context) :
    get_frame s (se_get_done next top s).2 := by
  refine ⟨rfl, ?_⟩
  intro x hx
  simp [se_get_done, ENC624J600_WRITE_REG, hx]

theorem se_get_done_tail (next : Nat) (top : Option (List mbuf)) (s : se_context)
    (hn : ring_valid next) :
    (se_get_done next top s).2.regs reg.ERXTAIL
      = SWAPBYTES (if next = SE_RXSTART then SE_RXEND - 2 else next - 2) := by
  obtain ⟨he, h1, h2⟩ := hn
  simp only [se_get_done, ENC624J600_WRITE_REG, if_true]
  rw [Nat.mod_eq_of_lt (SWAPBYTES_lt _)]
  apply congrArg SWAPBYTES
  simp only [SE_RXSTART, SE_RXEND] at *
  split <;> split <;> omega

theorem se_get_body_spec (k : hostdefs) (hM : 0 < k.MLEN) (hC : 0 < k.MCLBYTES)
    (fuel len next : Nat) (s : se_context)
    (hl1 : sizeof_ether_header ≤ len) (hl2 : len ≤ ETHERMTU)
    (h1 : SE_RXSTART ≤ s.rxptr) (h2 : s.rxptr ≤ SE_RXEND) :
    (len ≤ fuel → ∃ r, se_get_body k fuel len next s = some r)
    ∧ (len ≤ fuel → (∀ n, s.mget n = true) →
        ∃ pkt s', se_get_body k fuel len next s = some (some pkt, s'))
    ∧ (∀ r, se_get_body k fuel len next s = some r →
        get_frame s r.2 ∧ r.2.rxptr = next
        ∧ (ring_valid next → r.2.regs reg.ERXTAIL
            = SWAPBYTES (if next = SE_RXSTART then SE_RXEND - 2 else next - 2))
        ∧ (r.1 = none ↔ ∃ i, s.mgets ≤ i ∧ i < r.2.mgets ∧ s.mget i = false)
        ∧ (∀ pkt, r.1 = some pkt → ∃ top rest, pkt = top :: rest
            ∧ top.m_len = sizeof_ether_header
            ∧ top.m_dat = ring_read s.mem (s.rxptr - SE_RXSTART) sizeof_ether_header
            ∧ (∀ m ∈ rest, 0 < m.m_len ∧ m.m_dat.length = m.m_len)
            ∧ (pkt.map mbuf.m_dat).flatten = ring_read s.mem (s.rxptr - SE_RXSTART) len)) := by
  have hsub : (len + 65536 - sizeof_ether_header) % 65536 = len - sizeof_ether_header := by
    simp only [sizeof_ether_header, ETHERMTU] at *
    omega
  have h14 : sizeof_ether_header ≤ SE_RXEND - SE_RXSTART := by decide
  have hgb := se_getbytes_bounds (MGET k s).2 sizeof_ether_header h1 h2 h14
  have hgd := se_getbytes_fst (MGET k s).2 sizeof_ether_header h1 h2 h14
  have hgf := rx_frame_getbytes (MGET k s).2 sizeof_ether_header
  have hlen' : len - sizeof_ether_header ≤ SE_RXEND - SE_RXSTART := by
    simp only [sizeof_ether_header, ETHERMTU, SE_RXSTART, SE_RXEND] at *
    omega
  have hgm : (se_getbytes (MGET k s).2 sizeof_ether_header).2.mget = s.mget :=
    rx_frame_mget hgf
  have hgn : (se_getbytes (MGET k s).2 sizeof_ether_header).2.mgets = s.mgets + 1 := by
    rw [se_getbytes_frame]; rfl
  have hgmem : (se_getbytes (MGET k s).2 sizeof_ether_header).2.mem = s.mem :=
    rx_frame_mem hgf
  unfold se_get_body
  rw [hsub]
  refine ⟨?_, ?_, ?_⟩
  · intro hf
    split
    · exact ⟨_, rfl⟩
    · obtain ⟨r, hr⟩ := (se_get_chain_total k hM hC fuel (len - sizeof_ether_header) _
        (by omega) hlen' hgb.1 hgb.2.1).1
      exact ⟨_, by simp only [hr]; rfl⟩
  · intro hf hall
    split
    · next hm => simp [MGET, hall] at hm
    · obtain ⟨ms, s', hr⟩ := (se_get_chain_total k hM hC fuel (len - sizeof_ether_header) _
        (by omega) hlen' hgb.1 hgb.2.1).2 (by rw [hgm]; exact hall)
      exact ⟨_, _, by simp only [hr]; rfl⟩
  · intro r hr
    split at hr
    · next hm =>
      cases hr
      have hf : s.mget s.mgets = false := by
        simp only [MGET] at hm
        by_contra hc
        simp [hc] at hm
      refine ⟨get_frame_of_rx_frame (rx_frame_MGET k s) (se_get_done_frame _ _ _), rfl,
        fun hn => se_get_done_tail _ _ _ hn, ?_, ?_⟩
      · exact ⟨fun _ => ⟨s.mgets, le_refl _, Nat.lt_succ_self _, hf⟩, fun _ => rfl⟩
      · intro pkt hp; cases hp
    · next t0 hm =>
      have ht : s.mget s.mgets = true := by
        simp only [MGET] at hm
        by_contra hc
        simp [hc] at hm
      obtain ⟨r0, hr0, rfl⟩ := Option.map_eq_some'.mp hr
      have hfr := se_get_chain_frame k _ _ _ _ hr0
      have hal := se_get_chain_alloc k _ _ _ _ hr0
      rw [hgm, hgn] at hal
      obtain ⟨a1, a2, a3⟩ := hal
      refine ⟨get_frame_of_rx_frame
          (rx_frame_trans (rx_frame_trans (rx_frame_MGET k s) hgf) hfr)
          (se_get_done_frame _ _ _), rfl,
        fun hn => se_get_done_tail _ _ _ hn, ?_, ?_⟩
      · show Option.map _ r0.1 = none ↔ _
        constructor
        · intro hn
          have hn' : r0.1 = none := by
            cases h0 : r0.1 with
            | none => rfl
            | some x => simp [h0] at hn
          obtain ⟨i, hi1, hi2, hi3⟩ := a3 hn'
          exact ⟨i, by omega, hi2, hi3⟩
        · rintro ⟨i, hi1, hi2, hi3⟩
          cases h0 : r0.1 with
          | none => rfl
          | some x =>
            exfalso
            have hne : r0.1 ≠ none := by rw [h0]; simp
            by_cases hi0 : i = s.mgets
            · rw [hi0, ht] at hi3; cases hi3
            · have := a2 hne i (by omega) hi2
              rw [this] at hi3; cases hi3
      · intro pkt hp
        have hp' : Option.map _ r0.1 = some pkt := hp
        obtain ⟨ms, hms, rfl⟩ := Option.map_eq_some'.mp hp'
        obtain ⟨o, s0⟩ := r0
        simp only at hms
        subst hms
        have hd := se_get_chain_data k hM hC _ _ _ _ _ hlen' hgb.1 hgb.2.1 hr0
        refine ⟨_, ms, rfl, rfl, hgd, hd.2, ?_⟩
        simp only [List.map_cons, List.flatten_cons]
        rw [hd.1, hgd, hgmem]
        have e : len = sizeof_ether_header + (len - sizeof_ether_header) := by omega
        conv_rhs => rw [e]
        rw [← ring_read_append]
        refine congrArg₂ (· ++ ·) rfl ?_
        exact ring_read_congr _ _ _ _ hgb.2.2



theorem rxptr_accepted_of_valid (s : se_context) (h : ring_valid s.rxptr) :
    rxptr_accepted s := by
  unfold rxptr_accepted
  obtain ⟨h1, h2, h3⟩ := h
  omega

theorem rxptr_accepted_bounds (s : se_context) (h : rxptr_accepted s) :
    SE_RXSTART ≤ s.rxptr ∧ s.rxptr ≤ SE_RXEND := by
  unfold rxptr_accepted at h
  omega

theorem se_get_accept (k : hostdefs) (fuel : Nat) (s : se_context)
    (hp : rxptr_accepted s) (hn : ring_valid (rx_next s))
    (hl1 : ETHERMIN ≤ rx_frame_length s + sizeof_ether_header)
    (hl2 : rx_frame_length s + sizeof_ether_header ≤ ETHERMTU) :
    se_get k fuel s
      = se_get_body k fuel (rx_frame_length s) (rx_next s)
          (se_getbytes s sizeof_se_rxheader).2 := by
  unfold se_get
  rw [if_neg hp]
  have hn' : ¬ (rx_next s % 2 ≠ 0 ∨ rx_next s < SE_RXSTART ∨ rx_next s ≥ SE_RXEND) := by
    obtain ⟨h1, h2, h3⟩ := hn
    omega
  have hl' : ¬ (rx_frame_length s + sizeof_ether_header < ETHERMIN
      ∨ rx_frame_length s + sizeof_ether_header > ETHERMTU) := by omega
  simp only [rx_next, rx_header, rx_frame_length, rx_status_length] at hn' hl' ⊢
  simp only [if_neg hn', if_neg hl']

theorem se_get_reject_length (k : hostdefs) (fuel : Nat) (s : se_context)
    (hp : rxptr_accepted s) (hn : ring_valid (rx_next s))
    (hl : rx_frame_length s + sizeof_ether_header < ETHERMIN
      ∨ rx_frame_length s + sizeof_ether_header > ETHERMTU) :
    se_get k fuel s
      = (se_rxbuf_reset k fuel
          (printf (msg.bogus_length (rx_frame_length s))
            (se_getbytes s sizeof_se_rxheader).2)).map (fun s1 => (none, s1)) := by
  unfold se_get
  rw [if_neg hp]
  have hn' : ¬ (rx_next s % 2 ≠ 0 ∨ rx_next s < SE_RXSTART ∨ rx_next s ≥ SE_RXEND) := by
    obtain ⟨h1, h2, h3⟩ := hn
    omega
  simp only [rx_next, rx_header, rx_frame_length, rx_status_length] at hn' hl ⊢
  simp only [if_neg hn', if_pos hl]

theorem se_get_some_packet (k : hostdefs) (fuel : Nat) (s s' : se_context) (pkt : List mbuf)
    (h : se_get k fuel s = some (some pkt, s')) :
    rxptr_accepted s ∧ ring_valid (rx_next s)
    ∧ ETHERMIN ≤ rx_frame_length s + sizeof_ether_header
    ∧ rx_frame_length s + sizeof_ether_header ≤ ETHERMTU := by
  unfold se_get at h
  by_cases hp : s.rxptr % 2 ≠ 0 ∨ s.rxptr < SE_RXSTART ∨ s.rxptr > SE_RXEND
  · rw [if_pos hp] at h
    obtain ⟨x, _, hx⟩ := Option.map_eq_some'.mp h
    cases hx
  · rw [if_neg hp] at h
    simp only [] at h
    by_cases hn : rx_next s % 2 ≠ 0 ∨ rx_next s < SE_RXSTART ∨ rx_next s ≥ SE_RXEND
    · simp only [rx_next, rx_header] at hn
      rw [if_pos hn] at h
      obtain ⟨x, _, hx⟩ := Option.map_eq_some'.mp h
      cases hx
    · by_cases hl : rx_frame_length s + sizeof_ether_header < ETHERMIN
          ∨ rx_frame_length s + sizeof_ether_header > ETHERMTU
      · simp only [rx_next, rx_header, rx_frame_length, rx_status_length] at hn hl
        rw [if_neg hn, if_pos hl] at h
        obtain ⟨x, _, hx⟩ := Option.map_eq_some'.mp h
        cases hx
      · refine ⟨hp, ⟨?_, ?_, ?_⟩, ?_, ?_⟩ <;> omega

theorem printf_hw (m : msg) (s : se_context) : (printf m s).hw = s.hw := rfl

theorem chip_settles_congr (k : hostdefs) (s s' : se_context) (h : s'.hw = s.hw)
    (hc : chip_settles k s) : chip_settles k s' := by
  unfold chip_settles at *
  rw [h]; exact hc


theorem get_frame_fields {s s' : se_context} (h : get_frame s s') :
    s'.console = s.console ∧ s'.reset_counter = s.reset_counter ∧ s'.callout = s.callout
    ∧ s'.regs reg.ECON1 = s.regs reg.ECON1 ∧ s'.mem = s.mem ∧ s'.mget = s.mget := by
  obtain ⟨h1, h2⟩ := h
  refine ⟨by rw [h1], by rw [h1], by rw [h1], h2 _ (by decide), by rw [h1], by rw [h1]⟩

theorem header_frame (s : se_context) :
    (se_getbytes s sizeof_se_rxheader).2.mem = s.mem
    ∧ (se_getbytes s sizeof_se_rxheader).2.mget = s.mget
    ∧ (se_getbytes s sizeof_se_rxheader).2.mgets = s.mgets
    ∧ (se_getbytes s sizeof_se_rxheader).2.hw = s.hw
    ∧ (se_getbytes s sizeof_se_rxheader).2.console = s.console
    ∧ (se_getbytes s sizeof_se_rxheader).2.reset_counter = s.reset_counter
    ∧ (se_getbytes s sizeof_se_rxheader).2.callout = s.callout
    ∧ (se_getbytes s sizeof_se_rxheader).2.regs = s.regs := by
  rw [se_getbytes_frame]
  exact ⟨rfl, rfl, rfl, rfl, rfl, rfl, rfl, rfl⟩

/-- The facts about a pass through `se_get` in which the three validations pass. -/
theorem se_get_accept_spec (k : hostdefs) (hM : 0 < k.MLEN) (hC : 0 < k.MCLBYTES)
    (fuel : Nat) (s : se_context)
    (hp : rxptr_accepted s) (hn : ring_valid (rx_next s))
    (hl1 : ETHERMIN ≤ rx_frame_length s + sizeof_ether_header)
    (hl2 : rx_frame_length s + sizeof_ether_header ≤ ETHERMTU) :
    (ETHERMTU ≤ fuel → ∃ r, se_get k fuel s = some r)
    ∧ (ETHERMTU ≤ fuel → (∀ n, s.mget n = true) →
        ∃ pkt s', se_get k fuel s = some (some pkt, s'))
    ∧ (∀ r, se_get k fuel s = some r →
        r.2.console = s.console ∧ r.2.reset_counter = s.reset_counter
        ∧ r.2.callout = s.callout ∧ r.2.regs reg.ECON1 = s.regs reg.ECON1
        ∧ r.2.rxptr = rx_next s
        ∧ r.2.regs reg.ERXTAIL
            = SWAPBYTES (if rx_next s = SE_RXSTART then SE_RXEND - 2 else rx_next s - 2)
        ∧ (r.1 = none ↔ ∃ i, s.mgets ≤ i ∧ i < r.2.mgets ∧ s.mget i = false)
        ∧ (∀ pkt, r.1 = some pkt → ∃ top rest, pkt = top :: rest
            ∧ top.m_len = sizeof_ether_header
            ∧ top.m_dat
                = ring_read s.mem (s.rxptr - SE_RXSTART + sizeof_se_rxheader)
                    sizeof_ether_header
            ∧ (∀ m ∈ rest, 0 < m.m_len ∧ m.m_dat.length = m.m_len)
            ∧ (pkt.map mbuf.m_dat).flatten
                = ring_read s.mem (s.rxptr - SE_RXSTART + sizeof_se_rxheader)
                    (rx_frame_length s))) := by
  obtain ⟨b1, b2⟩ := rxptr_accepted_bounds s hp
  have h8 : sizeof_se_rxheader ≤ SE_RXEND - SE_RXSTART := by decide
  have hb := se_getbytes_bounds s sizeof_se_rxheader b1 b2 h8
  obtain ⟨f1, f2, f3, f4, f5, f6, f7, f8⟩ := header_frame s
  have hl14 : sizeof_ether_header ≤ rx_frame_length s := by
    simp only [ETHERMIN, sizeof_ether_header] at *
    omega
  have hl15 : rx_frame_length s ≤ ETHERMTU := by omega
  have hs := se_get_body_spec k hM hC fuel (rx_frame_length s) (rx_next s)
    (se_getbytes s sizeof_se_rxheader).2 hl14 hl15 hb.1 hb.2.1
  rw [se_get_accept k fuel s hp hn hl1 hl2]
  obtain ⟨s1, s2, s3⟩ := hs
  refine ⟨fun hf => s1 (by omega), fun hf hall => s2 (by omega) (by rw [f2]; exact hall), ?_⟩
  intro r hr
  obtain ⟨t1, t2, t3, t4, t5⟩ := s3 r hr
  obtain ⟨g1, g2, g3, g4, g5, g6⟩ := get_frame_fields t1
  rw [f1] at g5
  rw [f2] at g6
  refine ⟨by rw [g1, f5], by rw [g2, f6], by rw [g3, f7], by rw [g4, f8], t2, t3 hn, ?_, ?_⟩
  · rw [t4, f2, f3]
  · intro pkt hpk
    obtain ⟨top, rest, e1, e2, e3, e4, e5⟩ := t5 pkt hpk
    rw [f1] at e3 e5
    refine ⟨top, rest, e1, e2, ?_, e4, ?_⟩
    · rw [e3]; exact ring_read_congr _ _ _ _ hb.2.2
    · rw [e5]; exact ring_read_congr _ _ _ _ hb.2.2


theorem chip_settles_idle (k : hostdefs) (s : se_context) (h : ∀ n, s.hw n = 0) :
    chip_settles k s :=
  ⟨fun t => ⟨0, by rw [h]; simp⟩, fun t => ⟨0, by rw [h]; simp⟩⟩

/-- A read pointer that fails the first test of `se_get` (odd, below `SE_RXSTART` or
above `SE_RXEND`) makes `se_get` print the bogus-pointer message, call
`se_rxbuf_reset` and return a null chain without reading from the ring. -/
theorem se_get_bogus_rxptr (k : hostdefs) (fuel : Nat) (s : se_context)
    (h : ¬ rxptr_accepted s) :
    se_get k fuel s
      = (se_rxbuf_reset k fuel (printf (msg.bogus_rxptr s.rxptr) s)).map
          (fun s1 => (none, s1)) := by
  unfold se_get
  unfold rxptr_accepted at h
  rw [if_pos (not_not.mp h)]

/-- C2 (defect in the code): with the read pointer at `SE_RXEND`, which is not a valid
ring offset, the first test of `se_get` (`rxptr > SE_RXEND`) lets the pointer through:
the header and the frame are read from the ring, a two-mbuf chain of 14 + 46 bytes is
returned, nothing is printed and the reset counter does not move, so the recovery
routine is not invoked. -/
theorem se_get_rxptr_at_rxend :
    ¬ ring_valid rxend_ctx.rxptr
    ∧ rxptr_accepted rxend_ctx
    ∧ (se_get sample_defs 1 rxend_ctx).map
        (fun r => (r.1.map (fun c => c.map mbuf.m_len), r.2.console, r.2.reset_counter,
          r.2.rxptr))
      = some (some [14, 46], [], 0, 0x640)
    ∧ se_get sample_defs 1 rxend_ctx
      ≠ (se_rxbuf_reset sample_defs 1 (printf (msg.bogus_rxptr rxend_ctx.rxptr) rxend_ctx)).map
          (fun s1 => (none, s1)) := by
  refine ⟨by decide, by decide, by decide, ?_⟩
  intro h
  have h1 : (se_get sample_defs 1 rxend_ctx).map (fun r => r.1.isSome) = some true := by
    decide
  rw [h] at h1
  revert h1
  decide

/-- C3: with a valid read pointer and a valid next-packet offset in the header,
`se_get` calls `se_rxbuf_reset` and returns a null chain whenever the frame length
`len` (the status length less 4, in 16-bit arithmetic) has
`len + sizeof(struct ether_header)` below `ETHERMIN` or above `ETHERMTU`, which
includes every status length below 4; the call returns once the chip's busy and
pending flags read clear.  When `len + sizeof(struct ether_header)` lies between
`ETHERMIN` and `ETHERMTU` inclusive and every `MGET` succeeds, `se_get` returns a
chain and leaves the console, the reset counter, the callout list and `ECON1`
untouched: the recovery routine is not invoked. -/
theorem se_get_length_validation (k : hostdefs) (hM : 0 < k.MLEN) (hC : 0 < k.MCLBYTES)
    (s : se_context) (hp : ring_valid s.rxptr) (hn : ring_valid (rx_next s)) :
    ((rx_frame_length s + sizeof_ether_header < ETHERMIN
        ∨ rx_frame_length s + sizeof_ether_header > ETHERMTU) →
      (∀ fuel, se_get k fuel s
          = (se_rxbuf_reset k fuel
              (printf (msg.bogus_length (rx_frame_length s))
                (se_getbytes s sizeof_se_rxheader).2)).map (fun s1 => (none, s1)))
      ∧ (chip_settles k s → ∃ fuel s',
          se_rxbuf_reset k fuel
              (printf (msg.bogus_length (rx_frame_length s))
                (se_getbytes s sizeof_se_rxheader).2) = some s'
          ∧ se_get k fuel s = some (none, s')))
    ∧ (rx_status_length s < 4 → rx_frame_length s + sizeof_ether_header > ETHERMTU)
    ∧ (ETHERMIN ≤ rx_frame_length s + sizeof_ether_header →
        rx_frame_length s + sizeof_ether_header ≤ ETHERMTU →
        (∀ n, s.mget n = true) →
        ∀ fuel, ETHERMTU ≤ fuel →
          ∃ pkt s', se_get k fuel s = some (some pkt, s')
            ∧ s'.console = s.console ∧ s'.reset_counter = s.reset_counter
            ∧ s'.callout = s.callout ∧ s'.regs reg.ECON1 = s.regs reg.ECON1) := by
  have hpa := rxptr_accepted_of_valid s hp
  refine ⟨?_, ?_, ?_⟩
  · intro hl
    have heq := fun fuel => se_get_reject_length k fuel s hpa hn hl
    refine ⟨heq, ?_⟩
    intro hc
    have hc' : chip_settles k (printf (msg.bogus_length (rx_frame_length s))
        (se_getbytes s sizeof_se_rxheader).2) :=
      chip_settles_congr k s _ (header_frame s).2.2.2.1 hc
    obtain ⟨fuel0, hf⟩ := se_rxbuf_reset_returns k _ hc'
    obtain ⟨s', hs'⟩ := hf fuel0 (le_refl _)
    exact ⟨fuel0, s', hs', by rw [heq fuel0, hs']; rfl⟩
  · intro h4
    unfold rx_frame_length
    simp only [ETHERMTU, sizeof_ether_header]
    omega
  · intro hl1 hl2 hall fuel hf
    obtain ⟨_, a2, a3⟩ := se_get_accept_spec k hM hC fuel s hpa hn hl1 hl2
    obtain ⟨pkt, s', hr⟩ := a2 hf hall
    obtain ⟨c1, c2, c3, c4, _⟩ := a3 _ hr
    exact ⟨pkt, s', hr, c1, c2, c3, c4⟩

/-- C3, at concrete inputs: a status length of 35 puts `len + 14` one byte below
`ETHERMIN` and the packet is refused through the recovery routine; a status length of
36 puts it at `ETHERMIN` and a chain is returned with the console still empty. -/
theorem se_get_length_validation_witness :
    (∃ fuel s', se_rxbuf_reset sample_defs fuel
          (printf (msg.bogus_length (rx_frame_length (header_ctx 0x640 35)))
            (se_getbytes (header_ctx 0x640 35) sizeof_se_rxheader).2) = some s'
        ∧ se_get sample_defs fuel (header_ctx 0x640 35) = some (none, s'))
    ∧ (∃ pkt s', se_get sample_defs ETHERMTU (header_ctx 0x640 36) = some (some pkt, s')
        ∧ s'.console = (header_ctx 0x640 36).console
        ∧ s'.reset_counter = (header_ctx 0x640 36).reset_counter
        ∧ s'.callout = (header_ctx 0x640 36).callout
        ∧ s'.regs reg.ECON1 = (header_ctx 0x640 36).regs reg.ECON1) :=
  ⟨((se_get_length_validation sample_defs (by decide) (by decide) (header_ctx 0x640 35)
        (by decide) (by decide)).1 (by decide)).2
      (chip_settles_idle _ _ (fun _ => rfl)),
   (se_get_length_validation sample_defs (by decide) (by decide) (header_ctx 0x640 36)
        (by decide) (by decide)).2.2 (by decide) (by decide) (fun _ => rfl) ETHERMTU
      (le_refl _)⟩


/-- C4: whenever the pointer, next-offset and length validations of `se_get` pass, and
whatever the outcomes of the allocations, `se_get` returns with `ERXTAIL` written with
`SWAPBYTES(next - 2)` when `next > SE_RXSTART` and with `SWAPBYTES(SE_RXEND - 2)` when
`next = SE_RXSTART`, and with `rxptr = next`; the result is a null chain exactly when
one of the `MGET` calls made during the call failed. -/
theorem se_get_advances_tail (k : hostdefs) (hM : 0 < k.MLEN) (hC : 0 < k.MCLBYTES)
    (s : se_context) (hp : rxptr_accepted s) (hn : ring_valid (rx_next s))
    (hl1 : ETHERMIN ≤ rx_frame_length s + sizeof_ether_header)
    (hl2 : rx_frame_length s + sizeof_ether_header ≤ ETHERMTU)
    (fuel : Nat) (hf : ETHERMTU ≤ fuel) :
    ∃ top s', se_get k fuel s = some (top, s')
      ∧ (SE_RXSTART < rx_next s →
          s'.regs reg.ERXTAIL = SWAPBYTES (rx_next s - 2)
          ∧ SWAPBYTES (s'.regs reg.ERXTAIL) = rx_next s - 2)
      ∧ (rx_next s = SE_RXSTART →
          s'.regs reg.ERXTAIL = SWAPBYTES (SE_RXEND - 2)
          ∧ SWAPBYTES (s'.regs reg.ERXTAIL) = SE_RXEND - 2)
      ∧ s'.rxptr = rx_next s
      ∧ (top = none ↔ ∃ i, s.mgets ≤ i ∧ i < s'.mgets ∧ s.mget i = false) := by
  obtain ⟨a1, _, a3⟩ := se_get_accept_spec k hM hC fuel s hp hn hl1 hl2
  obtain ⟨r, hr⟩ := a1 hf
  obtain ⟨_, _, _, _, c5, c6, c7, _⟩ := a3 r hr
  obtain ⟨_, n2, n3⟩ := hn
  refine ⟨r.1, r.2, hr, ?_, ?_, c5, c7⟩
  · intro hgt
    have hne : rx_next s ≠ SE_RXSTART := by omega
    rw [if_neg hne] at c6
    refine ⟨c6, ?_⟩
    rw [c6]
    exact SWAPBYTES_SWAPBYTES _ (by simp only [SE_RXEND] at n3; omega)
  · intro heq
    rw [if_pos heq] at c6
    refine ⟨c6, ?_⟩
    rw [c6]
    exact SWAPBYTES_SWAPBYTES _ (by decide)

/-- C4, at a concrete input: a 60-byte frame whose header names `0x640` as the next
packet, with the second `MGET` failing: `ERXTAIL` receives `0x63e` byte-swapped, the
read pointer becomes `0x640` and no chain is returned. -/
theorem se_get_advances_tail_witness :
    ∃ top s',
      se_get sample_defs ETHERMTU
          { header_ctx 0x640 64 with mget := fun i => decide (i = 0) } = some (top, s')
      ∧ SWAPBYTES (s'.regs reg.ERXTAIL) = 0x63e ∧ s'.rxptr = 0x640 ∧ top = none := by
  obtain ⟨top, s', h1, h2, _, h4, h5⟩ :=
    se_get_advances_tail sample_defs (by decide) (by decide)
      { header_ctx 0x640 64 with mget := fun i => decide (i = 0) }
      (by decide) (by decide) (by decide) (by decide) ETHERMTU (le_refl _)
  refine ⟨top, s', h1, (h2 (by decide)).2, h4, ?_⟩
  have hm : s'.mgets = 2 := by
    have : (se_get sample_defs ETHERMTU
        { header_ctx 0x640 64 with mget := fun i => decide (i = 0) }).map
          (fun r => r.2.mgets) = some 2 := by decide
    rw [h1] at this
    exact Option.some.inj this
  exact h5.mpr ⟨1, by decide, by rw [hm]; decide, by decide⟩

/-- C5: a chain returned by `se_get` is one ethernet frame.  Its first mbuf holds
exactly the 14 bytes of the ethernet header, every later mbuf is non-empty and holds
as many bytes as its `m_len`, and the data of the mbufs in order are the `len` bytes
(`len` the status length less 4) that follow the 8-byte ring-buffer header in the
ring, read with wrap-around.  For every frame that passes the validations the loop
that fills the mbufs ends: `ETHERMTU` units of fuel always suffice. -/
theorem se_get_packet (k : hostdefs) (hM : 0 < k.MLEN) (hC : 0 < k.MCLBYTES)
    (s : se_context) :
    (∀ fuel pkt s', se_get k fuel s = some (some pkt, s') →
      ∃ top rest, pkt = top :: rest
        ∧ top.m_len = sizeof_ether_header
        ∧ top.m_dat.length = sizeof_ether_header
        ∧ top.m_dat
            = ring_read s.mem (s.rxptr - SE_RXSTART + sizeof_se_rxheader) sizeof_ether_header
        ∧ (∀ m ∈ rest, 0 < m.m_len ∧ m.m_dat.length = m.m_len)
        ∧ (pkt.map mbuf.m_dat).flatten
            = ring_read s.mem (s.rxptr - SE_RXSTART + sizeof_se_rxheader) (rx_frame_length s)
        ∧ (pkt.map mbuf.m_dat).flatten.length = rx_frame_length s)
    ∧ (rxptr_accepted s → ring_valid (rx_next s) →
        ETHERMIN ≤ rx_frame_length s + sizeof_ether_header →
        rx_frame_length s + sizeof_ether_header ≤ ETHERMTU →
        ∀ fuel, ETHERMTU ≤ fuel → ∃ r, se_get k fuel s = some r) := by
  refine ⟨?_, ?_⟩
  · intro fuel pkt s' h
    obtain ⟨hp, hn, hl1, hl2⟩ := se_get_some_packet k fuel s s' pkt h
    obtain ⟨_, _, a3⟩ := se_get_accept_spec k hM hC fuel s hp hn hl1 hl2
    obtain ⟨_, _, _, _, _, _, _, c8⟩ := a3 _ h
    obtain ⟨top, rest, e1, e2, e3, e4, e5⟩ := c8 pkt rfl
    exact ⟨top, rest, e1, e2, by rw [e3, ring_read_length], e3, e4, e5,
      by rw [e5, ring_read_length]⟩
  · intro hp hn hl1 hl2 fuel hf
    exact (se_get_accept_spec k hM hC fuel s hp hn hl1 hl2).1 hf

/-- C5, at a concrete input: the largest frame the length test lets through (status
length 1490) is returned as a chain whose data are the 1486 bytes behind the header. -/
theorem se_get_packet_witness :
    ∃ pkt s', se_get sample_defs ETHERMTU (header_ctx 0x640 1490) = some (some pkt, s')
      ∧ (pkt.map mbuf.m_dat).flatten.length = 1486 := by
  have h := se_get_packet sample_defs (by decide) (by decide) (header_ctx 0x640 1490)
  obtain ⟨pkt, s', hr⟩ :=
    (se_get_accept_spec sample_defs (by decide) (by decide) ETHERMTU (header_ctx 0x640 1490)
      (by decide) (by decide) (by decide) (by decide)).2.1 (le_refl _) (fun _ => rfl)
  obtain ⟨_, _, _, _, _, _, _, _, e⟩ := h.1 ETHERMTU pkt s' hr
  exact ⟨pkt, s', hr, by rw [e]; decide⟩


/-! ## Bring-up and the recovery state machine: proofs -/

theorem keeps_refl (s : se_context) : keeps s s := ⟨rfl, rfl, fun _ _ => rfl⟩

theorem keeps_trans {a b c : se_context} (h1 : keeps a b) (h2 : keeps b c) : keeps a c :=
  ⟨h2.1.trans h1.1, h2.2.1.trans h1.2.1, fun x hx => (h2.2.2 x hx).trans (h1.2.2 x hx)⟩

theorem keeps_WRITE (r : reg) (v : Nat) (s : se_context) (hr : ring_or_filter_reg r = false) :
    keeps s (ENC624J600_WRITE_REG r v s) := by
  refine ⟨rfl, rfl, fun x hx => ?_⟩
  have : x ≠ r := by rintro rfl; rw [hr] at hx; cases hx
  simp [ENC624J600_WRITE_REG, this]

theorem keeps_SET (r : reg) (v : Nat) (s : se_context) (hr : ring_or_filter_reg r = false) :
    keeps s (ENC624J600_SET_BITS r v s) := by
  refine ⟨rfl, rfl, fun x hx => ?_⟩
  have : x ≠ r := by rintro rfl; rw [hr] at hx; cases hx
  simp [ENC624J600_SET_BITS, this]

theorem keeps_CLEAR (r : reg) (v : Nat) (s : se_context) (hr : ring_or_filter_reg r = false) :
    keeps s (ENC624J600_CLEAR_BITS r v s) := by
  refine ⟨rfl, rfl, fun x hx => ?_⟩
  have : x ≠ r := by rintro rfl; rw [hr] at hx; cases hx
  simp [ENC624J600_CLEAR_BITS, this]

theorem keeps_READ (r : reg) (s : se_context) : keeps s (ENC624J600_READ_REG r s).2 := by
  cases r <;> exact keeps_refl s

theorem keeps_wait_fcidle (k : hostdefs) :
    ∀ (fuel : Nat) (s s' : se_context), wait_fcidle k fuel s = some s' → keeps s s' := by
  intro fuel
  induction fuel with
  | zero => intro s s' h; cases h
  | succ fuel ih =>
    intro s s' h
    simp only [wait_fcidle] at h
    split at h
    · exact keeps_trans (keeps_READ _ _) (ih _ _ h)
    · cases h; exact keeps_READ _ _

theorem keeps_se_update_linkstate (k : hostdefs) (fuel : Nat) (s s' : se_context)
    (h : se_update_linkstate k fuel s = some s') : keeps s s' := by
  unfold se_update_linkstate at h
  split at h
  · cases h
  · next s1 hw =>
    have k1 := keeps_wait_fcidle k _ _ _ hw
    simp only [] at h
    split at h
    · cases h
      refine keeps_trans k1 (keeps_trans (keeps_READ reg.ESTAT s1) ?_)
      exact keeps_trans (keeps_trans (keeps_SET reg.MACON2 _ _ rfl)
        (keeps_WRITE reg.MABBIPG _ _ rfl)) (keeps_SET reg.ECON2 _ _ rfl)
    · cases h
      refine keeps_trans k1 (keeps_trans (keeps_READ reg.ESTAT s1) ?_)
      exact keeps_trans (keeps_trans (keeps_trans (keeps_CLEAR reg.MACON2 _ _ rfl)
        (keeps_WRITE reg.MABBIPG _ _ rfl)) (keeps_CLEAR reg.ECON2 _ _ rfl))
        (keeps_CLEAR reg.ECON1 _ _ rfl)

theorem keeps_se_start (k : hostdefs) (s : se_context) : keeps s (se_start k s) := by
  unfold se_start
  split
  · exact keeps_refl s
  · split
    · exact keeps_refl s
    · next m rest hq =>
      simp only []
      refine keeps_trans ?_ (keeps_SET reg.ECON1 _ _ rfl)
      refine keeps_trans ?_ (keeps_WRITE reg.ETXLEN _ _ rfl)
      refine keeps_trans ?_ (keeps_WRITE reg.ETXST _ _ rfl)
      exact ⟨rfl, rfl, fun _ _ => rfl⟩

theorem keeps_printf (m : msg) (s : se_context) : keeps s (printf m s) :=
  ⟨rfl, rfl, fun _ _ => rfl⟩

theorem keeps_se_init_enaddr (s : se_context) : keeps s (se_init_enaddr s) :=
  ⟨rfl, rfl, fun _ _ => rfl⟩

theorem keeps_se_init_regs (k : hostdefs) (s : se_context) :
    keeps (se_init_rxbuf s) (se_init_regs k s) := by
  unfold se_init_regs
  refine keeps_trans ?_ (keeps_se_init_enaddr _)
  refine keeps_trans ?_ (keeps_WRITE reg.EIDLED _ _ rfl)
  refine keeps_trans ?_ (keeps_WRITE reg.ECON2 _ _ rfl)
  exact keeps_WRITE reg.ERXWM _ _ rfl

theorem se_init_regs_ring (k : hostdefs) (s : se_context) :
    (se_init_regs k s).rxptr = SE_RXSTART
    ∧ (se_init_regs k s).regs reg.ERXST = SWAPBYTES SE_RXSTART
    ∧ (se_init_regs k s).regs reg.ERXTAIL = SWAPBYTES (SE_RXEND - 2)
    ∧ (se_init_regs k s).mcast_refcount = s.mcast_refcount := by
  have e1 : SWAPBYTES SE_RXSTART % 65536 = SWAPBYTES SE_RXSTART := by decide
  have e2 : SWAPBYTES (SE_RXEND - 2) % 65536 = SWAPBYTES (SE_RXEND - 2) := by decide
  obtain ⟨h1, h2, h3⟩ := keeps_se_init_regs k s
  refine ⟨by rw [h1]; rfl, ?_, ?_, by rw [h2]; rfl⟩
  · rw [h3 reg.ERXST rfl]
    simp [se_init_rxbuf, ENC624J600_WRITE_REG, e1]
  · rw [h3 reg.ERXTAIL rfl]
    simp [se_init_rxbuf, ENC624J600_WRITE_REG, e2]

theorem se_update_multicast_regs (s : se_context) :
    (se_update_multicast s).rxptr = s.rxptr
    ∧ (se_update_multicast s).mcast_refcount = s.mcast_refcount
    ∧ (se_update_multicast s).regs reg.ERXST = s.regs reg.ERXST
    ∧ (se_update_multicast s).regs reg.ERXTAIL = s.regs reg.ERXTAIL
    ∧ (se_update_multicast s).regs reg.EHT1 = SWAPBYTES (mcast_table s.mcast_refcount 0)
    ∧ (se_update_multicast s).regs reg.EHT2 = SWAPBYTES (mcast_table s.mcast_refcount 1)
    ∧ (se_update_multicast s).regs reg.EHT3 = SWAPBYTES (mcast_table s.mcast_refcount 2)
    ∧ (se_update_multicast s).regs reg.EHT4 = SWAPBYTES (mcast_table s.mcast_refcount 3) := by
  refine ⟨rfl, rfl, ?_, ?_, ?_, ?_, ?_, ?_⟩ <;>
    simp [se_update_multicast, ENC624J600_WRITE_REG, Nat.mod_eq_of_lt (SWAPBYTES_lt _)]

theorem keeps_se_init_rxcfg (k : hostdefs) (s : se_context) : keeps s (se_init_rxcfg k s) := by
  unfold se_init_rxcfg
  exact keeps_trans (keeps_trans (keeps_WRITE reg.ERXFCON _ _ rfl)
    (keeps_SET reg.ECON1 _ _ rfl)) ⟨rfl, rfl, fun _ _ => rfl⟩

theorem keeps_se_init_finish (k : hostdefs) (s : se_context) :
    keeps s (se_init_finish k s) := by
  unfold se_init_finish
  refine keeps_trans ?_ (keeps_printf _ _)
  refine keeps_trans ?_ (keeps_SET reg.EIE _ _ rfl)
  split
  · exact keeps_se_start k s
  · exact keeps_refl s

theorem se_init_spec (k : hostdefs) (fuel : Nat) (s s' : se_context)
    (h : se_init k fuel s = some (0, s')) :
    keeps (se_update_multicast (se_init_regs k s)) s' := by
  unfold se_init at h
  split at h
  · cases h
  · split at h
    · cases h
    · next s1 hl =>
      have k1 := keeps_se_update_linkstate k _ _ _ hl
      simp only [Option.some.injEq, Prod.mk.injEq, true_and] at h
      subst h
      exact keeps_trans k1 (keeps_trans (keeps_se_init_rxcfg k s1) (keeps_se_init_finish k _))

/-- What `se_init` establishes for the receive ring and the multicast filter. -/
theorem se_init_ring (k : hostdefs) (fuel : Nat) (s s' : se_context)
    (h : se_init k fuel s = some (0, s')) :
    s'.rxptr = SE_RXSTART
    ∧ s'.regs reg.ERXST = SWAPBYTES SE_RXSTART
    ∧ s'.regs reg.ERXTAIL = SWAPBYTES (SE_RXEND - 2)
    ∧ s'.mcast_refcount = s.mcast_refcount
    ∧ s'.regs reg.EHT1 = SWAPBYTES (mcast_table s.mcast_refcount 0)
    ∧ s'.regs reg.EHT2 = SWAPBYTES (mcast_table s.mcast_refcount 1)
    ∧ s'.regs reg.EHT3 = SWAPBYTES (mcast_table s.mcast_refcount 2)
    ∧ s'.regs reg.EHT4 = SWAPBYTES (mcast_table s.mcast_refcount 3) := by
  obtain ⟨k1, k2, k3⟩ := se_init_spec k fuel s s' h
  obtain ⟨m1, m2, m3, m4, m5, m6, m7, m8⟩ := se_update_multicast_regs (se_init_regs k s)
  obtain ⟨i1, i2, i3, i4⟩ := se_init_regs_ring k s
  rw [i4] at m5 m6 m7 m8
  refine ⟨by rw [k1, m1, i1], by rw [k3 reg.ERXST rfl, m3, i2],
    by rw [k3 reg.ERXTAIL rfl, m4, i3], by rw [k2, m2, i4], by rw [k3 reg.EHT1 rfl, m5],
    by rw [k3 reg.EHT2 rfl, m6], by rw [k3 reg.EHT3 rfl, m7], by rw [k3 reg.EHT4 rfl, m8]⟩


/-- C6 (defect in the code): `se_rxbuf_reset` compares the reset counter before the
increment with `MAX_RESETS`.  Five consecutive calls from a zero counter leave the
counter at 5; the sixth call, entered with the counter at 5, does not give up: it
resets the read pointer, posts the counter-clear callout and re-enables reception.
Only the seventh call gives up and leaves reception disabled. -/
theorem se_rxbuf_reset_sixth_call :
    (recover_times sample_defs 1 5 sample_ctx).map (fun s => s.reset_counter) = some 5
    ∧ (se_rxbuf_reset sample_defs 1
          { sample_ctx with reset_counter := 5, rxptr := 0x1235 }).map
        (fun s => (s.reset_counter, s.regs reg.ECON1 &&& sample_defs.ECON1_RXEN, s.rxptr,
          s.callout, s.console))
      = some (6, sample_defs.ECON1_RXEN, SE_RXSTART, [RESET_COUNT_TIME sample_defs],
          [msg.dazed 0x1235])
    ∧ (recover_times sample_defs 1 6 sample_ctx).map
        (fun s => (s.reset_counter, s.regs reg.ECON1 &&& sample_defs.ECON1_RXEN, s.callout,
          s.console.getLast?))
      = some (6, sample_defs.ECON1_RXEN, [RESET_COUNT_TIME sample_defs],
          some (msg.dazed SE_RXSTART))
    ∧ (recover_times sample_defs 1 7 sample_ctx).map
        (fun s => (s.reset_counter, s.regs reg.ECON1 &&& sample_defs.ECON1_RXEN, s.callout,
          s.console.getLast?))
      = some (7, 0, [], some msg.in_jail) := by
  refine ⟨by decide, by decide, by decide, by decide⟩

/-- The give-up test of `se_rxbuf_reset`, for every context: the call gives up exactly
when the counter it finds is above `MAX_RESETS`. -/
theorem se_rxbuf_reset_threshold (k : hostdefs) (fuel : Nat) (s : se_context) :
    (MAX_RESETS < s.reset_counter → se_rxbuf_reset k fuel s = some (rxbuf_jail k s))
    ∧ (s.reset_counter ≤ MAX_RESETS → ∀ s', se_rxbuf_reset k fuel s = some s' →
        rx_enabled k s' ∧ s'.rxptr = SE_RXSTART) := by
  refine ⟨se_rxbuf_reset_jail k fuel s, fun h s' hs => ?_⟩
  obtain ⟨_, _, p3, _, _, p6, _⟩ := se_rxbuf_reset_recover k fuel s s' h hs
  exact ⟨p6, p3⟩

theorem callout_fire_single (k : hostdefs) (s : se_context) (t : Nat)
    (hc : s.callout = [t]) (he : rx_enabled k s) :
    ∃ s'', callout_fire s = some s'' ∧ s''.reset_counter = 0 ∧ rx_enabled k s''
      ∧ s''.callout = [] := by
  unfold callout_fire
  rw [hc]
  exact ⟨_, rfl, rfl, he, rfl⟩

/-- C7: when `se_rxbuf_reset` does not give up (the counter it finds is at most
`MAX_RESETS`), it returns once the chip's receive-busy and packet-pending flags read
clear, and on return `ERXST` holds `SE_RXSTART` and `ERXTAIL` holds `SE_RXEND - 2`
(byte-swapped for the chip), `rxptr = SE_RXSTART`, which is the ring state every
successful `se_init` establishes; the reset counter is one more than before; the
callout list holds exactly one counter-clear, due in `RESET_COUNT_TIME` ticks; and
reception is enabled.  When that callout fires, the counter is 0, reception is still
enabled and nothing is left pending. -/
theorem se_rxbuf_reset_restores (k : hostdefs) (s : se_context)
    (h : s.reset_counter ≤ MAX_RESETS) :
    (chip_settles k s → ∃ fuel0, ∀ fuel, fuel0 ≤ fuel →
        ∃ s', se_rxbuf_reset k fuel s = some s')
    ∧ (∀ fuel s', se_rxbuf_reset k fuel s = some s' →
        s'.regs reg.ERXST = SWAPBYTES SE_RXSTART
        ∧ SWAPBYTES (s'.regs reg.ERXST) = SE_RXSTART
        ∧ s'.regs reg.ERXTAIL = SWAPBYTES (SE_RXEND - 2)
        ∧ SWAPBYTES (s'.regs reg.ERXTAIL) = SE_RXEND - 2
        ∧ s'.rxptr = SE_RXSTART
        ∧ (∀ fuel0 s0 s0', se_init k fuel0 s0 = some (0, s0') →
            s0'.regs reg.ERXST = s'.regs reg.ERXST
            ∧ s0'.regs reg.ERXTAIL = s'.regs reg.ERXTAIL ∧ s0'.rxptr = s'.rxptr)
        ∧ s'.reset_counter = s.reset_counter + 1
        ∧ s'.callout = [RESET_COUNT_TIME k]
        ∧ rx_enabled k s'
        ∧ ∃ s'', callout_fire s' = some s'' ∧ s''.reset_counter = 0 ∧ rx_enabled k s''
            ∧ s''.callout = []) := by
  refine ⟨se_rxbuf_reset_returns k s, ?_⟩
  intro fuel s' hs
  obtain ⟨p1, p2, p3, p4, p5, p6, _, _⟩ := se_rxbuf_reset_recover k fuel s s' h hs
  refine ⟨p1, ?_, p2, ?_, p3, ?_, p4, p5, p6, callout_fire_single k s' _ p5 p6⟩
  · rw [p1]; exact SWAPBYTES_SWAPBYTES _ (by decide)
  · rw [p2]; exact SWAPBYTES_SWAPBYTES _ (by decide)
  · intro fuel0 s0 s0' hi
    obtain ⟨i1, i2, i3, _⟩ := se_init_ring k fuel0 s0 s0' hi
    exact ⟨by rw [i2, p1], by rw [i3, p2], by rw [i1, p3]⟩

/-- C7, at a concrete input: the first recovery of an idle chip returns with one
fuel unit, with the counter at 1 and reception enabled. -/
theorem se_rxbuf_reset_restores_witness :
    ∃ s', se_rxbuf_reset sample_defs 1 sample_ctx = some s'
      ∧ s'.rxptr = SE_RXSTART ∧ s'.reset_counter = 1
      ∧ s'.callout = [RESET_COUNT_TIME sample_defs] ∧ rx_enabled sample_defs s' := by
  have h := se_rxbuf_reset_restores sample_defs sample_ctx (by decide)
  obtain ⟨fuel0, hf⟩ := h.1 (chip_settles_idle _ _ (fun _ => rfl))
  have hsome : (se_rxbuf_reset sample_defs 1 sample_ctx).isSome = true := by decide
  obtain ⟨s', hs'⟩ := Option.isSome_iff_exists.mp hsome
  obtain ⟨_, _, _, _, q5, _, q7, q8, q9, _⟩ := h.2 1 s' hs'
  exact ⟨s', hs', q5, q7, q8, q9⟩


theorem rxbuf_jail_disabled (k : hostdefs) (s : se_context)
    (hg : MAX_RESETS < s.reset_counter) (hw : s.reset_counter + 1 < 2 ^ 32) :
    disabled k (rxbuf_jail k s) ∧ (rxbuf_jail k s).reset_counter = s.reset_counter + 1 := by
  obtain ⟨p1, p2, p3, _⟩ := rxbuf_jail_props k s
  have e : (rxbuf_jail k s).reset_counter = s.reset_counter + 1 := by
    rw [p3]; exact Nat.mod_eq_of_lt hw
  exact ⟨⟨p2, by rw [e]; omega, p1⟩, e⟩

theorem disabled_step (k : hostdefs) (a b : se_context) (hd : disabled k a)
    (hw : a.reset_counter + 1 < 2 ^ 32) (hs : recovery_step k a b) :
    disabled k b ∧ b.reset_counter = a.reset_counter + 1 := by
  cases hs with
  | reset fuel _ _ h =>
    rw [se_rxbuf_reset_jail k fuel a hd.2.1] at h
    cases h
    exact rxbuf_jail_disabled k a hd.2.1 hw
  | clear _ _ h =>
    unfold callout_fire at h
    rw [hd.1] at h
    cases h

theorem disabled_steps (k : hostdefs) :
    ∀ (n : Nat) (a b : se_context), recovery_steps k n a b → disabled k a →
      a.reset_counter + n < 2 ^ 32 →
      disabled k b ∧ b.reset_counter = a.reset_counter + n := by
  intro n
  induction n with
  | zero =>
    intro a b h hd _
    cases h
    exact ⟨hd, rfl⟩
  | succ n ih =>
    intro a b h hd hw
    cases h with
    | next _ _ m _ h1 h2 =>
      obtain ⟨d1, e1⟩ := disabled_step k a m hd (by omega) h1
      obtain ⟨d2, e2⟩ := ih m b h2 d1 (by omega)
      exact ⟨d2, by omega⟩

/-- C8 (as amended): once `se_rxbuf_reset` has taken the give-up branch, in every
state reached by `n` further steps of the recovery state machine taken before the
32-bit reset counter wraps, no counter-clear callout is pending, the reset counter has
grown by `n` and is above `MAX_RESETS`, reception is disabled, and a further call of
`se_rxbuf_reset` takes the give-up branch again. -/
theorem disabled_terminal (k : hostdefs) (s : se_context)
    (hg : MAX_RESETS < s.reset_counter) (n : Nat) (s2 : se_context)
    (hsteps : recovery_steps k n (rxbuf_jail k s) s2)
    (hw : s.reset_counter + 1 + n < 2 ^ 32) :
    (∀ fuel, se_rxbuf_reset k fuel s = some (rxbuf_jail k s))
    ∧ disabled k s2
    ∧ s2.reset_counter = s.reset_counter + 1 + n
    ∧ (∀ fuel, se_rxbuf_reset k fuel s2 = some (rxbuf_jail k s2)
        ∧ rx_disabled k (rxbuf_jail k s2) ∧ (rxbuf_jail k s2).callout = []) := by
  obtain ⟨d0, e0⟩ := rxbuf_jail_disabled k s hg (by omega)
  obtain ⟨d, e⟩ := disabled_steps k n _ s2 hsteps d0 (by omega)
  refine ⟨fun fuel => se_rxbuf_reset_jail k fuel s hg, d, by omega, fun fuel => ?_⟩
  obtain ⟨p1, p2, _⟩ := rxbuf_jail_props k s2
  exact ⟨se_rxbuf_reset_jail k fuel s2 d.2.1, p1, p2⟩

/-- C8 as amended, at a concrete input: a context whose counter is 6 gives up, and one
further call later the device is still disabled with the counter at 8. -/
theorem disabled_terminal_witness :
    disabled sample_defs
      (rxbuf_jail sample_defs (rxbuf_jail sample_defs { sample_ctx with reset_counter := 6 }))
    ∧ (rxbuf_jail sample_defs
        (rxbuf_jail sample_defs { sample_ctx with reset_counter := 6 })).reset_counter = 8 :=
  have h := disabled_terminal sample_defs { sample_ctx with reset_counter := 6 } (by decide) 1
    (rxbuf_jail sample_defs (rxbuf_jail sample_defs { sample_ctx with reset_counter := 6 }))
    (recovery_steps.next 0 _ _ _
      (recovery_step.reset 0 _ _ (se_rxbuf_reset_jail _ _ _ (by decide)))
      (recovery_steps.done _))
    (by decide)
  ⟨h.2.1, h.2.2.1⟩

/-- C8 (counterexample): entered with the 32-bit reset counter at its largest value,
`se_rxbuf_reset` takes the give-up branch and the increment wraps the counter to 0.
The state right after the give-up is not `Disabled`, and the next call of
`se_rxbuf_reset` does not give up: it posts a counter-clear callout and re-enables
reception. -/
theorem disabled_lost_at_wrap :
    MAX_RESETS < wrap_ctx.reset_counter
    ∧ se_rxbuf_reset sample_defs 0 wrap_ctx = some (rxbuf_jail sample_defs wrap_ctx)
    ∧ (rxbuf_jail sample_defs wrap_ctx).reset_counter = 0
    ∧ ¬ disabled sample_defs (rxbuf_jail sample_defs wrap_ctx)
    ∧ (se_rxbuf_reset sample_defs 1 (rxbuf_jail sample_defs wrap_ctx)).map
        (fun s => (s.reset_counter, s.regs reg.ECON1 &&& sample_defs.ECON1_RXEN, s.callout,
          s.console.getLast?))
      = some (1, sample_defs.ECON1_RXEN, [RESET_COUNT_TIME sample_defs],
          some (msg.dazed SE_RXSTART)) := by
  refine ⟨by decide, se_rxbuf_reset_jail _ _ _ (by decide), by decide, ?_, by decide⟩
  intro h
  exact absurd h.2.1 (by decide)


/-! ## The multicast hash: proofs -/

theorem bitrev_lt (n x : Nat) : bitrev n x < 2 ^ n := by
  induction n generalizing x with
  | zero => simp [bitrev]
  | succ n ih =>
    simp only [bitrev]
    have := ih (x / 2)
    have h2 : x % 2 < 2 := Nat.mod_lt _ (by decide)
    rw [Nat.pow_succ]
    nlinarith

theorem testBit_bitrev (n x j : Nat) :
    (bitrev n x).testBit j = (decide (j < n) && x.testBit (n - 1 - j)) := by
  induction n generalizing x j with
  | zero => simp [bitrev]
  | succ n ih =>
    simp only [bitrev]
    rw [Nat.mul_comm, Nat.testBit_mul_pow_two_add _ (bitrev_lt n (x / 2))]
    split
    · next h =>
      rw [ih, Nat.testBit_div_two]
      have e : n - 1 - j + 1 = n + 1 - 1 - j := by omega
      rw [e]
      simp [h, Nat.lt_succ_of_lt h]
    · next h =>
      by_cases hj : j = n
      · subst hj
        simp
      · have h1 : ¬ j < n + 1 := by omega
        have h2 : x % 2 < 2 ^ (j - n) := by
          have : 2 ^ 1 ≤ 2 ^ (j - n) := Nat.pow_le_pow_right (by decide) (by omega)
          have : x % 2 < 2 := Nat.mod_lt _ (by decide)
          omega
        simp [h1, Nat.testBit_lt_two_pow h2]


theorem bitrev_xor (n x y : Nat) : bitrev n (x ^^^ y) = bitrev n x ^^^ bitrev n y := by
  apply Nat.eq_of_testBit_eq
  intro j
  simp only [testBit_bitrev, Nat.testBit_xor]
  cases decide (j < n) <;> simp

theorem bitrev32_top (r : Nat) : bitrev 32 r >>> 31 = r % 2 := by
  have h : bitrev 32 r = (r % 2) * 2 ^ 31 + bitrev 31 (r / 2) := rfl
  have hb := bitrev_lt 31 (r / 2)
  rw [Nat.shiftRight_eq_div_pow, h]
  have h2 : r % 2 < 2 := Nat.mod_lt _ (by decide)
  norm_num at hb ⊢
  omega

theorem bitrev32_shift (r : Nat) (hr : r < 2 ^ 32) :
    (bitrev 32 r <<< 1) % 2 ^ 32 = bitrev 32 (r / 2) := by
  apply Nat.eq_of_testBit_eq
  intro j
  simp only [Nat.testBit_mod_two_pow, Nat.testBit_shiftLeft, testBit_bitrev]
  by_cases hj : j < 32
  · by_cases h0 : j = 0
    · subst h0
      have : (r / 2) < 2 ^ 31 := by omega
      simp [Nat.testBit_lt_two_pow this]
    · have h1 : 1 ≤ j := by omega
      have h2 : j - 1 < 32 := by omega
      rw [Nat.testBit_div_two]
      have e : 32 - 1 - (j - 1) = 32 - 1 - j + 1 := by omega
      simp [hj, h1, h2, e]
  · simp [hj]

theorem crc_cond (r y : Nat) :
    (((y &&& 1) ^^^ (bitrev 32 r >>> 31)) ≠ 0) ↔ ((r ^^^ (y % 2)) % 2 = 1) := by
  rw [bitrev32_top, Nat.and_one_is_mod]
  have e : (r ^^^ (y % 2)) % 2 = (r % 2) ^^^ (y % 2) := by
    rw [← Nat.and_one_is_mod, Nat.and_xor_distrib_right, Nat.and_one_is_mod,
      Nat.and_one_is_mod, Nat.mod_mod]
  rw [e]
  rcases Nat.mod_two_eq_zero_or_one r with h1 | h1 <;>
    rcases Nat.mod_two_eq_zero_or_one y with h2 | h2 <;> simp [h1, h2]

theorem crc32_reflected_bit_lt (r b : Nat) (hr : r < 2 ^ 32) :
    crc32_reflected_bit r b < 2 ^ 32 := by
  unfold crc32_reflected_bit
  split
  · exact Nat.xor_lt_two_pow (by omega) (by decide)
  · omega

theorem crc_step_bitrev (r y : Nat) (hr : r < 2 ^ 32) :
    crc_step (bitrev 32 r, y) = (bitrev 32 (crc32_reflected_bit r (y % 2)), y >>> 1) := by
  unfold crc_step crc32_reflected_bit
  simp only []
  have hpoly : bitrev 32 0xEDB88320 = CRCPOLY := by decide
  by_cases hc : (r ^^^ (y % 2)) % 2 = 1
  · rw [if_pos ((crc_cond r y).mpr hc), if_pos hc, bitrev_xor, hpoly, bitrev32_shift r hr]
  · rw [if_neg (fun h => hc ((crc_cond r y).mp h)), if_neg hc, bitrev32_shift r hr]

theorem crc_bits_bitrev (Y : Nat) :
    ∀ (n i r : Nat), r < 2 ^ 32 →
      (List.range' i n).foldl (fun st _ => crc_step st) (bitrev 32 r, Y >>> i)
        = (bitrev 32 ((List.range' i n).foldl
            (fun c j => crc32_reflected_bit c (Y / 2 ^ j % 2)) r), Y >>> (i + n))
      ∧ (List.range' i n).foldl (fun c j => crc32_reflected_bit c (Y / 2 ^ j % 2)) r
          < 2 ^ 32 := by
  intro n
  induction n with
  | zero => intro i r hr; exact ⟨rfl, hr⟩
  | succ n ih =>
    intro i r hr
    simp only [List.range'_succ, List.foldl_cons]
    rw [crc_step_bitrev _ _ hr]
    have e1 : (Y >>> i) >>> 1 = Y >>> (i + 1) := by
      rw [Nat.shiftRight_add]
    have e2 : (Y >>> i) % 2 = Y / 2 ^ i % 2 := by rw [Nat.shiftRight_eq_div_pow]
    rw [e1, e2]
    have h := ih (i + 1) _ (crc32_reflected_bit_lt r (Y / 2 ^ i % 2) hr)
    rw [show i + 1 + n = i + (n + 1) by omega] at h
    exact h

theorem crc_byte_bitrev (r byte : Nat) (hr : r < 2 ^ 32) :
    crc_byte (bitrev 32 r) byte = bitrev 32 (crc32_reflected_byte r (byte % 256))
    ∧ crc32_reflected_byte r (byte % 256) < 2 ^ 32 := by
  unfold crc_byte crc32_reflected_byte
  rw [List.range_eq_range']
  have h := crc_bits_bitrev (byte % 256) 8 0 r hr
  rw [Nat.shiftRight_zero] at h
  exact ⟨by rw [h.1], h.2⟩

theorem crc_bytes_bitrev (addr : Nat → Nat) :
    ∀ (l : List Nat) (r : Nat), r < 2 ^ 32 →
      l.foldl (fun crc i => crc_byte crc (addr i)) (bitrev 32 r)
        = bitrev 32 ((l.map (fun i => addr i % 256)).foldl crc32_reflected_byte r) := by
  intro l
  induction l with
  | nil => intro r _; rfl
  | cons i l ih =>
    intro r hr
    simp only [List.foldl_cons, List.map_cons]
    obtain ⟨e, b⟩ := crc_byte_bitrev r (addr i) hr
    rw [e]
    exact ih _ b

theorem multicast_crc_bitrev (addr : Nat → Nat) :
    multicast_crc addr = crc32_normal (addr_bytes addr) := by
  have h := crc_bytes_bitrev addr (List.range 6) 0xFFFFFFFF (by decide)
  have h0 : bitrev 32 0xFFFFFFFF = 0xffffffff := by decide
  rw [h0] at h
  exact h

set_option maxRecDepth 100000 in
theorem multicast_crc_samples :
    multicast_crc (fun _ => 0xff) = 0xFF48647D
    ∧ crc32_normal [0xff, 0xff, 0xff, 0xff, 0xff, 0xff] = 0xFF48647D
    ∧ se_multicast_hash (fun _ => 0xff) = 62
    ∧ crc32_bucket [0xff, 0xff, 0xff, 0xff, 0xff, 0xff] = 62
    ∧ multicast_crc (fun _ => 0) = 0x3A7ABC72
    ∧ crc32_normal [0, 0, 0, 0, 0, 0] = 0x3A7ABC72
    ∧ se_multicast_hash (fun _ => 0) = 52
    ∧ crc32_bucket [0, 0, 0, 0, 0, 0] = 52 := by
  refine ⟨by decide, by decide, by decide, by decide, by decide, by decide, by decide,
    by decide⟩

/-- C9: `se_multicast_hash` returns bits 28 down to 23 of the CRC-32 of the 6 address
bytes in normal form (generator `0x04C11DB7`, the bit reversal of `0xEDB88320`), where
the CRC is the bit reversal of the register of the reference reflected algorithm; the
result is below 64 and depends on the 6 bytes only.  For the broadcast address the
register is `0xFF48647D` and the bucket 62; for the all-zero address the register is
`0x3A7ABC72` and the bucket 52; both agree with the reference. -/
theorem se_multicast_hash_crc32 (addr : Nat → Nat) :
    se_multicast_hash addr = crc32_bucket (addr_bytes addr)
    ∧ se_multicast_hash addr < 64
    ∧ (∀ addr' : Nat → Nat, (∀ i, i < 6 → addr' i % 256 = addr i % 256) →
        se_multicast_hash addr' = se_multicast_hash addr)
    ∧ bitrev 32 0xEDB88320 = CRCPOLY
    ∧ multicast_crc (fun _ => 0xff) = 0xFF48647D
    ∧ crc32_normal [0xff, 0xff, 0xff, 0xff, 0xff, 0xff] = 0xFF48647D
    ∧ se_multicast_hash (fun _ => 0xff) = 62
    ∧ crc32_bucket [0xff, 0xff, 0xff, 0xff, 0xff, 0xff] = 62
    ∧ multicast_crc (fun _ => 0) = 0x3A7ABC72
    ∧ crc32_normal [0, 0, 0, 0, 0, 0] = 0x3A7ABC72
    ∧ se_multicast_hash (fun _ => 0) = 52
    ∧ crc32_bucket [0, 0, 0, 0, 0, 0] = 52 := by
  have hb : ∀ a : Nat → Nat, se_multicast_hash a = crc32_bucket (addr_bytes a) := by
    intro a
    unfold se_multicast_hash crc32_bucket
    rw [multicast_crc_bitrev, Nat.shiftRight_eq_div_pow]
    exact Nat.and_pow_two_sub_one_eq_mod _ 6
  refine ⟨hb addr, ?_, ?_, by decide, multicast_crc_samples⟩
  · rw [hb]
    unfold crc32_bucket
    exact Nat.mod_lt _ (by decide)
  · intro addr' h
    rw [hb, hb]
    unfold addr_bytes
    rw [h 0 (by decide), h 1 (by decide), h 2 (by decide), h 3 (by decide), h 4 (by decide),
      h 5 (by decide)]


/-! ## The multicast filter: proofs -/

theorem mcast_fold_testBit (rc : Nat → Nat) (r : Nat) :
    ∀ n, n ≤ 16 → ∀ b,
      ((List.range n).foldl
        (fun t bit => if rc (r * 16 + bit) ≠ 0 then (t ||| BIT bit) % 65536 else t) 0).testBit b
      = (decide (b < n) && decide (rc (r * 16 + b) ≠ 0)) := by
  intro n
  induction n with
  | zero => intro _ b; simp
  | succ n ih =>
    intro hn b
    rw [List.range_succ, List.foldl_append]
    simp only [List.foldl_cons, List.foldl_nil]
    have h := ih (by omega)
    generalize (List.range n).foldl
      (fun t bit => if rc (r * 16 + bit) ≠ 0 then (t ||| BIT bit) % 65536 else t) 0 = T at h ⊢
    split
    · next hrc =>
      have e : (65536 : Nat) = 2 ^ 16 := by norm_num
      rw [e, Nat.testBit_mod_two_pow, Nat.testBit_or, h b, BIT, Nat.testBit_two_pow]
      by_cases hb : b = n
      · subst hb
        have : b < 16 := by omega
        simp [this, hrc]
      · have hne : ¬ n = b := fun h => hb h.symm
        by_cases hlt : b < n
        · have : b < 16 := by omega
          have : b < n + 1 := by omega
          simp [*]
        · have : ¬ b < n + 1 := by omega
          simp [*]
    · next hrc =>
      rw [h b]
      by_cases hb : b = n
      · subst hb
        simp only [ne_eq, Decidable.not_not] at hrc
        simp [hrc]
      · by_cases hlt : b < n
        · have : b < n + 1 := by omega
          simp [*]
        · have : ¬ b < n + 1 := by omega
          simp [*]

theorem mcast_table_testBit (rc : Nat → Nat) (r b : Nat) :
    (mcast_table rc r).testBit b = (decide (b < 16) && decide (rc (r * 16 + b) ≠ 0)) :=
  mcast_fold_testBit rc r 16 (le_refl _) b

theorem mcast_table_lt (rc : Nat → Nat) (r : Nat) : mcast_table rc r < 65536 := by
  have e : (65536 : Nat) = 2 ^ 16 := by norm_num
  rw [e]
  apply Nat.lt_pow_two_of_testBit
  intro i hi
  rw [mcast_table_testBit]
  have : ¬ i < 16 := by omega
  simp [this]

theorem filter_agrees_of_table (s : se_context)
    (h : ∀ n, n < 4 → s.regs (EHT n) = SWAPBYTES (mcast_table s.mcast_refcount n)) :
    filter_agrees s := by
  intro i hi
  rw [h (i / 16) (by omega), SWAPBYTES_SWAPBYTES _ (mcast_table_lt _ _), mcast_table_testBit]
  have e : i / 16 * 16 + i % 16 = i := by omega
  have hlt : i % 16 < 16 := Nat.mod_lt _ (by decide)
  rw [e]
  simp [hlt, Nat.pos_iff_ne_zero]

theorem filter_agrees_update (s : se_context) : filter_agrees (se_update_multicast s) := by
  obtain ⟨_, m2, _, _, m5, m6, m7, m8⟩ := se_update_multicast_regs s
  apply filter_agrees_of_table
  intro n hn
  rw [m2]
  have : n = 0 ∨ n = 1 ∨ n = 2 ∨ n = 3 := by omega
  rcases this with rfl | rfl | rfl | rfl
  · exact m5
  · exact m6
  · exact m7
  · exact m8

theorem filter_agrees_ioctl (cmd : ioctl_cmd) (sa : Nat → Nat) (s : se_context)
    (h : filter_agrees s) : filter_agrees (se_ioctl cmd sa s).2 := by
  unfold se_ioctl
  cases cmd with
  | SIOCSMAR => exact filter_agrees_update _
  | SIOCUMAR =>
    simp only []
    split
    · exact filter_agrees_update _
    · exact h

theorem filter_agrees_seq (calls : List (ioctl_cmd × (Nat → Nat))) :
    ∀ s, filter_agrees s → filter_agrees (se_ioctl_seq calls s) := by
  induction calls with
  | nil => intro s h; exact h
  | cons c cs ih =>
    intro s h
    exact ih _ (filter_agrees_ioctl c.1 c.2 s h)


theorem se_ioctl_unsubscribe_le (sa : Nat → Nat) (s : se_context) (i : Nat) :
    (se_ioctl ioctl_cmd.SIOCUMAR sa s).2.mcast_refcount i ≤ s.mcast_refcount i := by
  unfold se_ioctl
  simp only []
  split
  · next h =>
    show (if i = se_multicast_hash sa then
        (s.mcast_refcount (se_multicast_hash sa) + 256 - 1) % 256
      else s.mcast_refcount i) ≤ s.mcast_refcount i
    split
    · next hi => subst hi; omega
    · exact le_refl _
  · exact le_refl _

theorem se_ioctl_unsubscribe_zero (sa : Nat → Nat) (s : se_context)
    (h : s.mcast_refcount (se_multicast_hash sa) = 0) :
    (se_ioctl ioctl_cmd.SIOCUMAR sa s).2 = s := by
  unfold se_ioctl
  simp only []
  rw [if_neg (by omega)]

theorem filter_agrees_se_init (k : hostdefs) (fuel : Nat) (s s' : se_context)
    (h : se_init k fuel s = some (0, s')) : filter_agrees s' := by
  obtain ⟨_, _, _, i4, i5, i6, i7, i8⟩ := se_init_ring k fuel s s' h
  apply filter_agrees_of_table
  intro n hn
  rw [i4]
  have : n = 0 ∨ n = 1 ∨ n = 2 ∨ n = 3 := by omega
  rcases this with rfl | rfl | rfl | rfl
  · exact i5
  · exact i6
  · exact i7
  · exact i8

/-- C10: from a state in which the pushed hash table agrees with the reference counts,
after every finite sequence of `SIOCSMAR` and `SIOCUMAR` calls with arbitrary
addresses the table still agrees: for every bucket `i` below 64, bit `i mod 16` of
hash-table register `i div 16` is set iff `mcast_refcount[i] > 0`.  An unsubscribe
whose bucket count is zero leaves the whole context unchanged, and no unsubscribe
raises any count, so a count neither goes below zero nor wraps to 255.  Every
successful `se_init` leaves the table in agreement with the counts, and after
`se_attach` the counts are all zero. -/
theorem multicast_filter_invariant (s : se_context) (h : filter_agrees s) :
    (∀ calls, filter_agrees (se_ioctl_seq calls s))
    ∧ (∀ sa, s.mcast_refcount (se_multicast_hash sa) = 0 →
        (se_ioctl ioctl_cmd.SIOCUMAR sa s).2 = s)
    ∧ (∀ sa i, (se_ioctl ioctl_cmd.SIOCUMAR sa s).2.mcast_refcount i ≤ s.mcast_refcount i)
    ∧ (∀ k fuel s0 s', se_init k fuel (se_attach k s0) = some (0, s') →
        filter_agrees s' ∧ ∀ i, s'.mcast_refcount i = 0) := by
  refine ⟨fun calls => filter_agrees_seq calls s h, fun sa hsa => se_ioctl_unsubscribe_zero sa s hsa,
    fun sa i => se_ioctl_unsubscribe_le sa s i, ?_⟩
  intro k fuel s0 s' hi
  refine ⟨filter_agrees_se_init k fuel _ s' hi, fun i => ?_⟩
  rw [(se_init_ring k fuel _ s' hi).2.2.2.1]
  rfl

theorem filter_agrees_sample : filter_agrees sample_ctx := by
  intro i hi
  show (SWAPBYTES 0).testBit (i % 16) = true ↔ 0 < 0
  simp [SWAPBYTES]

set_option maxRecDepth 100000 in
/-- C10, at a concrete input: starting from the zeroed sample context, one subscribe
to the broadcast address followed by two unsubscribes leaves the table in agreement
with the counts, and the count of bucket 62 back at zero. -/
theorem multicast_filter_invariant_witness :
    filter_agrees
      (se_ioctl_seq
        [(ioctl_cmd.SIOCSMAR, fun _ => 0xff), (ioctl_cmd.SIOCUMAR, fun _ => 0xff),
         (ioctl_cmd.SIOCUMAR, fun _ => 0xff)] sample_ctx)
    ∧ (se_ioctl_seq
        [(ioctl_cmd.SIOCSMAR, fun _ => 0xff), (ioctl_cmd.SIOCUMAR, fun _ => 0xff),
         (ioctl_cmd.SIOCUMAR, fun _ => 0xff)] sample_ctx).mcast_refcount 62 = 0 :=
  ⟨(multicast_filter_invariant sample_ctx filter_agrees_sample).1 _, by decide⟩


/-! ## Subscribing to a multicast address: proofs -/

theorem se_ioctl_subscribe_eq (sa : Nat → Nat) (s : se_context) :
    (se_ioctl ioctl_cmd.SIOCSMAR sa s).2
      = se_update_multicast
          { s with mcast_refcount := fun j =>
              if j = se_multicast_hash sa then (s.mcast_refcount (se_multicast_hash sa) + 1) % 256
              else s.mcast_refcount j } := rfl

/-- What `SIOCSMAR` does to the count of the address's bucket and to the pushed table,
for every context: the count is incremented in 8 bits and the table agrees with the
new counts; when the prior count is below 255 the bucket is active afterwards and its
bit is set. -/
theorem se_ioctl_subscribe (sa : Nat → Nat) (s : se_context) :
    (se_ioctl ioctl_cmd.SIOCSMAR sa s).2.mcast_refcount (se_multicast_hash sa)
        = (s.mcast_refcount (se_multicast_hash sa) + 1) % 256
    ∧ filter_agrees (se_ioctl ioctl_cmd.SIOCSMAR sa s).2
    ∧ (s.mcast_refcount (se_multicast_hash sa) < 255 →
        (se_ioctl ioctl_cmd.SIOCSMAR sa s).2.mcast_refcount (se_multicast_hash sa)
            = s.mcast_refcount (se_multicast_hash sa) + 1
        ∧ (SWAPBYTES ((se_ioctl ioctl_cmd.SIOCSMAR sa s).2.regs
              (EHT (se_multicast_hash sa / 16)))).testBit (se_multicast_hash sa % 16)
            = true) := by
  have hlt : se_multicast_hash sa < 64 := by
    unfold se_multicast_hash
    have : (multicast_crc sa >>> 23) &&& 0x3f ≤ 0x3f := Nat.and_le_right
    omega
  have hc : (se_ioctl ioctl_cmd.SIOCSMAR sa s).2.mcast_refcount (se_multicast_hash sa)
      = (s.mcast_refcount (se_multicast_hash sa) + 1) % 256 := by
    rw [se_ioctl_subscribe_eq, (se_update_multicast_regs _).2.1]
    simp
  have ha : filter_agrees (se_ioctl ioctl_cmd.SIOCSMAR sa s).2 := by
    rw [se_ioctl_subscribe_eq]
    exact filter_agrees_update _
  refine ⟨hc, ha, fun h => ?_⟩
  have hc' : (se_ioctl ioctl_cmd.SIOCSMAR sa s).2.mcast_refcount (se_multicast_hash sa)
      = s.mcast_refcount (se_multicast_hash sa) + 1 := by
    rw [hc]; exact Nat.mod_eq_of_lt (by omega)
  exact ⟨hc', (ha _ hlt).mpr (by rw [hc']; omega)⟩

set_option maxRecDepth 100000 in
/-- C11 (defect in the code): the reference counts are `unsigned char` and `SIOCSMAR`
increments without a test.  With 255 subscribers counted in bucket 62 and its bit set
in the pushed table, one more subscribe to the broadcast address, which hashes to
bucket 62, wraps the count to 0 and `se_update_multicast` clears the bit: the bucket
is inactive right after a subscribe. -/
theorem se_ioctl_subscribe_at_255 :
    se_multicast_hash etherbroadcast = 62
    ∧ full_bucket_ctx.mcast_refcount 62 = 255
    ∧ (SWAPBYTES (full_bucket_ctx.regs (EHT (62 / 16)))).testBit (62 % 16) = true
    ∧ (se_ioctl ioctl_cmd.SIOCSMAR etherbroadcast full_bucket_ctx).2.mcast_refcount 62 = 0
    ∧ (SWAPBYTES ((se_ioctl ioctl_cmd.SIOCSMAR etherbroadcast full_bucket_ctx).2.regs
          (EHT (62 / 16)))).testBit (62 % 16) = false := by
  refine ⟨by decide, by decide, by decide, by decide, by decide⟩

/-! ## Link state: proofs -/

theorem wait_fcidle_now (k : hostdefs) (fuel : Nat) (s : se_context)
    (h : s.hw s.polls % 65536 &&& k.ESTAT_FCIDLE ≠ 0) :
    wait_fcidle k (fuel + 1) s = some { s with polls := s.polls + 1 } := by
  simp only [wait_fcidle, ENC624J600_READ_REG]
  rw [if_neg h]

theorem bic_bic (v m : Nat) : bic (bic v m) m = bic v m := by
  have h := bic_and v m
  unfold bic at *
  rw [h]
  simp

theorem bic_keep (v m b : Nat) (h : b &&& m = 0) : bic v m &&& b = v &&& b := by
  apply Nat.eq_of_testBit_eq
  intro i
  have hi : (b &&& m).testBit i = false := by rw [h]; simp
  simp only [Nat.testBit_and] at hi
  simp only [bic, Nat.testBit_and, Nat.testBit_xor]
  cases hv : v.testBit i <;> cases hb : b.testBit i <;> cases hm : m.testBit i <;>
    simp_all

/-- What `se_update_linkstate` leaves in the registers when every status read shows
the flow-control engine idle and the PHY in half duplex: `MACON2_FULDPX` clear, the
half-duplex gap value in `MABBIPG`, `ECON2_AUTOFC` clear, `ECON1_FCOP1` clear, and
every bit of `ECON1` outside `ECON1_FCOP1`, `ECON1_FCOP0` among them, as it was. -/
theorem se_update_linkstate_half_duplex (k : hostdefs) (fuel : Nat) (s : se_context)
    (hidle : ∀ t, s.hw t % 65536 &&& k.ESTAT_FCIDLE ≠ 0)
    (hhalf : ∀ t, s.hw t % 65536 &&& k.ESTAT_PHYDPX = 0) :
    ∃ s', se_update_linkstate k (fuel + 1) s = some s'
      ∧ s'.regs reg.MACON2 &&& k.MACON2_FULDPX = 0
      ∧ s'.regs reg.MABBIPG = (0x12 <<< k.MABBIPG_BBIPG_SHIFT) % 65536
      ∧ s'.regs reg.ECON2 &&& k.ECON2_AUTOFC = 0
      ∧ s'.regs reg.ECON1 &&& k.ECON1_FCOP1 = 0
      ∧ s'.regs reg.ECON1 = bic (s.regs reg.ECON1) k.ECON1_FCOP1
      ∧ (∀ b, b &&& k.ECON1_FCOP1 = 0 → s'.regs reg.ECON1 &&& b = s.regs reg.ECON1 &&& b) := by
  unfold se_update_linkstate
  rw [wait_fcidle_now k fuel s (hidle _)]
  simp only [ENC624J600_READ_REG]
  have h2 : ¬ (s.hw (s.polls + 1) % 65536 &&& k.ESTAT_PHYDPX ≠ 0) := by
    rw [hhalf]; simp
  rw [if_neg h2]
  refine ⟨_, rfl, ?_, ?_, ?_, ?_, ?_, ?_⟩
  · simp [ENC624J600_CLEAR_BITS, ENC624J600_WRITE_REG, bic_and]
  · simp [ENC624J600_CLEAR_BITS, ENC624J600_WRITE_REG]
  · simp [ENC624J600_CLEAR_BITS, ENC624J600_WRITE_REG, bic_and]
  · simp [ENC624J600_CLEAR_BITS, ENC624J600_WRITE_REG, bic_and, Nat.or_self]
  · simp [ENC624J600_CLEAR_BITS, ENC624J600_WRITE_REG, Nat.or_self]
  · intro b hb
    simp [ENC624J600_CLEAR_BITS, ENC624J600_WRITE_REG, Nat.or_self, bic_keep _ _ _ hb]

/-- C14 (defect in the code): in the half-duplex branch `se_update_linkstate` clears
`ECON1_FCOP1 | ECON1_FCOP1`.  Entered with both flow-control operation bits set, idle
flow control and a half-duplex PHY, it leaves `MACON2_FULDPX` clear, `MABBIPG` at
`0x12` and `ECON2_AUTOFC` clear, clears `ECON1_FCOP1`, and leaves `ECON1_FCOP0` set. -/
theorem se_update_linkstate_leaves_fcop0 :
    (se_update_linkstate sample_defs 1 half_duplex_ctx).map
        (fun s => (s.regs reg.MACON2 &&& sample_defs.MACON2_FULDPX, s.regs reg.MABBIPG,
          s.regs reg.ECON2 &&& sample_defs.ECON2_AUTOFC,
          s.regs reg.ECON1 &&& sample_defs.ECON1_FCOP1,
          s.regs reg.ECON1 &&& sample_defs.ECON1_FCOP0))
      = some (0, 0x12, 0, 0, sample_defs.ECON1_FCOP0)
    ∧ sample_defs.ECON1_FCOP0 ≠ 0 := by
  refine ⟨by decide, by decide⟩

/-! ## The length test and full-size frames: proofs -/

/-- The length test of `se_get` in terms of the status length, for a valid read
pointer and next-packet offset: status lengths 36 to 1490 pass, status lengths 1491
to 1518 make `se_get` print the bogus-length message and call `se_rxbuf_reset`. -/
theorem se_get_status_length (k : hostdefs) (fuel : Nat) (s : se_context)
    (hp : ring_valid s.rxptr) (hn : ring_valid (rx_next s)) :
    (36 ≤ rx_status_length s → rx_status_length s ≤ 1490 →
      se_get k fuel s
        = se_get_body k fuel (rx_frame_length s) (rx_next s)
            (se_getbytes s sizeof_se_rxheader).2)
    ∧ (1491 ≤ rx_status_length s → rx_status_length s ≤ 1518 →
      se_get k fuel s
        = (se_rxbuf_reset k fuel
            (printf (msg.bogus_length (rx_status_length s - 4))
              (se_getbytes s sizeof_se_rxheader).2)).map (fun s1 => (none, s1))) := by
  have hpa := rxptr_accepted_of_valid s hp
  refine ⟨fun h1 h2 => ?_, fun h1 h2 => ?_⟩
  · have e : rx_frame_length s = rx_status_length s - 4 := by
      unfold rx_frame_length; omega
    exact se_get_accept k fuel s hpa hn
      (by rw [e]; simp only [ETHERMIN, sizeof_ether_header]; omega)
      (by rw [e]; simp only [ETHERMTU, sizeof_ether_header]; omega)
  · have e : rx_frame_length s = rx_status_length s - 4 := by
      unfold rx_frame_length; omega
    rw [← e]
    exact se_get_reject_length k fuel s hpa hn
      (Or.inr (by rw [e]; simp only [ETHERMTU, sizeof_ether_header]; omega))

/-- C16 (defect in the code): the length test of `se_get` adds
`sizeof(struct ether_header)` to a `len` that already counts the ethernet header.  A
full-size frame (status length 1518: 14-byte header, 1500-byte payload, 4-byte CRC)
with valid ring pointers is refused: `se_get` prints "bogus packet length 1514",
calls `se_rxbuf_reset` (the reset counter goes from 0 to 1) and returns no chain.
The largest status length let through is 1490. -/
theorem se_get_rejects_full_size_frame :
    ring_valid (header_ctx 0xbf6 1518).rxptr
    ∧ ring_valid (rx_next (header_ctx 0xbf6 1518))
    ∧ rx_status_length (header_ctx 0xbf6 1518) = 1518
    ∧ (se_get sample_defs 1 (header_ctx 0xbf6 1518)).map
        (fun r => (r.1.isSome, r.2.console, r.2.reset_counter))
      = some (false, [msg.bogus_length 1514, msg.dazed (SE_RXSTART + 8)], 1)
    ∧ (se_get sample_defs 1 (header_ctx 0xbf6 1491)).map
        (fun r => (r.1.isSome, r.2.console, r.2.reset_counter))
      = some (false, [msg.bogus_length 1487, msg.dazed (SE_RXSTART + 8)], 1)
    ∧ (se_get sample_defs ETHERMTU (header_ctx 0xbf6 1490)).map
        (fun r => (r.1.isSome, r.2.console, r.2.reset_counter))
      = some (true, [], 0) := by
  refine ⟨by decide, by decide, by decide, by decide, by decide, ?_⟩
  obtain ⟨_, a2, a3⟩ := se_get_accept_spec sample_defs (by decide) (by decide) ETHERMTU
    (header_ctx 0xbf6 1490) (by decide) (by decide) (by decide) (by decide)
  obtain ⟨pkt, s', hr⟩ := a2 (le_refl _) (fun _ => rfl)
  obtain ⟨c1, c2, _⟩ := a3 _ hr
  rw [hr]
  simp only [Option.map_some', Option.isSome_some]
  rw [show s'.console = [] from c1, show s'.reset_counter = 0 from c2]

/-! ## The full send queue: proofs -/

/-- The full-queue path of `se_output`, for every chain that reaches the queue: the
queue keeps its contents, the drop counter goes up by one, registers and chip memory
are untouched, and the value returned is the one `error` held on entry. -/
theorem se_output_queue_full (k : hostdefs) (env : output_env) (m : List mbuf)
    (mcopy : Bool) (s : se_context) (h : s.if_snd.ifq_maxlen ≤ s.if_snd.ifq.length) :
    (se_output_queue k env m mcopy s).1 = env.error
    ∧ (se_output_queue k env m mcopy s).2.if_snd.ifq = s.if_snd.ifq
    ∧ (se_output_queue k env m mcopy s).2.if_snd.ifq_drops = s.if_snd.ifq_drops + 1
    ∧ (se_output_queue k env m mcopy s).2.regs = s.regs
    ∧ (se_output_queue k env m mcopy s).2.mem = s.mem := by
  unfold se_output_queue
  rw [if_pos h]
  exact ⟨rfl, rfl, rfl, rfl, rfl⟩

/-- C13 (defect in the code): with the send queue full, `se_output` drops the chain
through `goto bad` and returns `error`, which nothing on that path has assigned.  The
queue and the registers are unchanged and the drop counter is incremented, but the
value returned is whatever `error` held on entry: with 0 there the caller is told the
chain was sent, and every other value comes back as it was. -/
theorem se_output_full_queue_return :
    (full_queue_ctx.if_snd.ifq.length ≥ full_queue_ctx.if_snd.ifq_maxlen)
    ∧ (se_output sample_defs (raw_env 0) (sample_pkt 2) [] raw_dst full_queue_ctx).1 = 0
    ∧ (se_output sample_defs (raw_env 0) (sample_pkt 2) [] raw_dst full_queue_ctx).2.if_snd.ifq
        = [[sample_pkt 1]]
    ∧ (se_output sample_defs (raw_env 0) (sample_pkt 2) [] raw_dst
        full_queue_ctx).2.if_snd.ifq_drops = 1
    ∧ (se_output sample_defs (raw_env 0) (sample_pkt 2) [] raw_dst full_queue_ctx).2.regs
        = full_queue_ctx.regs
    ∧ (∀ e : Int,
        (se_output sample_defs (raw_env e) (sample_pkt 2) [] raw_dst full_queue_ctx).1 = e) := by
  refine ⟨by decide, by decide, by decide, by decide, rfl, fun e => rfl⟩

/-! ## The read pointer invariant: proofs -/

theorem wait_fcidle_returns (k : hostdefs) :
    ∀ (n : Nat) (s : se_context), s.hw (s.polls + n) % 65536 &&& k.ESTAT_FCIDLE ≠ 0 →
      ∀ fuel, n < fuel → ∃ s', wait_fcidle k fuel s = some s' := by
  intro n
  induction n with
  | zero =>
    intro s h fuel hf
    obtain ⟨f, rfl⟩ : ∃ f, fuel = f + 1 := ⟨fuel - 1, by omega⟩
    simp only [wait_fcidle, ENC624J600_READ_REG]
    rw [Nat.add_zero] at h
    rw [if_neg h]
    exact ⟨_, rfl⟩
  | succ n ih =>
    intro s h fuel hf
    obtain ⟨f, rfl⟩ : ∃ f, fuel = f + 1 := ⟨fuel - 1, by omega⟩
    simp only [wait_fcidle]
    split
    · apply ih
      · simp only [ENC624J600_READ_REG]
        rw [show s.polls + 1 + n = s.polls + (n + 1) by omega]
        exact h
      · omega
    · exact ⟨_, rfl⟩

theorem se_update_linkstate_returns (k : hostdefs) (s : se_context)
    (h : ∀ t, ∃ n, s.hw (t + n) % 65536 &&& k.ESTAT_FCIDLE ≠ 0) :
    ∃ fuel s', se_update_linkstate k fuel s = some s' := by
  obtain ⟨n, hn⟩ := h s.polls
  obtain ⟨s1, hs1⟩ := wait_fcidle_returns k n s hn (n + 1) (Nat.lt_succ_self n)
  refine ⟨n + 1, ?_⟩
  unfold se_update_linkstate
  rw [hs1]
  simp only []
  split
  · exact ⟨_, rfl⟩
  · exact ⟨_, rfl⟩

theorem se_init_regs_hw (k : hostdefs) (s : se_context) :
    (se_update_multicast (se_init_regs k s)).hw = s.hw := by
  have h1 : ∀ s : se_context, (se_update_multicast s).hw = s.hw := fun _ => rfl
  have h2 : ∀ s : se_context, (se_init_enaddr s).hw = s.hw := fun _ => rfl
  have h3 : ∀ s : se_context, (se_init_leds k s).hw = s.hw := fun _ => rfl
  have h4 : ∀ s : se_context, (se_init_clkout k s).hw = s.hw := fun _ => rfl
  have h5 : ∀ s : se_context, (se_init_flow k s).hw = s.hw := fun _ => rfl
  have h6 : ∀ s : se_context, (se_init_rxbuf s).hw = s.hw := fun _ => rfl
  rw [h1]
  unfold se_init_regs
  rw [h2, h3, h4, h5, h6]

theorem se_get_reject_next (k : hostdefs) (fuel : Nat) (s : se_context)
    (hp : rxptr_accepted s) (hn : ¬ ring_valid (rx_next s)) :
    se_get k fuel s
      = (se_rxbuf_reset k fuel
          (printf (msg.bogus_next (rx_next s))
            (se_getbytes s sizeof_se_rxheader).2)).map (fun s1 => (none, s1)) := by
  unfold se_get
  rw [if_neg hp]
  have hn' : rx_next s % 2 ≠ 0 ∨ rx_next s < SE_RXSTART ∨ rx_next s ≥ SE_RXEND := by
    unfold ring_valid at hn
    omega
  simp only [rx_next, rx_header] at hn' ⊢
  simp only [if_pos hn']

theorem se_init_returns (k : hostdefs) (s : se_context) (ha : s.if_addrlist = true)
    (h : ∀ t, ∃ n, s.hw (t + n) % 65536 &&& k.ESTAT_FCIDLE ≠ 0) :
    ∃ fuel s', se_init k fuel s = some (0, s') := by
  have hhw : (se_update_multicast (se_init_regs k s)).hw = s.hw := se_init_regs_hw k s
  obtain ⟨fuel, s1, h1⟩ := se_update_linkstate_returns k
    (se_update_multicast (se_init_regs k s)) (by rw [hhw]; exact h)
  refine ⟨fuel, se_init_finish k (se_init_rxcfg k s1), ?_⟩
  unfold se_init
  rw [if_neg (by rw [ha]; simp), h1]

theorem se_getbytes_valid (s : se_context) (n : Nat) (hp : ring_valid s.rxptr)
    (hn : n % 2 = 0) (hl : n ≤ SE_RXEND - SE_RXSTART) :
    ring_valid (se_getbytes s n).2.rxptr := by
  obtain ⟨h1, h2, h3⟩ := hp
  unfold ring_valid
  rw [se_getbytes_rxptr s n h2 h3 hl]
  simp only [SE_RXSTART, SE_RXEND] at *
  omega

theorem se_rxbuf_reset_valid (k : hostdefs) (fuel : Nat) (s s' : se_context)
    (hp : ring_valid s.rxptr) (h : se_rxbuf_reset k fuel s = some s') :
    ring_valid s'.rxptr := by
  by_cases hj : MAX_RESETS < s.reset_counter
  · rw [se_rxbuf_reset_jail k fuel s hj] at h
    cases h
    exact hp
  · rw [(se_rxbuf_reset_recover k fuel s s' (Nat.le_of_not_lt hj) h).2.2.1]
    decide

theorem se_rxbuf_reset_printf_valid (k : hostdefs) (fuel : Nat) (m : msg)
    (s s' : se_context) (hp : ring_valid s.rxptr)
    (h : se_rxbuf_reset k fuel (printf m s) = some s') : ring_valid s'.rxptr :=
  se_rxbuf_reset_valid k fuel (printf m s) s' hp h

theorem se_get_valid (k : hostdefs) (hM : 0 < k.MLEN) (hC : 0 < k.MCLBYTES) (fuel : Nat)
    (s : se_context) (r : Option (List mbuf) × se_context)
    (hp : ring_valid s.rxptr) (h : se_get k fuel s = some r) : ring_valid r.2.rxptr := by
  have hpa := rxptr_accepted_of_valid s hp
  have h2 : sizeof_se_rxheader % 2 = 0 := rfl
  have h8 : sizeof_se_rxheader ≤ SE_RXEND - SE_RXSTART := by decide
  have hh : ring_valid (se_getbytes s sizeof_se_rxheader).2.rxptr :=
    se_getbytes_valid s _ hp h2 h8
  by_cases hn : ring_valid (rx_next s)
  · by_cases hl : rx_frame_length s + sizeof_ether_header < ETHERMIN
        ∨ rx_frame_length s + sizeof_ether_header > ETHERMTU
    · have e := se_get_reject_length k fuel s hpa hn hl
      rw [h] at e
      obtain ⟨s1, hs1, e1⟩ := Option.map_eq_some'.mp e.symm
      rw [← e1]
      exact se_rxbuf_reset_printf_valid k fuel _ _ s1 hh hs1
    · have hl1 : ETHERMIN ≤ rx_frame_length s + sizeof_ether_header :=
        Nat.le_of_not_lt (fun c => hl (Or.inl c))
      have hl2 : rx_frame_length s + sizeof_ether_header ≤ ETHERMTU :=
        Nat.le_of_not_lt (fun c => hl (Or.inr c))
      obtain ⟨_, _, a3⟩ := se_get_accept_spec k hM hC fuel s hpa hn hl1 hl2
      obtain ⟨_, _, _, _, c5, _⟩ := a3 r h
      rw [c5]
      exact hn
  · have e := se_get_reject_next k fuel s hpa hn
    rw [h] at e
    obtain ⟨s1, hs1, e1⟩ := Option.map_eq_some'.mp e.symm
    rw [← e1]
    exact se_rxbuf_reset_printf_valid k fuel _ _ s1 hh hs1

theorem se_get_returns (k : hostdefs) (hM : 0 < k.MLEN) (hC : 0 < k.MCLBYTES)
    (s : se_context) (hp : ring_valid s.rxptr) (hc : chip_settles k s) :
    ∃ fuel0, ∀ fuel, fuel0 ≤ fuel → ∃ r, se_get k fuel s = some r := by
  have hpa := rxptr_accepted_of_valid s hp
  have hhw := (header_frame s).2.2.2.1
  by_cases hn : ring_valid (rx_next s)
  · by_cases hl : rx_frame_length s + sizeof_ether_header < ETHERMIN
        ∨ rx_frame_length s + sizeof_ether_header > ETHERMTU
    · obtain ⟨fuel0, hf⟩ := se_rxbuf_reset_returns k
        (printf (msg.bogus_length (rx_frame_length s)) (se_getbytes s sizeof_se_rxheader).2)
        (chip_settles_congr k s _ hhw hc)
      refine ⟨fuel0, fun fuel hfu => ?_⟩
      obtain ⟨s', hs'⟩ := hf fuel hfu
      exact ⟨_, by rw [se_get_reject_length k fuel s hpa hn hl, hs']; rfl⟩
    · have hl1 : ETHERMIN ≤ rx_frame_length s + sizeof_ether_header :=
        Nat.le_of_not_lt (fun c => hl (Or.inl c))
      have hl2 : rx_frame_length s + sizeof_ether_header ≤ ETHERMTU :=
        Nat.le_of_not_lt (fun c => hl (Or.inr c))
      refine ⟨ETHERMTU, fun fuel hfu => ?_⟩
      obtain ⟨a1, _, _⟩ := se_get_accept_spec k hM hC fuel s hpa hn hl1 hl2
      exact a1 hfu
  · obtain ⟨fuel0, hf⟩ := se_rxbuf_reset_returns k
      (printf (msg.bogus_next (rx_next s)) (se_getbytes s sizeof_se_rxheader).2)
      (chip_settles_congr k s _ hhw hc)
    refine ⟨fuel0, fun fuel hfu => ?_⟩
    obtain ⟨s', hs'⟩ := hf fuel hfu
    exact ⟨_, by rw [se_get_reject_next k fuel s hpa hn, hs']; rfl⟩

/-- C15: the predicate "`rxptr` is even and `SE_RXSTART <= rxptr < SE_RXEND`" is an
invariant.  Every successful `se_init` establishes it (and `se_init` succeeds when
the address is known and the flow-control engine eventually reads idle).  From a
context that satisfies it, every return of `se_get`, whatever the ring header and the
allocation outcomes and including the returns through the recovery routine and its
give-up branch, and every return of `se_rxbuf_reset` satisfy it again; both calls
return once the chip's receive-busy and packet-pending flags read clear. -/
theorem rxptr_invariant (k : hostdefs) (hM : 0 < k.MLEN) (hC : 0 < k.MCLBYTES) :
    (∀ fuel s s', se_init k fuel s = some (0, s') → ring_valid s'.rxptr)
    ∧ (∀ s, s.if_addrlist = true →
        (∀ t, ∃ n, s.hw (t + n) % 65536 &&& k.ESTAT_FCIDLE ≠ 0) →
        ∃ fuel s', se_init k fuel s = some (0, s'))
    ∧ (∀ s, ring_valid s.rxptr →
        (∀ fuel r, se_get k fuel s = some r → ring_valid r.2.rxptr)
        ∧ (chip_settles k s →
            ∃ fuel0, ∀ fuel, fuel0 ≤ fuel → ∃ r, se_get k fuel s = some r)
        ∧ (∀ fuel s', se_rxbuf_reset k fuel s = some s' → ring_valid s'.rxptr)
        ∧ (chip_settles k s →
            ∃ fuel0, ∀ fuel, fuel0 ≤ fuel → ∃ s', se_rxbuf_reset k fuel s = some s')) := by
  refine ⟨fun fuel s s' h => ?_, fun s ha h => se_init_returns k s ha h, fun s hp => ?_⟩
  · rw [(se_init_ring k fuel s s' h).1]
    decide
  · exact ⟨fun fuel r h => se_get_valid k hM hC fuel s r hp h,
      fun hc => se_get_returns k hM hC s hp hc,
      fun fuel s' h => se_rxbuf_reset_valid k fuel s s' hp h,
      fun hc => se_rxbuf_reset_returns k s hc⟩

/-- C15, at a concrete input: a header with an odd next-packet offset, read at the
last slot of the ring by a driver that has used up its recoveries, sends `se_get`
through the give-up branch; it returns with the read pointer wrapped to
`SE_RXSTART + 6`, a valid offset. -/
theorem rxptr_invariant_witness :
    ∃ r, se_get sample_defs 0 { sample_ctx with rxptr := 0x5ffe, reset_counter := 6 } = some r
      ∧ r.2.rxptr = SE_RXSTART + 6 ∧ ring_valid r.2.rxptr := by
  have h := (rxptr_invariant sample_defs (by decide) (by decide)).2.2
    { sample_ctx with rxptr := 0x5ffe, reset_counter := 6 } (by decide)
  have hs : (se_get sample_defs 0
      { sample_ctx with rxptr := 0x5ffe, reset_counter := 6 }).isSome = true := by decide
  obtain ⟨r, hr⟩ := Option.isSome_iff_exists.mp hs
  have hv := h.1 0 r hr
  refine ⟨r, hr, ?_, hv⟩
  have : (se_get sample_defs 0
      { sample_ctx with rxptr := 0x5ffe, reset_counter := 6 }).map (fun r => r.2.rxptr)
      = some (SE_RXSTART + 6) := by decide
  rw [hr] at this
  exact Option.some.inj this

/-! ## Transmit: proofs -/

theorem mbuf_bytes_length (m : mbuf) : (mbuf_bytes m).length = m.m_len := by
  simp [mbuf_bytes]

theorem chain_bytes_length (m : List mbuf) : (chain_bytes m).length = chain_len m := by
  induction m with
  | nil => rfl
  | cons a m ih =>
    simp only [chain_bytes, chain_len, List.map_cons, List.flatten_cons, List.length_append,
      List.sum_cons, mbuf_bytes_length] at ih ⊢
    rw [ih]

theorem bcopy_to_nil (mem : Nat → Nat) (d a : Nat) : bcopy_to mem d [] a = mem a := by
  simp [bcopy_to]

theorem bcopy_to_append (mem : Nat → Nat) (d : Nat) (xs ys : List Nat) (a : Nat) :
    bcopy_to (bcopy_to mem d xs) (d + xs.length) ys a = bcopy_to mem d (xs ++ ys) a := by
  unfold bcopy_to
  simp only [List.length_append]
  by_cases h1 : d + xs.length ≤ a ∧ a < d + xs.length + ys.length
  · rw [if_pos h1, if_pos (by omega)]
    rw [List.getD_append_right _ _ _ _ (by omega)]
    congr 1
    omega
  · rw [if_neg h1]
    by_cases h2 : d ≤ a ∧ a < d + xs.length
    · rw [if_pos h2, if_pos (by omega)]
      rw [List.getD_append _ _ _ _ (by omega)]
    · rw [if_neg h2, if_neg (by omega)]

theorem bcopy_to_congr (mem mem' : Nat → Nat) (d : Nat) (xs : List Nat) (a : Nat)
    (h : mem' a = mem a) : bcopy_to mem' d xs a = bcopy_to mem d xs a := by
  unfold bcopy_to
  rw [h]

theorem se_put_fold (m : List mbuf) :
    ∀ (t off : Nat) (mem : Nat → Nat),
      (m.foldl
        (fun (acc : Nat × Nat × (Nat → Nat)) (mp : mbuf) =>
          if mp.m_len = 0 then (acc.1 + mp.m_len, acc.2.1, acc.2.2)
          else (acc.1 + mp.m_len, acc.2.1 + mp.m_len,
                bcopy_to acc.2.2 acc.2.1 (mbuf_bytes mp)))
        (t, off, mem)).1 = t + chain_len m
      ∧ ∀ a, (m.foldl
        (fun (acc : Nat × Nat × (Nat → Nat)) (mp : mbuf) =>
          if mp.m_len = 0 then (acc.1 + mp.m_len, acc.2.1, acc.2.2)
          else (acc.1 + mp.m_len, acc.2.1 + mp.m_len,
                bcopy_to acc.2.2 acc.2.1 (mbuf_bytes mp)))
        (t, off, mem)).2.2 a = bcopy_to mem off (chain_bytes m) a := by
  induction m with
  | nil =>
    intro t off mem
    exact ⟨rfl, fun a => (bcopy_to_nil mem off a).symm⟩
  | cons mp m ih =>
    intro t off mem
    simp only [List.foldl_cons]
    have hcl : chain_len (mp :: m) = mp.m_len + chain_len m := by
      simp [chain_len]
    have hcb : chain_bytes (mp :: m) = mbuf_bytes mp ++ chain_bytes m := by
      simp [chain_bytes]
    by_cases h0 : mp.m_len = 0
    · rw [if_pos h0]
      obtain ⟨i1, i2⟩ := ih (t + mp.m_len) off mem
      refine ⟨by rw [i1, hcl]; omega, fun a => ?_⟩
      rw [i2 a, hcb]
      have hnil : mbuf_bytes mp = [] := by
        apply List.eq_nil_of_length_eq_zero
        rw [mbuf_bytes_length, h0]
      rw [hnil, List.nil_append]
    · rw [if_neg h0]
      obtain ⟨i1, i2⟩ := ih (t + mp.m_len) (off + mp.m_len)
        (bcopy_to mem off (mbuf_bytes mp))
      refine ⟨by rw [i1, hcl]; omega, fun a => ?_⟩
      rw [i2 a, hcb, ← bcopy_to_append, mbuf_bytes_length]

theorem se_put_spec (m : List mbuf) (s : se_context) :
    (se_put m s).1 = chain_len m
    ∧ (∀ a, (se_put m s).2.mem a = bcopy_to s.mem 0 (chain_bytes m) a)
    ∧ (se_put m s).2.regs = s.regs
    ∧ (se_put m s).2.if_snd = s.if_snd
    ∧ (se_put m s).2.hw = s.hw
    ∧ (se_put m s).2.polls = s.polls := by
  obtain ⟨h1, h2⟩ := se_put_fold m 0 0 s.mem
  refine ⟨?_, ?_, rfl, rfl, rfl, rfl⟩
  · unfold se_put
    simp only []
    rw [h1, Nat.zero_add]
  · intro a
    unfold se_put
    simp only []
    exact h2 a

theorem tx_buffer_of_mem (s : se_context) (mem : Nat → Nat) (bytes : List Nat)
    (h : ∀ a, s.mem a = bcopy_to mem 0 bytes a) :
    tx_buffer s bytes.length = bytes := by
  unfold tx_buffer
  apply List.ext_getElem
  · simp
  · intro i h1 h2
    simp only [List.getElem_map, List.getElem_range]
    rw [h i]
    unfold bcopy_to
    rw [if_pos ⟨Nat.zero_le _, by omega⟩]
    simp [List.getElem?_eq_getElem h2]

theorem se_start_in_flight (k : hostdefs) (s : se_context) (h : tx_in_flight k s) :
    se_start k s = s := by
  unfold se_start
  unfold tx_in_flight at h
  rw [if_pos h]

theorem se_output_queue_in_flight (k : hostdefs) (env : output_env) (m : List mbuf)
    (mcopy : Bool) (s : se_context) (h : tx_in_flight k s) :
    (se_output_queue k env m mcopy s).2.regs = s.regs
    ∧ (se_output_queue k env m mcopy s).2.mem = s.mem
    ∧ (se_output_queue k env m mcopy s).2.hw = s.hw
    ∧ (se_output_queue k env m mcopy s).2.polls = s.polls
    ∧ (se_output_queue k env m mcopy s).2.if_flags = s.if_flags
    ∧ (se_output_queue k env m mcopy s).2.ac_enaddr = s.ac_enaddr
    ∧ (se_output_queue k env m mcopy s).2.if_snd.ifq_maxlen = s.if_snd.ifq_maxlen
    ∧ (se_output_queue k env m mcopy s).2.mget = s.mget
    ∧ (se_output_queue k env m mcopy s).2.if_snd.ifq
        = s.if_snd.ifq ++ (if s.if_snd.ifq.length ≥ s.if_snd.ifq_maxlen then [] else [m])
    ∧ (s.if_snd.ifq.length < s.if_snd.ifq_maxlen → mcopy = false →
        (se_output_queue k env m mcopy s).1 = 0) := by
  unfold se_output_queue
  by_cases hf : s.if_snd.ifq.length ≥ s.if_snd.ifq_maxlen
  · rw [if_pos hf, if_pos hf]
    exact ⟨rfl, rfl, rfl, rfl, rfl, rfl, rfl, rfl, (List.append_nil _).symm,
      fun c => by omega⟩
  · rw [if_neg hf, if_neg hf]
    have h' : tx_in_flight k
        { s with if_snd := { s.if_snd with ifq := s.if_snd.ifq ++ [m] } } := h
    rw [se_start_in_flight k _ h']
    refine ⟨rfl, rfl, rfl, rfl, rfl, rfl, rfl, rfl, rfl, fun _ hm => ?_⟩
    rw [hm]
    rfl

theorem tx_untouched_refl (s : se_context) : tx_untouched s s :=
  ⟨rfl, rfl, rfl, rfl, rfl, rfl, rfl, rfl⟩

theorem tx_untouched_trans {a b c : se_context} (h1 : tx_untouched a b)
    (h2 : tx_untouched b c) : tx_untouched a c := by
  obtain ⟨a1, a2, a3, a4, a5, a6, a7, a8⟩ := h1
  obtain ⟨b1, b2, b3, b4, b5, b6, b7, b8⟩ := h2
  exact ⟨by rw [b1, a1], by rw [b2, a2], by rw [b3, a3], by rw [b4, a4], by rw [b5, a5],
    by rw [b6, a6], by rw [b7, a7], by rw [b8, a8]⟩

theorem tx_in_flight_congr (k : hostdefs) (s s' : se_context) (h : s'.regs = s.regs)
    (hf : tx_in_flight k s) : tx_in_flight k s' := by
  unfold tx_in_flight at *
  have e : (ENC624J600_READ_REG reg.ECON1 s').1 = s'.regs reg.ECON1 := rfl
  have e' : (ENC624J600_READ_REG reg.ECON1 s).1 = s.regs reg.ECON1 := rfl
  rw [e, h, ← e']
  exact hf

theorem se_output_queue_quiet (k : hostdefs) (env : output_env) (m : List mbuf)
    (mcopy : Bool) (s : se_context) (h : tx_in_flight k s) :
    tx_untouched s (se_output_queue k env m mcopy s).2
    ∧ ∃ new, new.length ≤ 1
        ∧ (se_output_queue k env m mcopy s).2.if_snd.ifq = s.if_snd.ifq ++ new := by
  obtain ⟨q1, q2, q3, q4, q5, q6, q7, q0, q8, _⟩ :=
    se_output_queue_in_flight k env m mcopy s h
  refine ⟨⟨q1, q2, q3, q4, q5, q6, q7, q0⟩, _, ?_, q8⟩
  split <;> simp

theorem se_output_header_quiet (k : hostdefs) (env : output_env) (type : Nat)
    (edst : List Nat) (mcopy : Bool) (m : mbuf) (rest : List mbuf) (s : se_context)
    (h : tx_in_flight k s) :
    tx_untouched s (se_output_header k env type edst mcopy m rest s).2
    ∧ ∃ new, new.length ≤ 1
        ∧ (se_output_header k env type edst mcopy m rest s).2.if_snd.ifq
            = s.if_snd.ifq ++ new := by
  unfold se_output_header
  simp only []
  split
  · have hm : tx_untouched s (MGET k s).2 := ⟨rfl, rfl, rfl, rfl, rfl, rfl, rfl, rfl⟩
    have hq : (MGET k s).2.if_snd.ifq = s.if_snd.ifq := rfl
    split
    · exact ⟨hm, [], by simp, by rw [hq, List.append_nil]⟩
    · next mh _ =>
      obtain ⟨u, new, hl, hn⟩ := se_output_queue_quiet k env
        ({ mh with m_off := k.MMINOFF, m_len := sizeof_ether_header,
                   m_dat := bytes6 edst ++ bytes6 s.ac_enaddr ++ [type / 256 % 256, type % 256] }
          :: m :: rest) mcopy (MGET k s).2 (tx_in_flight_congr k s _ rfl h)
      exact ⟨tx_untouched_trans hm u, new, hl, by rw [hn, hq]⟩
  · exact se_output_queue_quiet k env _ mcopy s h

theorem se_output_quiet (k : hostdefs) (c : output_call) (s : se_context)
    (h : tx_in_flight k s) :
    tx_untouched s (se_output k c.env c.m c.rest c.dst s).2
    ∧ ∃ new, new.length ≤ 1
        ∧ (se_output k c.env c.m c.rest c.dst s).2.if_snd.ifq = s.if_snd.ifq ++ new := by
  have hs : tx_untouched s s ∧ ∃ new : List (List mbuf), new.length ≤ 1
      ∧ s.if_snd.ifq = s.if_snd.ifq ++ new :=
    ⟨tx_untouched_refl s, [], by simp, by simp⟩
  unfold se_output
  split
  · exact hs
  · split
    · split
      · exact hs
      · exact se_output_header_quiet k c.env _ _ _ c.m c.rest s h
    · exact se_output_header_quiet k c.env _ _ _ c.m c.rest s h
    · split
      · exact se_output_queue_quiet k c.env _ _ s h
      · exact hs
    · exact se_output_queue_quiet k c.env _ _ s h
    · exact ⟨⟨rfl, rfl, rfl, rfl, rfl, rfl, rfl, rfl⟩, [], by simp, by
        show s.if_snd.ifq = s.if_snd.ifq ++ []
        simp⟩

theorem se_output_seq_quiet (k : hostdefs) (calls : List output_call) :
    ∀ s : se_context, tx_in_flight k s →
      tx_untouched s (se_output_seq k calls s)
      ∧ ∃ new, new.length ≤ calls.length
          ∧ (se_output_seq k calls s).if_snd.ifq = s.if_snd.ifq ++ new := by
  induction calls with
  | nil =>
    intro s _
    exact ⟨tx_untouched_refl s, [], by simp, by simp [se_output_seq]⟩
  | cons c cs ih =>
    intro s h
    obtain ⟨u1, n1, l1, e1⟩ := se_output_quiet k c s h
    obtain ⟨u2, n2, l2, e2⟩ := ih _ (tx_in_flight_congr k s _ u1.1 h)
    refine ⟨tx_untouched_trans u1 u2, n1 ++ n2, ?_, ?_⟩
    · simp only [List.length_append, List.length_cons]
      omega
    · show (se_output_seq k cs (se_output k c.env c.m c.rest c.dst s).2).if_snd.ifq = _
      rw [e2, e1, List.append_assoc]

theorem irq_frame_trans {n m : Nat} {a b c : se_context} (h1 : irq_frame n a b)
    (h2 : irq_frame m b c) : irq_frame (n + m) a c := by
  obtain ⟨a1, a2, a3, a4, a5⟩ := h1
  obtain ⟨b1, b2, b3, b4, b5⟩ := h2
  exact ⟨by rw [b1, a1], by rw [b2, a2], by rw [b3, a3], by rw [b4, a4, Nat.add_assoc],
    fun r hr => by rw [b5 r hr, a5 r hr]⟩

theorem irq_frame_read (s : se_context) :
    irq_frame 1 s (ENC624J600_READ_REG reg.EIR s).2 :=
  ⟨rfl, rfl, rfl, rfl, fun _ _ => rfl⟩

theorem irq_frame_clear (m : Nat) (s : se_context) :
    irq_frame 0 s (ENC624J600_CLEAR_BITS reg.EIR m s) := by
  refine ⟨rfl, rfl, rfl, rfl, fun r hr => ?_⟩
  simp [ENC624J600_CLEAR_BITS, hr]

theorem sent_of_irq_frame (k : hostdefs) (m : List mbuf) (n : Nat) (a b : se_context)
    (h : irq_frame n a b) (hs : sent k m a) : sent k m b := by
  obtain ⟨a1, _, _, _, a5⟩ := h
  obtain ⟨s1, s2, s3, s4⟩ := hs
  unfold sent tx_buffer at *
  rw [a1, a5 reg.ETXST (by decide), a5 reg.ETXLEN (by decide), a5 reg.ECON1 (by decide)]
  exact ⟨s1, s2, s3, s4⟩

theorem se_start_sends (k : hostdefs) (m : List mbuf) (q : List (List mbuf))
    (s : se_context) (hq : s.if_snd.ifq = m :: q)
    (h0 : s.regs reg.ECON1 &&& k.ECON1_TXRTS = 0) :
    sent k m (se_start k s) ∧ (se_start k s).if_snd.ifq = q
    ∧ (se_start k s).hw = s.hw ∧ (se_start k s).polls = s.polls := by
  have h0' : ¬ ((ENC624J600_READ_REG reg.ECON1 s).1 &&& k.ECON1_TXRTS ≠ 0) :=
    not_not.mpr h0
  unfold se_start
  rw [if_neg h0']
  simp only [hq]
  obtain ⟨p1, p2, p3, p4, p5, p6⟩ := se_put_spec m
    { s with if_snd := { s.if_snd with ifq := q } }
  generalize se_put m { s with if_snd := { s.if_snd with ifq := q } } = r at p1 p2 p3 p4 p5 p6
  refine ⟨⟨?_, ?_, ?_, ?_⟩, ?_, ?_, ?_⟩
  · have := tx_buffer_of_mem
      (ENC624J600_SET_BITS reg.ECON1 k.ECON1_TXRTS
        (ENC624J600_WRITE_REG reg.ETXLEN (SWAPBYTES r.1)
          (ENC624J600_WRITE_REG reg.ETXST 0 r.2))) s.mem (chain_bytes m) p2
    rw [chain_bytes_length] at this
    exact this
  · simp [ENC624J600_SET_BITS, ENC624J600_WRITE_REG]
  · simp [ENC624J600_SET_BITS, ENC624J600_WRITE_REG, p1,
      Nat.mod_eq_of_lt (SWAPBYTES_lt _)]
  · simp [ENC624J600_SET_BITS, and_or_self]
  · show r.2.if_snd.ifq = q
    rw [p4]
  · show r.2.hw = s.hw
    rw [p5]
  · show r.2.polls = s.polls
    rw [p6]

theorem seint_link_idle (k : hostdefs) (fuel : Nat) (s : se_context)
    (h : s.hw s.polls % 65536 &&& k.EIR_LINKIF = 0) :
    seint_link k fuel s = some (ENC624J600_READ_REG reg.EIR s).2 := by
  unfold seint_link
  have h' : ¬ ((ENC624J600_READ_REG reg.EIR s).1 &&& k.EIR_LINKIF ≠ 0) := not_not.mpr h
  rw [if_neg h']

theorem seint_tx_sends (k : hostdefs) (m : List mbuf) (q : List (List mbuf))
    (s : se_context) (hq : s.if_snd.ifq = m :: q)
    (h0 : s.regs reg.ECON1 &&& k.ECON1_TXRTS = 0)
    (h : s.hw s.polls % 65536 &&& (k.EIR_TXIF ||| k.EIR_TXABTIF) ≠ 0) :
    sent k m (seint_tx k s) ∧ (seint_tx k s).if_snd.ifq = q
    ∧ (seint_tx k s).hw = s.hw ∧ (seint_tx k s).polls = s.polls + 2 := by
  have h' : (ENC624J600_READ_REG reg.EIR s).1 &&& (k.EIR_TXIF ||| k.EIR_TXABTIF) ≠ 0 := h
  unfold seint_tx
  rw [if_pos h']
  simp only []
  have f : ∀ s2 : se_context,
      irq_frame 2 s s2 →
      sent k m (if s2.if_snd.ifq ≠ [] then se_start k s2 else s2)
      ∧ (if s2.if_snd.ifq ≠ [] then se_start k s2 else s2).if_snd.ifq = q
      ∧ (if s2.if_snd.ifq ≠ [] then se_start k s2 else s2).hw = s.hw
      ∧ (if s2.if_snd.ifq ≠ [] then se_start k s2 else s2).polls = s.polls + 2 := by
    intro s2 ⟨a1, a2, a3, a4, a5⟩
    have hq2 : s2.if_snd.ifq = m :: q := by rw [a2, hq]
    rw [if_pos (by rw [hq2]; simp)]
    obtain ⟨b1, b2, b3, b4⟩ := se_start_sends k m q s2 hq2
      (by rw [a5 reg.ECON1 (by decide)]; exact h0)
    exact ⟨b1, b2, by rw [b3, a3], by rw [b4, a4]⟩
  apply f
  have r2 : irq_frame 2 s (ENC624J600_READ_REG reg.EIR (ENC624J600_READ_REG reg.EIR s).2).2 :=
    irq_frame_trans (irq_frame_read s) (irq_frame_read _)
  refine irq_frame_trans (m := 0) ?_ (irq_frame_clear _ _)
  split
  · exact r2
  · exact r2

theorem seint_rxabt_frame (k : hostdefs) (s : se_context) :
    irq_frame 1 s (seint_rxabt k s) := by
  unfold seint_rxabt
  split
  · exact irq_frame_trans (n := 1) (m := 0) (irq_frame_read s)
      (irq_frame_trans (n := 0) (m := 0) (irq_frame_clear _ _) ⟨rfl, rfl, rfl, rfl, fun _ _ => rfl⟩)
  · exact irq_frame_read s

theorem seint_rx_idle (k : hostdefs) (f fuel : Nat) (s : se_context)
    (h : s.hw s.polls % 65536 &&& k.EIR_PKTIF = 0) :
    seint_rx k f (fuel + 1) s = some (ENC624J600_READ_REG reg.EIR s).2 := by
  have h' : ¬ ((ENC624J600_READ_REG reg.EIR s).1 &&& k.EIR_PKTIF ≠ 0) := not_not.mpr h
  simp only [seint_rx]
  rw [if_neg h']

/-- One transmit-complete interrupt with a non-empty send queue. -/
theorem seint_tx_complete (k : hostdefs) (fuel : Nat) (m : List mbuf)
    (q : List (List mbuf)) (s : se_context) (hq : s.if_snd.ifq = m :: q)
    (hr : tx_irq_reads k s.hw s.polls) :
    ∃ s1, seint k (fuel + 1) (chip_tx_done k s) = some s1 ∧ sent k m s1
      ∧ s1.if_snd.ifq = q ∧ s1.hw = s.hw ∧ s1.polls = s.polls + 5 := by
  obtain ⟨r1, r2, r3⟩ := hr
  have hl := seint_link_idle k (fuel + 1) (chip_tx_done k s) r1
  have c0 : (ENC624J600_READ_REG reg.EIR (chip_tx_done k s)).2.regs reg.ECON1
      &&& k.ECON1_TXRTS = 0 := by
    show (if reg.ECON1 = reg.ECON1 then bic (s.regs reg.ECON1) k.ECON1_TXRTS
      else s.regs reg.ECON1) &&& k.ECON1_TXRTS = 0
    rw [if_pos rfl]
    exact bic_and _ _
  obtain ⟨t1, t2, t3, t4⟩ := seint_tx_sends k m q
    (ENC624J600_READ_REG reg.EIR (chip_tx_done k s)).2 hq c0 r2
  have fa := seint_rxabt_frame k (seint_tx k (ENC624J600_READ_REG reg.EIR (chip_tx_done k s)).2)
  have hw4 : (seint_rxabt k (seint_tx k
      (ENC624J600_READ_REG reg.EIR (chip_tx_done k s)).2)).hw = s.hw := by
    rw [fa.2.2.1, t3]
    rfl
  have hp4 : (seint_rxabt k (seint_tx k
      (ENC624J600_READ_REG reg.EIR (chip_tx_done k s)).2)).polls = s.polls + 4 := by
    rw [fa.2.2.2.1, t4]
    show s.polls + 1 + 2 + 1 = s.polls + 4
    omega
  have hx := seint_rx_idle k (fuel + 1) fuel
    (seint_rxabt k (seint_tx k (ENC624J600_READ_REG reg.EIR (chip_tx_done k s)).2))
    (by rw [hw4, hp4]; exact r3)
  refine ⟨(ENC624J600_READ_REG reg.EIR (seint_rxabt k (seint_tx k
    (ENC624J600_READ_REG reg.EIR (chip_tx_done k s)).2))).2, ?_, ?_, ?_, ?_, ?_⟩
  · unfold seint
    rw [hl]
    exact hx
  · exact sent_of_irq_frame k m _ _ _
      (irq_frame_trans fa (irq_frame_read _)) t1
  · show (seint_rxabt k (seint_tx k
      (ENC624J600_READ_REG reg.EIR (chip_tx_done k s)).2)).if_snd.ifq = q
    rw [fa.2.1, t2]
  · show (seint_rxabt k (seint_tx k
      (ENC624J600_READ_REG reg.EIR (chip_tx_done k s)).2)).hw = s.hw
    exact hw4
  · show (seint_rxabt k (seint_tx k
      (ENC624J600_READ_REG reg.EIR (chip_tx_done k s)).2)).polls + 1 = s.polls + 5
    rw [hp4]

theorem ether_header_length (dst src : List Nat) (type : Nat) :
    (ether_header dst src type).length = sizeof_ether_header := by
  simp [ether_header, bytes6, sizeof_ether_header]

theorem ether_header_byte (dst src : List Nat) (type : Nat) :
    ∀ b ∈ ether_header dst src type, b < 256 := by
  intro b hb
  simp only [ether_header, bytes6, List.mem_append, List.mem_map, List.mem_range,
    List.mem_cons, List.mem_singleton, List.not_mem_nil, or_false] at hb
  rcases hb with (⟨i, _, rfl⟩ | ⟨i, _, rfl⟩) | rfl | rfl <;> omega

theorem mbuf_bytes_header (o : Nat) (hdr : List Nat) (h : ∀ b ∈ hdr, b < 256) :
    mbuf_bytes { m_off := o, m_len := hdr.length, m_dat := hdr } = hdr := by
  unfold mbuf_bytes
  apply List.ext_getElem
  · simp
  · intro i h1 h2
    simp only [List.getElem_map, List.getElem_range]
    rw [List.getD_eq_getElem _ _ h2]
    exact Nat.mod_eq_of_lt (h _ (List.getElem_mem h2))

theorem mbuf_bytes_prepend (o : Nat) (hdr : List Nat) (m : mbuf)
    (h : ∀ b ∈ hdr, b < 256) :
    mbuf_bytes { m_off := o, m_len := m.m_len + hdr.length, m_dat := hdr ++ m.m_dat }
      = hdr ++ mbuf_bytes m := by
  unfold mbuf_bytes
  apply List.ext_getElem
  · simp; omega
  · intro i h1 h2
    simp only [List.getElem_map, List.getElem_range]
    by_cases hi : i < hdr.length
    · rw [List.getElem_append_left hi, List.getD_append _ _ _ _ hi,
        List.getD_eq_getElem _ _ hi]
      exact Nat.mod_eq_of_lt (h _ (List.getElem_mem hi))
    · rw [List.getElem_append_right (Nat.le_of_not_lt hi),
        List.getD_append_right _ _ _ _ (Nat.le_of_not_lt hi)]
      simp only [List.getElem_map, List.getElem_range]

/-- The bytes of a chain built by `with_header` are the header followed by the bytes
of the chain it was built from. -/
theorem with_header_bytes (k : hostdefs) (hdr : List Nat) (alloc : Option mbuf) (m : mbuf)
    (rest f : List mbuf) (hl : hdr.length = sizeof_ether_header)
    (hb : ∀ b ∈ hdr, b < 256) (h : with_header k hdr alloc m rest = some f) :
    chain_bytes f = hdr ++ chain_bytes (m :: rest) := by
  unfold with_header at h
  split at h
  · cases h
    simp only [chain_bytes, List.map_cons, List.flatten_cons]
    rw [← hl, mbuf_bytes_prepend _ _ _ hb, List.append_assoc]
  · obtain ⟨mh, _, e⟩ := Option.map_eq_some'.mp h
    rw [← e]
    simp only [chain_bytes, List.map_cons, List.flatten_cons]
    rw [← hl, mbuf_bytes_header _ _ hb]

theorem se_output_header_frame (k : hostdefs) (env : output_env) (type : Nat)
    (edst : List Nat) (mcopy : Bool) (m : mbuf) (rest : List mbuf) (s : se_context)
    (h : tx_in_flight k s) (hcap : s.if_snd.ifq.length < s.if_snd.ifq_maxlen) :
    (se_output_header k env type edst mcopy m rest s).2.if_snd.ifq
      = s.if_snd.ifq
          ++ (with_header k (ether_header edst s.ac_enaddr type) (MGET k s).1 m rest).toList := by
  unfold se_output_header with_header
  simp only []
  by_cases hroom : m.m_off > k.MMAXOFF ∨ k.MMINOFF + sizeof_ether_header > m.m_off
  · rw [if_pos hroom, if_neg (by omega)]
    have hq : (MGET k s).2.if_snd = s.if_snd := rfl
    split
    · next hm =>
      rw [hm]
      show s.if_snd.ifq = s.if_snd.ifq ++ []
      rw [List.append_nil]
    · next mh hm =>
      rw [hm]
      obtain ⟨_, _, _, _, _, _, _, _, q8, _⟩ := se_output_queue_in_flight k env
        ({ mh with m_off := k.MMINOFF, m_len := sizeof_ether_header,
                   m_dat := bytes6 edst ++ bytes6 s.ac_enaddr ++ [type / 256 % 256, type % 256] }
          :: m :: rest) mcopy (MGET k s).2 (tx_in_flight_congr k s _ rfl h)
      rw [q8, hq, if_neg (by omega)]
      rfl
  · rw [if_neg hroom, if_pos (by omega)]
    obtain ⟨_, _, _, _, _, _, _, _, q8, _⟩ := se_output_queue_in_flight k env
      ({ m with m_off := m.m_off - sizeof_ether_header,
                m_len := m.m_len + sizeof_ether_header,
                m_dat := bytes6 edst ++ bytes6 s.ac_enaddr ++ [type / 256 % 256, type % 256]
                  ++ m.m_dat } :: rest) mcopy s h
    rw [q8, if_neg (by omega)]
    rfl

/-- One call of `se_output` while a transmit is in flight, on an up and running
interface with room in the send queue: the chain of the reference is appended. -/
theorem se_output_frame (k : hostdefs) (c : output_call) (s : se_context)
    (hup : up_running k s) (h : tx_in_flight k s)
    (hcap : s.if_snd.ifq.length < s.if_snd.ifq_maxlen) :
    (se_output k c.env c.m c.rest c.dst s).2.if_snd.ifq
      = s.if_snd.ifq ++ (queued_frame k s.ac_enaddr (MGET k s).1 c).toList := by
  have hraw : (se_output_queue k c.env (set_shost s.ac_enaddr c.m :: c.rest) false s).2.if_snd.ifq
      = s.if_snd.ifq ++ [set_shost s.ac_enaddr c.m :: c.rest] := by
    obtain ⟨_, _, _, _, _, _, _, _, q8, _⟩ := se_output_queue_in_flight k c.env
      (set_shost s.ac_enaddr c.m :: c.rest) false s h
    rw [q8, if_neg (by omega)]
  unfold se_output queued_frame
  unfold up_running at hup
  rw [if_neg (not_not.mpr hup)]
  cases hf : c.dst.sa_family
  · simp only []
    cases ha : c.env.arpresolve
    · simp
    · simp only []
      exact se_output_header_frame k c.env _ _ _ c.m c.rest s h hcap
  · simp only []
    exact se_output_header_frame k c.env _ _ _ c.m c.rest s h hcap
  · simp only []
    split
    · exact hraw
    · simp
  · simp only []
    exact hraw
  · simp only []
    show s.if_snd.ifq = s.if_snd.ifq ++ []
    rw [List.append_nil]

theorem se_output_seq_frames (k : hostdefs) (calls : List output_call) :
    ∀ s : se_context, up_running k s → tx_in_flight k s →
      s.if_snd.ifq.length + calls.length ≤ s.if_snd.ifq_maxlen →
      (se_output_seq k calls s).if_snd.ifq = s.if_snd.ifq ++ queued_frames k calls s := by
  induction calls with
  | nil =>
    intro s _ _ _
    simp [se_output_seq, queued_frames]
  | cons c cs ih =>
    intro s hup h hcap
    simp only [List.length_cons] at hcap
    have e1 := se_output_frame k c s hup h (by omega)
    obtain ⟨⟨r1, r2, r3, r4, r5, r6, r7, r8⟩, _⟩ := se_output_quiet k c s h
    have hup' : up_running k (se_output k c.env c.m c.rest c.dst s).2 := by
      unfold up_running at *
      rw [r5]
      exact hup
    have hlen : (queued_frame k s.ac_enaddr (MGET k s).1 c).toList.length ≤ 1 := by
      cases queued_frame k s.ac_enaddr (MGET k s).1 c <;> simp
    have i := ih _ hup' (tx_in_flight_congr k s _ r1 h)
      (by rw [e1, r7, List.length_append]; omega)
    show (se_output_seq k cs (se_output k c.env c.m c.rest c.dst s).2).if_snd.ifq = _
    rw [i, e1, List.append_assoc]
    rfl

/-- With an allocator that never fails the chains queued do not depend on the state
the calls find: each accepted call contributes its frame. -/
theorem queued_frames_alloc (k : hostdefs) (calls : List output_call) :
    ∀ s : se_context, tx_in_flight k s → (∀ n, s.mget n = true) →
      queued_frames k calls s
        = calls.filterMap
            (queued_frame k s.ac_enaddr (some { m_off := k.MMINOFF, m_len := 0, m_dat := [] })) := by
  induction calls with
  | nil =>
    intro s _ _
    rfl
  | cons c cs ih =>
    intro s h hall
    obtain ⟨⟨r1, r2, r3, r4, r5, r6, r7, r8⟩, _⟩ := se_output_quiet k c s h
    have i := ih _ (tx_in_flight_congr k s _ r1 h) (by rw [r8]; exact hall)
    have hm : (MGET k s).1 = some { m_off := k.MMINOFF, m_len := 0, m_dat := [] } := by
      unfold MGET
      simp only []
      rw [if_pos (hall _)]
    show (queued_frame k s.ac_enaddr (MGET k s).1 c).toList
      ++ queued_frames k cs (se_output k c.env c.m c.rest c.dst s).2 = _
    rw [i, r6, hm, List.filterMap_cons]
    cases queued_frame k s.ac_enaddr (some { m_off := k.MMINOFF, m_len := 0, m_dat := [] }) c
      <;> simp

theorem queued_frame_bytes (k : hostdefs) (enaddr : List Nat) (alloc : Option mbuf)
    (c : output_call) (f : List mbuf) (h : queued_frame k enaddr alloc c = some f) :
    (c.dst.sa_family = sa_family_t.AF_UNSPEC →
      chain_bytes f
        = ether_header c.dst.sa_data enaddr (load16 c.dst.sa_data 12)
            ++ chain_bytes (c.m :: c.rest))
    ∧ (c.dst.sa_family = sa_family_t.AF_INET → ∀ edst, c.env.arpresolve = some edst →
      chain_bytes f = ether_header edst enaddr k.ETHERTYPE_IP ++ chain_bytes (c.m :: c.rest)) := by
  unfold queued_frame at h
  refine ⟨fun hf => ?_, fun hf edst ha => ?_⟩
  · rw [hf] at h
    simp only [] at h
    exact with_header_bytes k _ alloc c.m c.rest f (ether_header_length _ _ _)
      (ether_header_byte _ _ _) h
  · rw [hf] at h
    simp only [ha] at h
    exact with_header_bytes k _ alloc c.m c.rest f (ether_header_length _ _ _)
      (ether_header_byte _ _ _) h

theorem bic_clear_keep (v m t : Nat) (h : v &&& t = 0) : bic v m &&& t = 0 := by
  apply Nat.eq_of_testBit_eq
  intro i
  have hi : (v &&& t).testBit i = false := by rw [h]; simp
  simp only [Nat.testBit_and] at hi
  simp only [bic, Nat.testBit_and, Nat.testBit_xor, Nat.zero_testBit]
  cases hv : v.testBit i <;> cases hb : t.testBit i <;> cases hm : m.testBit i <;>
    simp_all

theorem or_set_keep (v x b : Nat) (h : v &&& b = b) : (v ||| x) &&& b = b := by
  apply Nat.eq_of_testBit_eq
  intro i
  have hi : (v &&& b).testBit i = b.testBit i := by rw [h]
  simp only [Nat.testBit_and] at hi
  simp only [Nat.testBit_and, Nat.testBit_or]
  cases hv : v.testBit i <;> cases hb : b.testBit i <;> cases hx : x.testBit i <;>
    simp_all

theorem bic_set_keep (v m b : Nat) (hb : b &&& m = 0) (h : v &&& b = b) :
    bic v m &&& b = b := by
  rw [bic_keep v m b hb, h]

theorem irq_kept_refl (k : hostdefs) (s : se_context) : irq_kept k s s :=
  ⟨rfl, rfl, rfl, Nat.le_refl _, rfl, rfl, fun _ _ h => h⟩

theorem irq_kept_trans {k : hostdefs} {a b c : se_context} (h1 : irq_kept k a b)
    (h2 : irq_kept k b c) : irq_kept k a c := by
  obtain ⟨a1, a2, a3, a4, a5, a6, a7⟩ := h1
  obtain ⟨b1, b2, b3, b4, b5, b6, b7⟩ := h2
  exact ⟨by rw [b1, a1], by rw [b2, a2], by rw [b3, a3], Nat.le_trans a4 b4, by rw [b5, a5],
    by rw [b6, a6], fun b hb h => b7 b hb (a7 b hb h)⟩

theorem irq_kept_of_irq_frame (k : hostdefs) (n : Nat) (s s' : se_context)
    (h : irq_frame n s s') : irq_kept k s s' := by
  obtain ⟨a1, a2, a3, a4, a5⟩ := h
  exact ⟨a1, a2, a3, by omega, a5 _ (by decide), a5 _ (by decide),
    fun b _ hb => by rw [a5 _ (by decide)]; exact hb⟩

theorem irq_kept_of_rx_frame (k : hostdefs) (s s' : se_context) (h : rx_frame s s') :
    irq_kept k s s' := by
  unfold rx_frame at h
  rw [h]
  exact ⟨rfl, rfl, rfl, Nat.le_refl _, rfl, rfl, fun _ _ h => h⟩

theorem irq_kept_printf (k : hostdefs) (m : msg) (s : se_context) :
    irq_kept k s (printf m s) :=
  ⟨rfl, rfl, rfl, Nat.le_refl _, rfl, rfl, fun _ _ h => h⟩

theorem irq_kept_read (k : hostdefs) (r : reg) (s : se_context) :
    irq_kept k s (ENC624J600_READ_REG r s).2 := by
  cases r <;>
    exact ⟨rfl, rfl, rfl, by simp [ENC624J600_READ_REG], rfl, rfl, fun _ _ h => h⟩

theorem irq_kept_write (k : hostdefs) (r : reg) (v : Nat) (s : se_context)
    (h1 : r ≠ reg.ETXST) (h2 : r ≠ reg.ETXLEN) (h3 : r ≠ reg.ECON1) :
    irq_kept k s (ENC624J600_WRITE_REG r v s) := by
  refine ⟨rfl, rfl, rfl, Nat.le_refl _, ?_, ?_, fun b _ hb => ?_⟩
  · simp [ENC624J600_WRITE_REG, Ne.symm h1]
  · simp [ENC624J600_WRITE_REG, Ne.symm h2]
  · simp only [ENC624J600_WRITE_REG, if_neg (Ne.symm h3)]
    exact hb

theorem irq_kept_set_econ1 (k : hostdefs) (m : Nat) (s : se_context) :
    irq_kept k s (ENC624J600_SET_BITS reg.ECON1 m s) := by
  refine ⟨rfl, rfl, rfl, Nat.le_refl _, ?_, ?_, fun b _ hb => ?_⟩
  · simp [ENC624J600_SET_BITS]
  · simp [ENC624J600_SET_BITS]
  · simp only [ENC624J600_SET_BITS, if_pos]
    exact or_set_keep _ _ _ hb

theorem irq_kept_clear_rxen (k : hostdefs) (s : se_context) :
    irq_kept k s (ENC624J600_CLEAR_BITS reg.ECON1 k.ECON1_RXEN s) := by
  refine ⟨rfl, rfl, rfl, Nat.le_refl _, ?_, ?_, fun b hd hb => ?_⟩
  · simp [ENC624J600_CLEAR_BITS]
  · simp [ENC624J600_CLEAR_BITS]
  · simp only [ENC624J600_CLEAR_BITS, if_pos]
    exact bic_set_keep _ _ _ hd hb

theorem irq_kept_wait_rxbusy (k : hostdefs) :
    ∀ (fuel : Nat) (s s' : se_context), wait_rxbusy k fuel s = some s' →
      irq_kept k s s' := by
  intro fuel
  induction fuel with
  | zero => intro s s' h; cases h
  | succ fuel ih =>
    intro s s' h
    simp only [wait_rxbusy] at h
    split at h
    · exact irq_kept_trans (irq_kept_read k _ s) (ih _ _ h)
    · cases h; exact irq_kept_read k _ s

theorem irq_kept_clear_pending (k : hostdefs) :
    ∀ (fuel d : Nat) (s : se_context) (r : Nat × se_context),
      clear_pending k fuel d s = some r → irq_kept k s r.2 := by
  intro fuel
  induction fuel with
  | zero => intro d s r h; cases h
  | succ fuel ih =>
    intro d s r h
    simp only [clear_pending] at h
    split at h
    · exact irq_kept_trans (irq_kept_trans (irq_kept_read k _ s) (irq_kept_set_econ1 k _ _))
        (ih _ _ _ h)
    · cases h; exact irq_kept_read k _ s

theorem irq_kept_rxbuf_restore (k : hostdefs) (d : Nat) (s : se_context) :
    irq_kept k s (rxbuf_restore k d s) := by
  unfold rxbuf_restore
  simp only []
  refine irq_kept_trans ?_ (irq_kept_set_econ1 k _ _)
  refine irq_kept_trans ?_
    (show irq_kept k _ (timeout (RESET_COUNT_TIME k) _) from
      ⟨rfl, rfl, rfl, Nat.le_refl _, rfl, rfl, fun _ _ h => h⟩)
  refine irq_kept_trans ?_
    (show irq_kept k (ENC624J600_WRITE_REG reg.ERXTAIL (SWAPBYTES (SE_RXEND - 2))
        (ENC624J600_WRITE_REG reg.ERXST (SWAPBYTES SE_RXSTART)
          (if d ≠ 0 then printf (msg.dropped d) s else s)))
      { ENC624J600_WRITE_REG reg.ERXTAIL (SWAPBYTES (SE_RXEND - 2))
        (ENC624J600_WRITE_REG reg.ERXST (SWAPBYTES SE_RXSTART)
          (if d ≠ 0 then printf (msg.dropped d) s else s)) with rxptr := SE_RXSTART } from
      ⟨rfl, rfl, rfl, Nat.le_refl _, rfl, rfl, fun _ _ h => h⟩)
  refine irq_kept_trans ?_ (irq_kept_write k _ _ _ (by decide) (by decide) (by decide))
  refine irq_kept_trans ?_ (irq_kept_write k _ _ _ (by decide) (by decide) (by decide))
  split
  · exact irq_kept_printf k _ s
  · exact irq_kept_refl k s

theorem irq_kept_se_rxbuf_reset (k : hostdefs) (fuel : Nat) (s s' : se_context)
    (h : se_rxbuf_reset k fuel s = some s') : irq_kept k s s' := by
  have h0 : irq_kept k s
      { untimeout (ENC624J600_CLEAR_BITS reg.ECON1 k.ECON1_RXEN s) with
        reset_counter :=
          ((untimeout (ENC624J600_CLEAR_BITS reg.ECON1 k.ECON1_RXEN s)).reset_counter + 1)
            % 2 ^ 32 } :=
    irq_kept_trans (irq_kept_clear_rxen k s)
      ⟨rfl, rfl, rfl, Nat.le_refl _, rfl, rfl, fun _ _ h => h⟩
  unfold se_rxbuf_reset at h
  simp only [] at h
  split at h
  · cases h
    exact irq_kept_trans h0 (irq_kept_printf k _ _)
  · split at h
    · cases h
    · next s2 hw =>
      split at h
      · cases h
      · next r hc =>
        cases h
        exact irq_kept_trans h0 (irq_kept_trans (irq_kept_printf k _ _)
          (irq_kept_trans (irq_kept_wait_rxbusy k _ _ _ hw)
            (irq_kept_trans (irq_kept_clear_pending k _ _ _ _ hc)
              (irq_kept_rxbuf_restore k _ _))))

theorem irq_kept_se_get_done (k : hostdefs) (next : Nat) (top : Option (List mbuf))
    (s : se_context) : irq_kept k s (se_get_done next top s).2 := by
  obtain ⟨a1, a2, a3, a4, a5, a6, a7⟩ := irq_kept_write k reg.ERXTAIL
    (SWAPBYTES (if (next + 65536 - 2) % 65536 < SE_RXSTART then SE_RXEND - 2
      else (next + 65536 - 2) % 65536)) s (by decide) (by decide) (by decide)
  exact ⟨a1, a2, a3, a4, a5, a6, a7⟩

theorem irq_kept_se_get_body (k : hostdefs) (fuel len next : Nat) (s : se_context)
    (r : Option (List mbuf) × se_context) (h : se_get_body k fuel len next s = some r) :
    irq_kept k s r.2 := by
  unfold se_get_body at h
  have hm : irq_kept k s (MGET k s).2 := irq_kept_of_rx_frame k _ _ (rx_frame_MGET k s)
  split at h
  · cases h
    exact irq_kept_trans hm (irq_kept_se_get_done k _ _ _)
  · simp only [] at h
    obtain ⟨r0, hr0, e⟩ := Option.map_eq_some'.mp h
    rw [← e]
    exact irq_kept_trans hm
      (irq_kept_trans (irq_kept_of_rx_frame k _ _ (rx_frame_getbytes _ _))
        (irq_kept_trans (irq_kept_of_rx_frame k _ _ (se_get_chain_frame k _ _ _ _ hr0))
          (irq_kept_se_get_done k _ _ _)))

theorem irq_kept_se_get (k : hostdefs) (fuel : Nat) (s : se_context)
    (r : Option (List mbuf) × se_context) (h : se_get k fuel s = some r) :
    irq_kept k s r.2 := by
  have hh : irq_kept k s (se_getbytes s sizeof_se_rxheader).2 :=
    irq_kept_of_rx_frame k _ _ (rx_frame_getbytes _ _)
  unfold se_get at h
  split at h
  · obtain ⟨s1, hs1, e⟩ := Option.map_eq_some'.mp h
    rw [← e]
    exact irq_kept_trans (irq_kept_printf k _ s) (irq_kept_se_rxbuf_reset k _ _ _ hs1)
  · simp only [] at h
    split at h
    · obtain ⟨s1, hs1, e⟩ := Option.map_eq_some'.mp h
      rw [← e]
      exact irq_kept_trans hh
        (irq_kept_trans (irq_kept_printf k _ _) (irq_kept_se_rxbuf_reset k _ _ _ hs1))
    · split at h
      · obtain ⟨s1, hs1, e⟩ := Option.map_eq_some'.mp h
        rw [← e]
        exact irq_kept_trans hh
          (irq_kept_trans (irq_kept_printf k _ _) (irq_kept_se_rxbuf_reset k _ _ _ hs1))
      · exact irq_kept_trans hh (irq_kept_se_get_body k _ _ _ _ _ h)

theorem irq_kept_se_rpkt (k : hostdefs) (fuel : Nat) (s s' : se_context)
    (h : se_rpkt k fuel s = some s') : irq_kept k s s' := by
  have h0 : irq_kept k s { s with if_ipackets := s.if_ipackets + 1 } :=
    ⟨rfl, rfl, rfl, Nat.le_refl _, rfl, rfl, fun _ _ h => h⟩
  unfold se_rpkt at h
  split at h
  · cases h
  · next s1 hg =>
    cases h
    exact irq_kept_trans h0
      (irq_kept_trans (irq_kept_se_get k _ _ _ hg) (irq_kept_printf k _ _))
  · next m s1 hg =>
    cases h
    exact irq_kept_trans h0
      (irq_kept_trans (irq_kept_se_get k _ _ _ hg)
        ⟨rfl, rfl, rfl, Nat.le_refl _, rfl, rfl, fun _ _ h => h⟩)

theorem irq_kept_seint_rx (k : hostdefs) (f : Nat) :
    ∀ (fuel : Nat) (s s' : se_context), seint_rx k f fuel s = some s' →
      irq_kept k s s' := by
  intro fuel
  induction fuel with
  | zero => intro s s' h; cases h
  | succ fuel ih =>
    intro s s' h
    simp only [seint_rx] at h
    split at h
    · split at h
      · cases h
      · next s1 hr =>
        exact irq_kept_trans (irq_kept_read k _ s)
          (irq_kept_trans (irq_kept_set_econ1 k _ _)
            (irq_kept_trans (irq_kept_se_rpkt k _ _ _ hr) (ih _ _ h)))
    · cases h
      exact irq_kept_read k _ s

theorem sent_of_irq_kept (k : hostdefs) (m : List mbuf) (a b : se_context)
    (hd : txrts_apart k) (h : irq_kept k a b) (hs : sent k m a) : sent k m b := by
  obtain ⟨a1, _, _, _, a5, a6, a7⟩ := h
  obtain ⟨s1, s2, s3, s4⟩ := hs
  refine ⟨?_, by rw [a5]; exact s2, by rw [a6]; exact s3, a7 _ hd s4⟩
  unfold tx_buffer at *
  rw [a1]
  exact s1

theorem link_kept_refl (s : se_context) : link_kept s s :=
  ⟨rfl, rfl, rfl, Nat.le_refl _, fun _ h => h⟩

theorem link_kept_trans {a b c : se_context} (h1 : link_kept a b) (h2 : link_kept b c) :
    link_kept a c := by
  obtain ⟨a1, a2, a3, a4, a5⟩ := h1
  obtain ⟨b1, b2, b3, b4, b5⟩ := h2
  exact ⟨by rw [b1, a1], by rw [b2, a2], by rw [b3, a3], Nat.le_trans a4 b4,
    fun t h => b5 t (a5 t h)⟩

theorem link_kept_read (r : reg) (s : se_context) :
    link_kept s (ENC624J600_READ_REG r s).2 := by
  cases r <;> exact ⟨rfl, rfl, rfl, by simp [ENC624J600_READ_REG], fun _ h => h⟩

theorem link_kept_printf (m : msg) (s : se_context) : link_kept s (printf m s) :=
  ⟨rfl, rfl, rfl, Nat.le_refl _, fun _ h => h⟩

theorem link_kept_write (r : reg) (v : Nat) (s : se_context) (hr : r ≠ reg.ECON1) :
    link_kept s (ENC624J600_WRITE_REG r v s) := by
  refine ⟨rfl, rfl, rfl, Nat.le_refl _, fun t h => ?_⟩
  simp only [ENC624J600_WRITE_REG, if_neg (Ne.symm hr)]
  exact h

theorem link_kept_set (r : reg) (v : Nat) (s : se_context) (hr : r ≠ reg.ECON1) :
    link_kept s (ENC624J600_SET_BITS r v s) := by
  refine ⟨rfl, rfl, rfl, Nat.le_refl _, fun t h => ?_⟩
  simp only [ENC624J600_SET_BITS, if_neg (Ne.symm hr)]
  exact h

theorem link_kept_clear (r : reg) (v : Nat) (s : se_context) :
    link_kept s (ENC624J600_CLEAR_BITS r v s) := by
  refine ⟨rfl, rfl, rfl, Nat.le_refl _, fun t h => ?_⟩
  simp only [ENC624J600_CLEAR_BITS]
  split
  · next e =>
    subst e
    exact bic_clear_keep _ _ _ h
  · exact h

theorem link_kept_wait_fcidle (k : hostdefs) :
    ∀ (fuel : Nat) (s s' : se_context), wait_fcidle k fuel s = some s' → link_kept s s' := by
  intro fuel
  induction fuel with
  | zero => intro s s' h; cases h
  | succ fuel ih =>
    intro s s' h
    simp only [wait_fcidle] at h
    split at h
    · exact link_kept_trans (link_kept_read _ _) (ih _ _ h)
    · cases h; exact link_kept_read _ _

theorem link_kept_se_update_linkstate (k : hostdefs) (fuel : Nat) (s s' : se_context)
    (h : se_update_linkstate k fuel s = some s') : link_kept s s' := by
  unfold se_update_linkstate at h
  split at h
  · cases h
  · next s1 hw =>
    have k1 := link_kept_wait_fcidle k _ _ _ hw
    simp only [] at h
    split at h
    · cases h
      refine link_kept_trans k1 (link_kept_trans (link_kept_read reg.ESTAT s1) ?_)
      exact link_kept_trans (link_kept_trans (link_kept_set reg.MACON2 _ _ (by decide))
        (link_kept_write reg.MABBIPG _ _ (by decide))) (link_kept_set reg.ECON2 _ _ (by decide))
    · cases h
      refine link_kept_trans k1 (link_kept_trans (link_kept_read reg.ESTAT s1) ?_)
      exact link_kept_trans (link_kept_trans (link_kept_trans
        (link_kept_clear reg.MACON2 _ _) (link_kept_write reg.MABBIPG _ _ (by decide)))
        (link_kept_clear reg.ECON2 _ _)) (link_kept_clear reg.ECON1 _ _)

theorem link_kept_seint_link (k : hostdefs) (fuel : Nat) (s s' : se_context)
    (h : seint_link k fuel s = some s') : link_kept s s' := by
  unfold seint_link at h
  split at h
  · simp only [] at h
    split at h
    · cases h
    · next s1 hl =>
      cases h
      exact link_kept_trans (link_kept_read reg.EIR s)
        (link_kept_trans (link_kept_read reg.ESTAT _)
          (link_kept_trans (link_kept_printf _ _)
            (link_kept_trans (link_kept_se_update_linkstate k _ _ _ hl)
              (link_kept_clear reg.EIR _ _))))
  · cases h
    exact link_kept_read reg.EIR s

/-- One call of `seint` that services a transmit completion, whatever else it
services: every return has handed the head of the send queue to the chip. -/
theorem seint_services (k : hostdefs) (fuel : Nat) (m : List mbuf) (q : List (List mbuf))
    (s s1 : se_context) (hd : txrts_apart k) (hq : s.if_snd.ifq = m :: q)
    (h : seint k fuel (chip_tx_done k s) = some s1)
    (ht : tx_serviced k fuel (chip_tx_done k s)) :
    sent k m s1 ∧ s1.if_snd.ifq = q ∧ s1.hw = s.hw ∧ s.polls ≤ s1.polls := by
  obtain ⟨sA, hA, hflag⟩ := ht
  unfold seint at h
  rw [hA] at h
  simp only [] at h
  obtain ⟨l1, l2, l3, l4, l5⟩ := link_kept_seint_link k fuel _ sA hA
  have hqA : sA.if_snd.ifq = m :: q := by
    rw [l2]
    exact hq
  have c0 : sA.regs reg.ECON1 &&& k.ECON1_TXRTS = 0 := by
    apply l5
    show (if reg.ECON1 = reg.ECON1 then bic (s.regs reg.ECON1) k.ECON1_TXRTS
      else s.regs reg.ECON1) &&& k.ECON1_TXRTS = 0
    rw [if_pos rfl]
    exact bic_and _ _
  obtain ⟨t1, t2, t3, t4⟩ := seint_tx_sends k m q sA hqA c0 hflag
  have fa := seint_rxabt_frame k (seint_tx k sA)
  have fr := irq_kept_seint_rx k fuel fuel _ s1 h
  have fk := irq_kept_trans (irq_kept_of_irq_frame k 1 _ _ fa) fr
  have hs := sent_of_irq_kept k m _ s1 hd fk t1
  obtain ⟨k1, k2, k3, k4, _⟩ := fk
  refine ⟨hs, by rw [k2, t2], ?_, ?_⟩
  · rw [k3, t3, l3]
    rfl
  · have : (chip_tx_done k s).polls = s.polls := rfl
    omega

theorem drains_along_queue (k : hostdefs) (hd : txrts_apart k) (q : List (List mbuf)) :
    ∀ s : se_context, s.if_snd.ifq = q → drains_along k q s := by
  induction q with
  | nil =>
    intro s hq
    exact hq
  | cons m q ih =>
    intro s hq fuel s1 h ht
    obtain ⟨e1, e2, _, _⟩ := seint_services k fuel m q s s1 hd hq h ht
    exact ⟨e1, e2, ih s1 e2⟩

theorem se_start_hw (k : hostdefs) (s : se_context) : (se_start k s).hw = s.hw := by
  unfold se_start
  split
  · rfl
  · split
    · rfl
    · rfl

theorem seint_tx_hw (k : hostdefs) (s : se_context) : (seint_tx k s).hw = s.hw := by
  unfold seint_tx
  split
  · simp only []
    have f : ∀ s2 : se_context, s2.hw = s.hw →
        (if s2.if_snd.ifq ≠ [] then se_start k s2 else s2).hw = s.hw := by
      intro s2 h2
      split
      · rw [se_start_hw, h2]
      · exact h2
    apply f
    show (if _ then _ else _ : se_context).hw = s.hw
    split <;> rfl
  · rfl

theorem wait_fcidle_quiet (k : hostdefs) (T : Nat) (s : se_context)
    (hQ : quiet_from k T s.hw) (fuel : Nat) (hf : T < fuel) :
    ∃ s', wait_fcidle k fuel s = some s' :=
  wait_fcidle_returns k (T - s.polls) s (hQ _ (by omega)).1 fuel (by omega)

theorem se_update_linkstate_quiet (k : hostdefs) (T : Nat) (s : se_context)
    (hQ : quiet_from k T s.hw) (fuel : Nat) (hf : T < fuel) :
    ∃ s', se_update_linkstate k fuel s = some s' := by
  obtain ⟨s1, hs1⟩ := wait_fcidle_quiet k T s hQ fuel hf
  unfold se_update_linkstate
  rw [hs1]
  simp only []
  split
  · exact ⟨_, rfl⟩
  · exact ⟨_, rfl⟩

theorem seint_link_quiet (k : hostdefs) (T : Nat) (s : se_context)
    (hQ : quiet_from k T s.hw) (fuel : Nat) (hf : T < fuel) :
    ∃ s', seint_link k fuel s = some s' := by
  unfold seint_link
  split
  · simp only []
    obtain ⟨s1, hs1⟩ := se_update_linkstate_quiet k T
      (printf (msg.link (decide ((ENC624J600_READ_REG reg.ESTAT
          (ENC624J600_READ_REG reg.EIR s).2).1 &&& k.ESTAT_PHYLNK ≠ 0)))
        (ENC624J600_READ_REG reg.ESTAT (ENC624J600_READ_REG reg.EIR s).2).2) hQ fuel hf
    rw [hs1]
    exact ⟨_, rfl⟩
  · exact ⟨_, rfl⟩

theorem se_rxbuf_reset_quiet (k : hostdefs) (T : Nat) (s : se_context)
    (hQ : quiet_from k T s.hw) (fuel : Nat) (hf : T < fuel) :
    ∃ s', se_rxbuf_reset k fuel s = some s' := by
  by_cases hj : MAX_RESETS < s.reset_counter
  · exact ⟨_, se_rxbuf_reset_jail k fuel s hj⟩
  · obtain ⟨s2, hs2⟩ := wait_rxbusy_returns k (T - s.polls)
      (printf (msg.dazed s.rxptr)
        { untimeout (ENC624J600_CLEAR_BITS reg.ECON1 k.ECON1_RXEN s) with
          reset_counter := (s.reset_counter + 1) % 2 ^ 32 })
      (hQ (s.polls + (T - s.polls)) (by omega)).2.1 fuel (by omega)
    have f1 := wait_rxbusy_frame k _ _ _ hs2
    have hhw : s2.hw = s.hw := by rw [f1]; rfl
    have h2 : s2.hw (s2.polls + (T - s2.polls)) % 65536 &&& k.EIR_PKTIF = 0 := by
      rw [hhw]
      exact (hQ _ (by omega)).2.2
    obtain ⟨r, hr⟩ := clear_pending_returns k (T - s2.polls) s2 0 h2 fuel (by omega)
    refine ⟨rxbuf_restore k r.1 r.2, ?_⟩
    unfold se_rxbuf_reset
    have h' : ¬ (untimeout (ENC624J600_CLEAR_BITS reg.ECON1 k.ECON1_RXEN s)).reset_counter
        > MAX_RESETS := hj
    simp only [h', if_false]
    have hw' : wait_rxbusy k fuel
        (printf (msg.dazed
          ({ untimeout (ENC624J600_CLEAR_BITS reg.ECON1 k.ECON1_RXEN s) with
            reset_counter :=
              ((untimeout (ENC624J600_CLEAR_BITS reg.ECON1 k.ECON1_RXEN s)).reset_counter + 1)
                % 2 ^ 32 } : se_context).rxptr)
          { untimeout (ENC624J600_CLEAR_BITS reg.ECON1 k.ECON1_RXEN s) with
            reset_counter :=
              ((untimeout (ENC624J600_CLEAR_BITS reg.ECON1 k.ECON1_RXEN s)).reset_counter + 1)
                % 2 ^ 32 }) = some s2 := hs2
    rw [hw']
    simp only [hr]

theorem se_rxbuf_reset_printf_quiet (k : hostdefs) (T : Nat) (m : msg) (s : se_context)
    (hQ : quiet_from k T s.hw) (fuel : Nat) (hf : T < fuel) :
    ∃ s', se_rxbuf_reset k fuel (printf m s) = some s' :=
  se_rxbuf_reset_quiet k T (printf m s) hQ fuel hf

theorem se_get_quiet (k : hostdefs) (hM : 0 < k.MLEN) (hC : 0 < k.MCLBYTES) (T : Nat)
    (s : se_context) (hQ : quiet_from k T s.hw) (fuel : Nat) (hf : T < fuel)
    (hf2 : ETHERMTU ≤ fuel) : ∃ r, se_get k fuel s = some r := by
  have hQ' : quiet_from k T (se_getbytes s sizeof_se_rxheader).2.hw := by
    rw [(header_frame s).2.2.2.1]
    exact hQ
  by_cases hpa : rxptr_accepted s
  · by_cases hn : ring_valid (rx_next s)
    · by_cases hl : rx_frame_length s + sizeof_ether_header < ETHERMIN
          ∨ rx_frame_length s + sizeof_ether_header > ETHERMTU
      · obtain ⟨s', hs'⟩ := se_rxbuf_reset_printf_quiet k T
          (msg.bogus_length (rx_frame_length s)) _ hQ' fuel hf
        exact ⟨_, by rw [se_get_reject_length k fuel s hpa hn hl, hs']; rfl⟩
      · have hl1 : ETHERMIN ≤ rx_frame_length s + sizeof_ether_header :=
          Nat.le_of_not_lt (fun c => hl (Or.inl c))
        have hl2 : rx_frame_length s + sizeof_ether_header ≤ ETHERMTU :=
          Nat.le_of_not_lt (fun c => hl (Or.inr c))
        obtain ⟨a1, _, _⟩ := se_get_accept_spec k hM hC fuel s hpa hn hl1 hl2
        exact a1 hf2
    · obtain ⟨s', hs'⟩ := se_rxbuf_reset_printf_quiet k T
        (msg.bogus_next (rx_next s)) _ hQ' fuel hf
      exact ⟨_, by rw [se_get_reject_next k fuel s hpa hn, hs']; rfl⟩
  · obtain ⟨s', hs'⟩ := se_rxbuf_reset_printf_quiet k T (msg.bogus_rxptr s.rxptr) s hQ fuel hf
    exact ⟨_, by rw [se_get_bogus_rxptr k fuel s hpa, hs']; rfl⟩

theorem se_rpkt_quiet (k : hostdefs) (hM : 0 < k.MLEN) (hC : 0 < k.MCLBYTES) (T : Nat)
    (s : se_context) (hQ : quiet_from k T s.hw) (fuel : Nat) (hf : T < fuel)
    (hf2 : ETHERMTU ≤ fuel) : ∃ s', se_rpkt k fuel s = some s' := by
  obtain ⟨r, hr⟩ := se_get_quiet k hM hC T { s with if_ipackets := s.if_ipackets + 1 }
    hQ fuel hf hf2
  unfold se_rpkt
  rw [hr]
  obtain ⟨r1, r2⟩ := r
  cases r1
  · exact ⟨_, rfl⟩
  · exact ⟨_, rfl⟩

theorem seint_rx_quiet (k : hostdefs) (hM : 0 < k.MLEN) (hC : 0 < k.MCLBYTES) (T f : Nat)
    (hf : T < f) (hf2 : ETHERMTU ≤ f) :
    ∀ (d : Nat) (s : se_context), quiet_from k T s.hw → T ≤ s.polls + d →
      ∀ lf, d < lf → ∃ s', seint_rx k f lf s = some s' := by
  intro d
  induction d with
  | zero =>
    intro s hQ hp lf hl
    obtain ⟨l, rfl⟩ : ∃ l, lf = l + 1 := ⟨lf - 1, by omega⟩
    exact ⟨_, seint_rx_idle k f l s (hQ _ (by omega)).2.2⟩
  | succ d ih =>
    intro s hQ hp lf hl
    obtain ⟨l, rfl⟩ : ∃ l, lf = l + 1 := ⟨lf - 1, by omega⟩
    by_cases hb : s.hw s.polls % 65536 &&& k.EIR_PKTIF = 0
    · exact ⟨_, seint_rx_idle k f l s hb⟩
    · have hb' : (ENC624J600_READ_REG reg.EIR s).1 &&& k.EIR_PKTIF ≠ 0 := hb
      obtain ⟨s1, hs1⟩ := se_rpkt_quiet k hM hC T
        (ENC624J600_SET_BITS reg.ECON1 k.ECON1_PKTDEC (ENC624J600_READ_REG reg.EIR s).2)
        hQ f hf hf2
      obtain ⟨_, _, k3, k4, _⟩ := irq_kept_se_rpkt k f _ s1 hs1
      have hp1 : (ENC624J600_SET_BITS reg.ECON1 k.ECON1_PKTDEC
          (ENC624J600_READ_REG reg.EIR s).2).polls = s.polls + 1 := rfl
      obtain ⟨s', hs'⟩ := ih s1 (by rw [k3]; exact hQ) (by omega) l (by omega)
      refine ⟨s', ?_⟩
      simp only [seint_rx]
      rw [if_pos hb', hs1]
      exact hs'

/-- Once the chip quiesces `seint` returns, whatever it found pending. -/
theorem seint_quiet (k : hostdefs) (hM : 0 < k.MLEN) (hC : 0 < k.MCLBYTES) (T : Nat)
    (s : se_context) (hQ : quiet_from k T s.hw) (fuel : Nat) (hf : T < fuel)
    (hf2 : ETHERMTU ≤ fuel) : ∃ s1, seint k fuel s = some s1 := by
  obtain ⟨sA, hA⟩ := seint_link_quiet k T s hQ fuel hf
  obtain ⟨_, _, l3, _, _⟩ := link_kept_seint_link k fuel s sA hA
  have hhw : (seint_rxabt k (seint_tx k sA)).hw = s.hw := by
    rw [(seint_rxabt_frame k _).2.2.1, seint_tx_hw, l3]
  obtain ⟨s1, hs1⟩ := seint_rx_quiet k hM hC T fuel hf hf2 T
    (seint_rxabt k (seint_tx k sA)) (by rw [hhw]; exact hQ) (by omega) fuel hf
  refine ⟨s1, ?_⟩
  unfold seint
  rw [hA]
  exact hs1

theorem drains_of_reads (k : hostdefs) (q : List (List mbuf)) :
    ∀ s : se_context, s.if_snd.ifq = q →
      (∀ j, j < q.length → tx_irq_reads k s.hw (s.polls + 5 * j)) →
      drains k q s := by
  induction q with
  | nil =>
    intro s hq _
    exact hq
  | cons m q ih =>
    intro s hq hr
    obtain ⟨s1, e1, e2, e3, e4, e5⟩ := seint_tx_complete k 0 m q s hq
      (by
        have := hr 0 (by simp)
        rw [Nat.mul_zero, Nat.add_zero] at this
        exact this)
    refine ⟨0 + 1, s1, e1, e2, e3, ih s1 e3 (fun j hj => ?_)⟩
    have := hr (j + 1) (by simp only [List.length_cons]; omega)
    rw [e4, e5]
    rw [show s.polls + 5 + 5 * j = s.polls + 5 * (j + 1) by omega]
    exact this

theorem drains_of_quiesce (k : hostdefs) (hM : 0 < k.MLEN) (hC : 0 < k.MCLBYTES)
    (hd : txrts_apart k) (T : Nat) (q : List (List mbuf)) :
    ∀ s : se_context, s.if_snd.ifq = q → quiet_from k T s.hw →
      (∀ n, s.hw n % 65536 &&& (k.EIR_TXIF ||| k.EIR_TXABTIF) ≠ 0) →
      drains k q s := by
  induction q with
  | nil =>
    intro s hq _ _
    exact hq
  | cons m q ih =>
    intro s hq hQ hfl
    have hQ0 : quiet_from k T (chip_tx_done k s).hw := hQ
    obtain ⟨sA, hA⟩ := seint_link_quiet k T (chip_tx_done k s) hQ0 (T + ETHERMTU + 1)
      (by omega)
    obtain ⟨_, _, l3, _, _⟩ := link_kept_seint_link k _ _ sA hA
    have ht : tx_serviced k (T + ETHERMTU + 1) (chip_tx_done k s) := by
      refine ⟨sA, hA, ?_⟩
      show sA.hw sA.polls % 65536 &&& (k.EIR_TXIF ||| k.EIR_TXABTIF) ≠ 0
      rw [l3]
      exact hfl _
    obtain ⟨s1, h1⟩ := seint_quiet k hM hC T (chip_tx_done k s) hQ0 (T + ETHERMTU + 1)
      (by omega) (by omega)
    obtain ⟨e1, e2, e3, _⟩ := seint_services k _ m q s s1 hd hq h1 ht
    exact ⟨_, s1, h1, e1, e2, ih s1 e2 (by rw [e3]; exact hQ) (by rw [e3]; exact hfl)⟩

theorem tx_storm_quiet : quiet_from sample_defs 8 tx_storm_ctx.hw := by
  intro t ht
  have e : tx_storm_ctx.hw t = 0x4008 := by
    show (if t = 0 then 0x4808 else if t = 7 then 0x4048 else 0x4008) = 0x4008
    rw [if_neg (by omega), if_neg (by omega)]
  rw [e]
  decide

theorem tx_storm_flag (n : Nat) :
    tx_storm_ctx.hw n % 65536 &&& (sample_defs.EIR_TXIF ||| sample_defs.EIR_TXABTIF) ≠ 0 := by
  show (if n = 0 then 0x4808 else if n = 7 then 0x4048 else 0x4008) % 65536
    &&& (sample_defs.EIR_TXIF ||| sample_defs.EIR_TXABTIF) ≠ 0
  split
  · decide
  · split
    · decide
    · decide

end SEthernet
